import Mathlib

/-!
Verification of the MCTS-MVC repository (minimum vertex cover via MCTS with
kernelization).  The definitions below are a shallow embedding of the C++
sources in `src/lib/` (`utils.cpp`, `mcts.cpp`, `node.cpp`): machine `int`s
become `ℕ`/`ℤ`, `std::vector` becomes `List`, `std::unordered_set<int>`
becomes `Finset ℕ` (the program only observes membership and cardinality on
the paths modelled here; where the C++ iterates an unordered container we fix
a deterministic order and note it), and the `-1` sentinel used for "no
partner" becomes `Option ℕ`.  Unbounded `while` loops become fuel-indexed
structural recursion; each fuel value is chosen generously and the theorems
below never depend on fuel running out.
-/

namespace MVC

/-- `Graph` from `utils.hpp`: vertex count, adjacency lists, integer vertex
weights (default 1). -/
structure Graph where
  numVertices : ℕ
  adjacencyList : List (List ℕ)
  weights : List ℤ
  deriving Repr, DecidableEq

/-- `Graph::Graph(int numVertices)`: empty adjacencies, weights all 1. -/
def Graph.new (n : ℕ) : Graph :=
  ⟨n, List.replicate n [], List.replicate n 1⟩

/-- Adjacency list of `v` (`g.adjacencyList[v]`). -/
def Graph.adj (g : Graph) (v : ℕ) : List ℕ :=
  g.adjacencyList.getD v []

/-- `Graph::addEdge(u,v)`: append `v` to `adj[u]` and `u` to `adj[v]`. -/
def Graph.addEdge (g : Graph) (u v : ℕ) : Graph :=
  { g with adjacencyList :=
      ((g.adjacencyList.set u (g.adj u ++ [v])).set v
        (((g.adjacencyList.set u (g.adj u ++ [v])).getD v []) ++ [u])) }

/-- Build a graph from a vertex count and an edge list, as the test drivers do
(`Graph g(n); g.addEdge(u,v); ...`). -/
def Graph.ofEdges (n : ℕ) (es : List (ℕ × ℕ)) : Graph :=
  es.foldl (fun g e => g.addEdge e.1 e.2) (Graph.new n)

/-- Well-formedness of a graph, per spec §3: adjacency list has one entry per
vertex, every listed neighbour is a valid index, adjacency is symmetric with
matching multiplicity, no self-loops, and one weight per vertex. -/
structure Graph.WF (g : Graph) : Prop where
  adj_length : g.adjacencyList.length = g.numVertices
  adj_lt : ∀ u v : ℕ, v ∈ g.adj u → v < g.numVertices
  adj_symm : ∀ u v : ℕ, u < g.numVertices → v ∈ g.adj u → u ∈ g.adj v
  no_self : ∀ u : ℕ, u ∉ g.adj u
  weights_length : g.weights.length = g.numVertices

/-- `State` from `utils.hpp`: selection bitmap plus the selected / possible
(live) vertex sets.  The C++ member `expandable` is left uninitialised by
every constructor and is never read on the code paths modelled here, so it is
omitted. -/
structure State where
  isSelected : List Bool
  selectedVertices : Finset ℕ
  possibleVertices : Finset ℕ
  deriving DecidableEq

/-- `State::State(int numVertices)`: all vertices live, none selected. -/
def State.new (n : ℕ) : State :=
  ⟨List.replicate n false, ∅, Finset.range n⟩

/-- `State::State(std::vector<bool>)`: selected where the bit is set, live
elsewhere. -/
def State.ofVector (sel : List Bool) : State :=
  ⟨sel,
   (Finset.range sel.length).filter (fun i => sel.getD i false = true),
   (Finset.range sel.length).filter (fun i => ¬ sel.getD i false = true)⟩

/-- `State::include(int vertex)`: if the index is in range, set the bit, add
to `selectedVertices`, erase from `possibleVertices`; out of range is a
silent no-op.  (The C++ argument is an `int`; negative arguments take the
same no-op branch as arguments `≥ N`, so `ℕ` loses no behaviour.) -/
def State.include' (s : State) (v : ℕ) : State :=
  if v < s.isSelected.length then
    ⟨s.isSelected.set v true, insert v s.selectedVertices, s.possibleVertices.erase v⟩
  else s

/-- `State::exclude(int vertex)`: if in range, erase from
`possibleVertices`; out of range is a silent no-op.  This is the mutation the
C++ performs; the `assert(!isSelected[vertex])` is modelled separately by
`State.excludeChecked`. -/
def State.exclude (s : State) (v : ℕ) : State :=
  if v < s.isSelected.length then
    ⟨s.isSelected, s.selectedVertices, s.possibleVertices.erase v⟩
  else s

/-- `State::exclude` with its assertion: `none` models the
`assert(!isSelected[vertex] && "Excluding a vertex that is not selected")`
firing (abort), `some` the normal return. -/
def State.excludeChecked (s : State) (v : ℕ) : Option State :=
  if v < s.isSelected.length then
    if s.isSelected.getD v false = true then none
    else some ⟨s.isSelected, s.selectedVertices, s.possibleVertices.erase v⟩
  else some s

/-- `State::getActionCounts()`. -/
def State.getActionCounts (s : State) : ℕ :=
  s.possibleVertices.card

/-- `State::isValid(const Graph&)`: every edge `(u,v)` with `u < v` has a
selected endpoint. -/
def State.isValid (s : State) (g : Graph) : Bool :=
  (List.range g.numVertices).all fun u =>
    (g.adj u).all fun v =>
      if u < v then decide (u ∈ s.selectedVertices) || decide (v ∈ s.selectedVertices)
      else true

/-- Number of live neighbours of `v` (counting multiplicity, as the C++ degree
loops do). -/
def liveDegree (g : Graph) (poss : Finset ℕ) (v : ℕ) : ℕ :=
  ((g.adj v).filter (fun u => decide (u ∈ poss))).length

/-- `std::numeric_limits<int>::max()`. -/
def INTMAX : ℕ := 2147483647

namespace NT

/-- Mutable state of the anonymous `NemhauserTrotter` helper class in
`mcts.cpp`: `pairU`/`pairV` (with `-1` as `none`) and the BFS `dist` array. -/
structure HKS where
  pairU : List (Option ℕ)
  pairV : List (Option ℕ)
  dist : List ℕ
  deriving DecidableEq

/-- The initialisation loop of `NemhauserTrotter::bfs`: unmatched live `u` get
`dist 0` and enter the queue (in index order); matched live `u` get
`dist = INT_MAX`; other entries keep their previous value. -/
def bfsInit (n : ℕ) (poss : Finset ℕ) (pairU : List (Option ℕ)) (dist : List ℕ) :
    List ℕ × List ℕ :=
  (List.range n).foldl
    (fun acc u =>
      if u ∈ poss then
        if pairU.getD u none = none then (acc.1 ++ [u], acc.2.set u 0)
        else (acc.1, acc.2.set u INTMAX)
      else acc)
    ([], dist)

/-- Body of the neighbour loop in `NemhauserTrotter::bfs` for the vertex `u`
being processed: accumulator is `(queue, dist, distNIL)`. -/
def bfsInner (poss : Finset ℕ) (pairV : List (Option ℕ)) (u : ℕ) :
    List ℕ → List ℕ × List ℕ × ℕ → List ℕ × List ℕ × ℕ
  | [], acc => acc
  | v :: vs, acc =>
      let q := acc.1
      let dist := acc.2.1
      let distNIL := acc.2.2
      if v ∈ poss then
        match pairV.getD v none with
        | none =>
            if distNIL = INTMAX then bfsInner poss pairV u vs (q, dist, dist.getD u 0 + 1)
            else bfsInner poss pairV u vs acc
        | some w =>
            if dist.getD w 0 = INTMAX then
              bfsInner poss pairV u vs (q ++ [w], dist.set w (dist.getD u 0 + 1), distNIL)
            else bfsInner poss pairV u vs acc
      else bfsInner poss pairV u vs acc

/-- The queue-processing loop of `NemhauserTrotter::bfs` (fuel-indexed; the
fuel used below always exceeds the at most `n` queue insertions). -/
def bfsLoop (g : Graph) (poss : Finset ℕ) (pairV : List (Option ℕ)) :
    ℕ → List ℕ → List ℕ → ℕ → List ℕ × ℕ
  | 0, _, dist, distNIL => (dist, distNIL)
  | _ + 1, [], dist, distNIL => (dist, distNIL)
  | fuel + 1, u :: q, dist, distNIL =>
      if dist.getD u 0 < distNIL then
        let r := bfsInner poss pairV u (g.adj u) (q, dist, distNIL)
        bfsLoop g poss pairV fuel r.1 r.2.1 r.2.2
      else bfsLoop g poss pairV fuel q dist distNIL

/-- `NemhauserTrotter::bfs`: returns the updated `dist` array and whether an
augmenting layer was found (`distNIL != INT_MAX`). -/
def bfs (g : Graph) (poss : Finset ℕ) (st : HKS) : HKS × Bool :=
  let init := bfsInit g.numVertices poss st.pairU st.dist
  let r := bfsLoop g poss st.pairV ((g.numVertices + 1) * (g.numVertices + 1))
    init.1 init.2 INTMAX
  ({ st with dist := r.1 }, decide (r.2 ≠ INTMAX))

/-- `NemhauserTrotter::dfs`, made structural by consuming one unit of fuel per
neighbour step and per recursive entry (the C++ recursion performs at most
`n + Σ deg` such steps per top-level call, far below the fuel used below).
The C++ `u == -1` branch is dead (`dfs` is only ever invoked on a real
vertex) and is not modelled.  The list argument is the not-yet-scanned suffix
of `adj[u]`; exhausting it sets `dist[u] = INT_MAX` and fails. -/
def dfsGo (g : Graph) (poss : Finset ℕ) : ℕ → ℕ → List ℕ → HKS → Bool × HKS
  | 0, _, _, st => (false, st)
  | _ + 1, u, [], st => (false, { st with dist := st.dist.set u INTMAX })
  | fuel + 1, u, v :: vs, st =>
      if v ∈ poss then
        match st.pairV.getD v none with
        | none =>
            (true, { st with pairV := st.pairV.set v (some u), pairU := st.pairU.set u (some v) })
        | some w =>
            if st.dist.getD w 0 = st.dist.getD u 0 + 1 then
              match dfsGo g poss fuel w (g.adj w) st with
              | (true, st') =>
                  (true, { st' with pairV := st'.pairV.set v (some u), pairU := st'.pairU.set u (some v) })
              | (false, st') => dfsGo g poss fuel u vs st'
            else dfsGo g poss fuel u vs st
      else dfsGo g poss fuel u vs st

/-- One augmenting pass of `computeMaxMatching`: try `dfs(u)` for every
unmatched live `u` in index order. -/
def dfsPass (g : Graph) (poss : Finset ℕ) (fuel : ℕ) : List ℕ → HKS → HKS
  | [], st => st
  | u :: us, st =>
      if u ∈ poss && decide (st.pairU.getD u none = none) then
        dfsPass g poss fuel us (dfsGo g poss fuel u (g.adj u) st).2
      else dfsPass g poss fuel us st

/-- `NemhauserTrotter::computeMaxMatching`: `while (bfs()) { ... dfs ... }`,
fuel-indexed (each successful phase enlarges the matching, so at most `n`
phases run). -/
def matchingLoop (g : Graph) (poss : Finset ℕ) : ℕ → HKS → HKS
  | 0, st => st
  | fuel + 1, st =>
      let r := bfs g poss st
      if r.2 then
        matchingLoop g poss fuel
          (dfsPass g poss ((g.numVertices + 1) * (g.numVertices + 1))
            (List.range g.numVertices) r.1)
      else r.1

/-- `NemhauserTrotter::computeMaxMatching` from the all-unmatched initial
state. -/
def computeMaxMatching (g : Graph) (poss : Finset ℕ) : HKS :=
  matchingLoop g poss (g.numVertices + 1)
    ⟨List.replicate g.numVertices none, List.replicate g.numVertices none,
     List.replicate g.numVertices 0⟩

/-- Neighbour loop of the König alternating-reachability BFS in
`getKernelNodes`: accumulator is `(queue, Z_L, Z_R)`. -/
def zbfsInner (poss : Finset ℕ) (pairU pairV : List (Option ℕ)) (u : ℕ) :
    List ℕ → List ℕ × Finset ℕ × Finset ℕ → List ℕ × Finset ℕ × Finset ℕ
  | [], acc => acc
  | v :: vs, acc =>
      let q := acc.1
      let ZL := acc.2.1
      let ZR := acc.2.2
      if v ∈ poss then
        if pairU.getD u none = some v then NT.zbfsInner poss pairU pairV u vs acc
        else if v ∈ ZR then NT.zbfsInner poss pairU pairV u vs acc
        else
          match pairV.getD v none with
          | none => NT.zbfsInner poss pairU pairV u vs (q, ZL, insert v ZR)
          | some w =>
              if w ∈ ZL then NT.zbfsInner poss pairU pairV u vs (q, ZL, insert v ZR)
              else NT.zbfsInner poss pairU pairV u vs (q ++ [w], insert w ZL, insert v ZR)
      else NT.zbfsInner poss pairU pairV u vs acc

/-- Queue loop of the König reachability BFS (fuel-indexed; `none` means the
fuel ran out with a non-empty queue, which the fuel chosen in
`getKernelNodes` never lets happen on well-formed inputs — the theorems below
do not rely on that). -/
def zbfs (g : Graph) (poss : Finset ℕ) (pairU pairV : List (Option ℕ)) :
    ℕ → List ℕ → Finset ℕ → Finset ℕ → Option (Finset ℕ × Finset ℕ)
  | _, [], ZL, ZR => some (ZL, ZR)
  | 0, _ :: _, _, _ => none
  | fuel + 1, u :: q, ZL, ZR =>
      let r := NT.zbfsInner poss pairU pairV u (g.adj u) (q, ZL, ZR)
      zbfs g poss pairU pairV fuel r.1 r.2.1 r.2.2

/-- `NemhauserTrotter::getKernelNodes`: run Hopcroft–Karp, compute the König
sets `Z_L`, `Z_R` by alternating-path BFS from the unmatched left vertices,
and classify each live vertex: `toInclude` if `u ∉ Z_L ∧ u ∈ Z_R` (in the
König cover on both sides), `toExclude` if `u ∈ Z_L ∧ u ∉ Z_R`. -/
def getKernelNodes (g : Graph) (poss : Finset ℕ) : List ℕ × List ℕ :=
  let n := g.numVertices
  let st := computeMaxMatching g poss
  let zl0 := (List.range n).filter (fun u => u ∈ poss && decide (st.pairU.getD u none = none))
  match zbfs g poss st.pairU st.pairV (3 * n + 1) zl0 zl0.toFinset ∅ with
  | none => ([], [])
  | some (ZL, ZR) =>
      ((List.range n).filter (fun u => u ∈ poss && decide (u ∉ ZL) && decide (u ∈ ZR)),
       (List.range n).filter (fun u => u ∈ poss && decide (u ∈ ZL) && decide (u ∉ ZR)))

end NT

/-- Fold of `State::include` over a list (the `for (int u : toInclude)` loop
in rule 4). -/
def includeAll (s : State) (l : List ℕ) : State := l.foldl State.include' s

/-- Fold of `State::exclude` over a list (the `for (int u : toExclude)` loop
in rule 4). -/
def excludeAll (s : State) (l : List ℕ) : State := l.foldl State.exclude s

/-- `MCTS::kernelization(Node*)`: apply at most one reduction rule to the
state, returning whether anything changed together with the new state.
`answer` is the driver's global best cover size consulted by rule 3. -/
def kernelization (g : Graph) (answer : ℕ) (s : State) : Bool × State :=
  -- Rule 1: first live vertex of live-degree 0 is excluded.
  match (List.range g.numVertices).find? (fun v =>
      v ∈ s.possibleVertices && decide (liveDegree g s.possibleVertices v = 0)) with
  | some v => (true, s.exclude v)
  | none =>
  -- Rule 2: first live vertex whose live-degree is 1 (the scanned `neighbor`
  -- variable holds its unique live neighbour, which is necessarily live, so
  -- the C++ `possible.count(neighbor)` re-check always passes): include that
  -- neighbour.
  match (List.range g.numVertices).find? (fun v =>
      v ∈ s.possibleVertices && decide (liveDegree g s.possibleVertices v = 1) &&
      ((g.adj v).filter (fun u => decide (u ∈ s.possibleVertices))).getLastD 0
        ∈ s.possibleVertices) with
  | some v =>
      (true, s.include'
        (((g.adj v).filter (fun u => decide (u ∈ s.possibleVertices))).getLastD 0))
  | none =>
  -- Rule 3: first live vertex of live-degree greater than `answer` is
  -- included.
  match (List.range g.numVertices).find? (fun v =>
      v ∈ s.possibleVertices && decide (answer < liveDegree g s.possibleVertices v)) with
  | some v => (true, s.include' v)
  | none =>
  -- Rule 4: Nemhauser–Trotter via Hopcroft–Karp and König, guarded by
  -- `possibleVertices.size() > 0`.
  if 0 < s.possibleVertices.card then
    if (NT.getKernelNodes g s.possibleVertices).1 ≠ [] ∨
        (NT.getKernelNodes g s.possibleVertices).2 ≠ [] then
      (true, excludeAll (includeAll s (NT.getKernelNodes g s.possibleVertices).1)
        (NT.getKernelNodes g s.possibleVertices).2)
    else (false, s)
  else (false, s)

/-- The driver's `while (this->kernelization(node));` loop, fuel-indexed.
(`claim_C2` below shows fuel `|possible| + 1` always reaches the fixed
point.) -/
def kernelizeLoop (g : Graph) (answer : ℕ) : ℕ → State → State
  | 0, s => s
  | fuel + 1, s =>
      match kernelization g answer s with
      | (true, s') => kernelizeLoop g answer fuel s'
      | (false, _) => s

/-- The root state built by `MCTS::MCTS`: kernelize `State(numVertices)` to a
fixed point with the initial `answer = numVertices`. -/
def mctsRoot (g : Graph) : State :=
  kernelizeLoop g g.numVertices (g.numVertices + 1) (State.new g.numVertices)

/-- The path `P_4` of spec scenario S2. -/
def pathP4 : Graph := Graph.ofEdges 4 [(0, 1), (1, 2), (2, 3)]

/-- Every live vertex is a valid index into the selection bitmap (holds for
every state the driver builds; `State(n)` starts with `possible = range n`
and a length-`n` bitmap, and both operations only shrink `possible` and
preserve the bitmap length). -/
def State.PossWF (s : State) : Prop :=
  ∀ v ∈ s.possibleVertices, v < s.isSelected.length

section StateLemmas

theorem include'_length (s : State) (v : ℕ) :
    (s.include' v).isSelected.length = s.isSelected.length := by
  unfold State.include'; split <;> simp

theorem exclude_length (s : State) (v : ℕ) :
    (s.exclude v).isSelected.length = s.isSelected.length := by
  unfold State.exclude; split <;> simp

theorem include'_possible_subset (s : State) (v : ℕ) :
    (s.include' v).possibleVertices ⊆ s.possibleVertices := by
  unfold State.include'; split
  · exact Finset.erase_subset v s.possibleVertices
  · exact fun x hx => hx

theorem exclude_possible_subset (s : State) (v : ℕ) :
    (s.exclude v).possibleVertices ⊆ s.possibleVertices := by
  unfold State.exclude; split
  · exact Finset.erase_subset v s.possibleVertices
  · exact fun x hx => hx

theorem includeAll_length (l : List ℕ) (s : State) :
    (includeAll s l).isSelected.length = s.isSelected.length := by
  induction l generalizing s with
  | nil => rfl
  | cons v vs ih => simpa [includeAll] using (ih (s.include' v)).trans (include'_length s v)

theorem excludeAll_length (l : List ℕ) (s : State) :
    (excludeAll s l).isSelected.length = s.isSelected.length := by
  induction l generalizing s with
  | nil => rfl
  | cons v vs ih => simpa [excludeAll] using (ih (s.exclude v)).trans (exclude_length s v)

theorem includeAll_possible_subset (l : List ℕ) (s : State) :
    (includeAll s l).possibleVertices ⊆ s.possibleVertices := by
  induction l generalizing s with
  | nil => exact fun x hx => hx
  | cons v vs ih =>
      exact fun x hx =>
        include'_possible_subset s v (ih (s.include' v) (by simpa [includeAll] using hx))

theorem excludeAll_possible_subset (l : List ℕ) (s : State) :
    (excludeAll s l).possibleVertices ⊆ s.possibleVertices := by
  induction l generalizing s with
  | nil => exact fun x hx => hx
  | cons v vs ih =>
      exact fun x hx =>
        exclude_possible_subset s v (ih (s.exclude v) (by simpa [excludeAll] using hx))

theorem include'_possible_card_lt (s : State) (v : ℕ)
    (hv : v ∈ s.possibleVertices) (hlt : v < s.isSelected.length) :
    (s.include' v).possibleVertices.card < s.possibleVertices.card := by
  unfold State.include'
  rw [if_pos hlt]
  calc (s.possibleVertices.erase v).card
      = s.possibleVertices.card - 1 := Finset.card_erase_of_mem hv
    _ < s.possibleVertices.card := Nat.sub_lt (Finset.card_pos.mpr ⟨v, hv⟩) Nat.one_pos

theorem exclude_possible_card_lt (s : State) (v : ℕ)
    (hv : v ∈ s.possibleVertices) (hlt : v < s.isSelected.length) :
    (s.exclude v).possibleVertices.card < s.possibleVertices.card := by
  unfold State.exclude
  rw [if_pos hlt]
  calc (s.possibleVertices.erase v).card
      = s.possibleVertices.card - 1 := Finset.card_erase_of_mem hv
    _ < s.possibleVertices.card := Nat.sub_lt (Finset.card_pos.mpr ⟨v, hv⟩) Nat.one_pos

end StateLemmas

section KernelizationLemmas

/-- Every vertex rule 4 classifies (either direction) is live: both lists are
filters over predicates that require membership in `possible`. -/
theorem getKernelNodes_mem_poss (g : Graph) (poss : Finset ℕ) :
    (∀ u ∈ (NT.getKernelNodes g poss).1, u ∈ poss) ∧
    (∀ u ∈ (NT.getKernelNodes g poss).2, u ∈ poss) := by
  simp only [NT.getKernelNodes]
  split
  · simp
  · constructor <;> intro u hu <;>
    · have hm := List.mem_filter.mp hu
      simp only [Bool.and_eq_true, decide_eq_true_eq] at hm
      tauto

theorem kernelization_false_eq (g : Graph) (a : ℕ) (s : State)
    (h : (kernelization g a s).1 = false) : (kernelization g a s).2 = s := by
  rcases hk : kernelization g a s with ⟨b, s'⟩
  rw [hk] at h
  simp only at h
  subst h
  unfold kernelization at hk
  split at hk
  · simp at hk
  · split at hk
    · simp at hk
    · split at hk
      · simp at hk
      · split at hk
        · split at hk
          · simp at hk
          · injection hk with h1 h2
            simp [h2]
        · injection hk with h1 h2
          simp [h2]

theorem kernelization_true_card_lt (g : Graph) (a : ℕ) (s : State)
    (hWF : State.PossWF s) (h : (kernelization g a s).1 = true) :
    (kernelization g a s).2.possibleVertices.card < s.possibleVertices.card := by
  rcases hk : kernelization g a s with ⟨b, s'⟩
  rw [hk] at h
  simp only at h
  subst h
  simp only
  unfold kernelization at hk
  split at hk
  · next v hv =>
      injection hk with h1 h2
      have hp := List.find?_some hv
      simp only [Bool.and_eq_true, decide_eq_true_eq] at hp
      rw [← h2]
      exact exclude_possible_card_lt s v hp.1 (hWF v hp.1)
  · split at hk
    · next v hv =>
        injection hk with h1 h2
        have hp := List.find?_some hv
        simp only [Bool.and_eq_true, decide_eq_true_eq] at hp
        rw [← h2]
        exact include'_possible_card_lt s _ hp.2 (hWF _ hp.2)
    · split at hk
      · next v hv =>
          injection hk with h1 h2
          have hp := List.find?_some hv
          simp only [Bool.and_eq_true, decide_eq_true_eq] at hp
          rw [← h2]
          exact include'_possible_card_lt s v hp.1 (hWF v hp.1)
      · split at hk
        · split at hk
          · next hne =>
              injection hk with h1 h2
              rw [← h2]
              have hmemI := (getKernelNodes_mem_poss g s.possibleVertices).1
              have hmemE := (getKernelNodes_mem_poss g s.possibleVertices).2
              rcases hti : (NT.getKernelNodes g s.possibleVertices).1 with _ | ⟨v, vs⟩
              · rcases hte : (NT.getKernelNodes g s.possibleVertices).2 with _ | ⟨w, ws⟩
                · rw [hti, hte] at hne
                  simp at hne
                · have hw : w ∈ s.possibleVertices := hmemE w (by rw [hte]; exact List.mem_cons_self w ws)
                  have h1 : (s.exclude w).possibleVertices.card < s.possibleVertices.card :=
                    exclude_possible_card_lt s w hw (hWF w hw)
                  calc (excludeAll (includeAll s []) (w :: ws)).possibleVertices.card
                      ≤ (s.exclude w).possibleVertices.card := by
                        simpa [includeAll, excludeAll] using
                          Finset.card_le_card (excludeAll_possible_subset ws (s.exclude w))
                    _ < s.possibleVertices.card := h1
              · have hv : v ∈ s.possibleVertices := hmemI v (by rw [hti]; exact List.mem_cons_self v vs)
                have h1 : (s.include' v).possibleVertices.card < s.possibleVertices.card :=
                  include'_possible_card_lt s v hv (hWF v hv)
                calc (excludeAll (includeAll s (v :: vs))
                        (NT.getKernelNodes g s.possibleVertices).2).possibleVertices.card
                    ≤ (includeAll s (v :: vs)).possibleVertices.card :=
                      Finset.card_le_card (excludeAll_possible_subset _ _)
                  _ ≤ (s.include' v).possibleVertices.card := by
                      simpa [includeAll] using
                        Finset.card_le_card (includeAll_possible_subset vs (s.include' v))
                  _ < s.possibleVertices.card := h1
          · simp at hk
        · simp at hk

theorem kernelization_preserves_length (g : Graph) (a : ℕ) (s : State) :
    (kernelization g a s).2.isSelected.length = s.isSelected.length := by
  unfold kernelization
  split
  · exact exclude_length s _
  · split
    · exact include'_length s _
    · split
      · exact include'_length s _
      · split
        · split
          · exact ((excludeAll_length _ _).trans (includeAll_length _ _))
          · rfl
        · rfl

theorem kernelization_possible_subset (g : Graph) (a : ℕ) (s : State) :
    (kernelization g a s).2.possibleVertices ⊆ s.possibleVertices := by
  unfold kernelization
  split
  · exact exclude_possible_subset s _
  · split
    · exact include'_possible_subset s _
    · split
      · exact include'_possible_subset s _
      · split
        · split
          · exact fun v hv =>
              includeAll_possible_subset _ s (excludeAll_possible_subset _ _ hv)
          · exact fun v hv => hv
        · exact fun v hv => hv

theorem kernelization_preserves_PossWF (g : Graph) (a : ℕ) (s : State)
    (hWF : State.PossWF s) : State.PossWF (kernelization g a s).2 := by
  intro v hv
  rw [kernelization_preserves_length]
  exact hWF v (kernelization_possible_subset g a s hv)

theorem kernelizeLoop_fixed (g : Graph) (a : ℕ) :
    ∀ fuel s, State.PossWF s → s.possibleVertices.card < fuel →
      (kernelization g a (kernelizeLoop g a fuel s)).1 = false := by
  intro fuel
  induction fuel with
  | zero => intro s _ h; omega
  | succ f ih =>
      intro s hWF hcard
      unfold kernelizeLoop
      rcases hk : kernelization g a s with ⟨b, s'⟩
      cases b with
      | false => simp [hk]
      | true =>
          simp only
          apply ih s'
          · have := kernelization_preserves_PossWF g a s hWF
            rwa [hk] at this
          · have := kernelization_true_card_lt g a s hWF (by rw [hk])
            rw [hk] at this
            simp only at this
            omega

end KernelizationLemmas

instance (s : State) : Decidable (State.PossWF s) := by
  unfold State.PossWF
  infer_instance

/-- Executable check implying `Graph.WF` (used to discharge well-formedness
hypotheses on concrete graphs by `decide`). -/
def Graph.wfCheck (g : Graph) : Bool :=
  decide (g.adjacencyList.length = g.numVertices) &&
  decide (g.weights.length = g.numVertices) &&
  ((List.range g.numVertices).all fun u =>
    (g.adj u).all fun v =>
      decide (v < g.numVertices) && decide (u ∈ g.adj v) && decide (v ≠ u))

theorem Graph.wf_of_check (g : Graph) (h : g.wfCheck = true) : g.WF := by
  unfold Graph.wfCheck at h
  simp only [Bool.and_eq_true, List.all_eq_true, decide_eq_true_eq] at h
  obtain ⟨⟨hlen, hwlen⟩, hall⟩ := h
  have hadj_nil : ∀ u, g.numVertices ≤ u → g.adj u = [] := by
    intro u hu
    unfold Graph.adj
    exact List.getD_eq_default _ _ (by omega)
  refine ⟨hlen, ?_, ?_, ?_, hwlen⟩
  · intro u v hv
    by_cases hu : u < g.numVertices
    · exact ((hall u (List.mem_range.mpr hu) v hv).1).1
    · rw [hadj_nil u (by omega)] at hv
      cases hv
  · intro u v hu hv
    exact ((hall u (List.mem_range.mpr hu) v hv).1).2
  · intro u hv
    by_cases hu : u < g.numVertices
    · exact (hall u (List.mem_range.mpr hu) u hv).2 rfl
    · rw [hadj_nil u (by omega)] at hv
      cases hv

section Simulate

/-- The edge list `(u, v)` with `u < v` that `MCTS::simulate` (and the oracle
loops) build from the adjacency lists. -/
def edgeList (g : Graph) : List (ℕ × ℕ) :=
  (List.range g.numVertices).flatMap fun u =>
    ((g.adj u).filter (fun v => decide (u < v))).map (fun v => (u, v))

/-- `covered(u, v)` from `MCTS::simulate`. -/
def coveredB (sel : List Bool) (e : ℕ × ℕ) : Bool :=
  sel.getD e.1 false || sel.getD e.2 false

/-- `uncoveredExists()` from `MCTS::simulate`. -/
def uncoveredExists (edges : List (ℕ × ℕ)) (sel : List Bool) : Bool :=
  edges.any fun e => ! coveredB sel e

/-- The residual degree `deg[i]` computed by `MCTS::simulate` over the
still-uncovered edges. -/
def residualDeg (edges : List (ℕ × ℕ)) (sel : List Bool) (i : ℕ) : ℕ :=
  (edges.filter (fun e => (! coveredB sel e) && (decide (e.1 = i) || decide (e.2 = i)))).length

/-- One step of the `argmax` scan of `MCTS::simulate` (`best` starts at `-1`,
so any unselected vertex beats an empty accumulator; strict `>` keeps the
first maximiser; the stored `best` value always equals the residual degree of
the stored `w`, so comparing against it is the same as comparing degrees). -/
def pickMaxStep (edges : List (ℕ × ℕ)) (sel : List Bool) (acc : Option ℕ) (i : ℕ) : Option ℕ :=
  if sel.getD i false = false then
    match acc with
    | none => some i
    | some w => if residualDeg edges sel w < residualDeg edges sel i then some i else acc
  else acc

/-- The full `argmax` scan of `MCTS::simulate`. -/
def pickMax (n : ℕ) (edges : List (ℕ × ℕ)) (sel : List Bool) : Option ℕ :=
  (List.range n).foldl (pickMaxStep edges sel) none

/-- The `while (uncoveredExists())` loop of `MCTS::simulate`: pick the
unselected vertex of maximal residual degree and select it; if none exists,
fall back to the first unselected vertex; if even that fails, stop.
Fuel-indexed; `simulateLoop_covers` below shows fuel `n + 1` always
reaches a covered state. -/
def simulateLoop (n : ℕ) (edges : List (ℕ × ℕ)) : ℕ → List Bool → List Bool
  | 0, sel => sel
  | fuel + 1, sel =>
      if uncoveredExists edges sel then
        match pickMax n edges sel with
        | some w => simulateLoop n edges fuel (sel.set w true)
        | none =>
            match (List.range n).find? (fun i => sel.getD i false = false) with
            | some w => simulateLoop n edges fuel (sel.set w true)
            | none => sel
      else sel

/-- The final selection bitmap of `MCTS::simulate` starting from the selected
set of `s`. -/
def simulateSel (g : Graph) (s : State) : List Bool :=
  simulateLoop g.numVertices (edgeList g) (g.numVertices + 1)
    ((List.range g.numVertices).map (fun i => decide (i ∈ s.selectedVertices)))

/-- `MCTS::simulate`: greedy max-degree completion, returned as
`State(sel)`. -/
def simulate (g : Graph) (s : State) : State :=
  State.ofVector (simulateSel g s)

/-- The driver's answer update in `MCTS::simulate`:
`answer = min(answer, count(sel, true))`. -/
def simulateAnswer (g : Graph) (s : State) (answer : ℕ) : ℕ :=
  min answer ((simulateSel g s).count true)

theorem simulateLoop_length (n : ℕ) (edges : List (ℕ × ℕ)) :
    ∀ fuel sel, (simulateLoop n edges fuel sel).length = sel.length := by
  intro fuel
  induction fuel with
  | zero => intro sel; rfl
  | succ f ih =>
      intro sel
      unfold simulateLoop
      split
      · split
        · rw [ih]; simp
        · split
          · rw [ih]; simp
          · rfl
      · rfl

theorem pickMaxStep_cases (edges : List (ℕ × ℕ)) (sel : List Bool)
    (acc : Option ℕ) (i : ℕ) :
    pickMaxStep edges sel acc i = acc ∨
    (pickMaxStep edges sel acc i = some i ∧ sel.getD i false = false) := by
  rcases acc with _ | v
  · simp only [pickMaxStep]
    by_cases hsel : sel.getD i false = false
    · rw [if_pos hsel]
      exact Or.inr ⟨rfl, hsel⟩
    · rw [if_neg hsel]
      exact Or.inl rfl
  · simp only [pickMaxStep]
    by_cases hsel : sel.getD i false = false
    · rw [if_pos hsel]
      by_cases hlt : residualDeg edges sel v < residualDeg edges sel i
      · rw [if_pos hlt]
        exact Or.inr ⟨rfl, hsel⟩
      · rw [if_neg hlt]
        exact Or.inl rfl
    · rw [if_neg hsel]
      exact Or.inl rfl

theorem pickMaxStep_isSome (edges : List (ℕ × ℕ)) (sel : List Bool)
    (acc : Option ℕ) (i : ℕ)
    (h : acc.isSome = true ∨ sel.getD i false = false) :
    (pickMaxStep edges sel acc i).isSome = true := by
  rcases acc with _ | v
  · rcases h with h | h
    · simp at h
    · simp only [pickMaxStep]
      rw [if_pos h]
      rfl
  · simp only [pickMaxStep]
    by_cases hsel : sel.getD i false = false
    · rw [if_pos hsel]
      split <;> rfl
    · rw [if_neg hsel]
      rfl

theorem pickMax_unselected (n : ℕ) (edges : List (ℕ × ℕ)) (sel : List Bool) :
    ∀ w, pickMax n edges sel = some w → sel.getD w false = false ∧ w < n := by
  unfold pickMax
  suffices h : ∀ (l : List ℕ) (acc : Option ℕ),
      (∀ w, acc = some w → sel.getD w false = false ∧ w < n) →
      (∀ i ∈ l, i < n) →
      ∀ w, l.foldl (pickMaxStep edges sel) acc = some w →
        sel.getD w false = false ∧ w < n by
    intro w hw
    exact h (List.range n) none (by intro w h; cases h)
      (fun i hi => List.mem_range.mp hi) w hw
  intro l
  induction l with
  | nil => intro acc hacc _ w hw; exact hacc w hw
  | cons i is ih =>
      intro acc hacc hmem w hw
      simp only [List.foldl_cons] at hw
      refine ih _ ?_ (fun j hj => hmem j (List.mem_cons_of_mem i hj)) w hw
      intro w' hw'
      rcases pickMaxStep_cases edges sel acc i with hc | hc
      · rw [hc] at hw'
        exact hacc w' hw'
      · rw [hc.1] at hw'
        injection hw' with hw'
        subst hw'
        exact ⟨hc.2, hmem i (List.mem_cons_self i is)⟩

theorem pickMax_isSome (n : ℕ) (edges : List (ℕ × ℕ)) (sel : List Bool)
    (i : ℕ) (hi : i < n) (hsel : sel.getD i false = false) :
    (pickMax n edges sel).isSome = true := by
  unfold pickMax
  suffices h : ∀ (l : List ℕ) (acc : Option ℕ), (i ∈ l ∨ acc.isSome = true) →
      (l.foldl (pickMaxStep edges sel) acc).isSome = true by
    exact h (List.range n) none (Or.inl (List.mem_range.mpr hi))
  intro l
  induction l with
  | nil =>
      intro acc hacc
      rcases hacc with h | h
      · cases h
      · exact h
  | cons j js ih =>
      intro acc hacc
      simp only [List.foldl_cons]
      rcases hacc with h | h
      · rcases List.mem_cons.mp h with rfl | hmem
        · exact ih _ (Or.inr (pickMaxStep_isSome edges sel acc i (Or.inr hsel)))
        · exact ih _ (Or.inl hmem)
      · exact ih _ (Or.inr (pickMaxStep_isSome edges sel acc j (Or.inl h)))

/-- Number of unselected indices below `n`. -/
def unselCount (n : ℕ) (sel : List Bool) : ℕ :=
  ((Finset.range n).filter (fun i => sel.getD i false = false)).card

theorem unselCount_set (n : ℕ) (sel : List Bool) (w : ℕ) (hw : w < n)
    (hwl : w < sel.length) (hsel : sel.getD w false = false) :
    unselCount n (sel.set w true) < unselCount n sel := by
  unfold unselCount
  have hset : (Finset.range n).filter (fun i => (sel.set w true).getD i false = false)
      = ((Finset.range n).filter (fun i => sel.getD i false = false)).erase w := by
    ext i
    simp only [Finset.mem_erase, Finset.mem_filter, Finset.mem_range]
    constructor
    · intro ⟨hin, hgd⟩
      by_cases hiw : i = w
      · subst hiw
        rw [List.getD_eq_getElem?_getD, List.getElem?_set_self hwl] at hgd
        simp at hgd
      · rw [List.getD_eq_getElem?_getD, List.getElem?_set_ne (Ne.symm hiw),
          ← List.getD_eq_getElem?_getD] at hgd
        exact ⟨hiw, hin, hgd⟩
    · intro ⟨hiw, hin, hgd⟩
      refine ⟨hin, ?_⟩
      rw [List.getD_eq_getElem?_getD, List.getElem?_set_ne (Ne.symm hiw),
        ← List.getD_eq_getElem?_getD]
      exact hgd
  rw [hset]
  have hmem : w ∈ (Finset.range n).filter (fun i => sel.getD i false = false) :=
    Finset.mem_filter.mpr ⟨Finset.mem_range.mpr hw, hsel⟩
  calc (((Finset.range n).filter (fun i => sel.getD i false = false)).erase w).card
      = ((Finset.range n).filter (fun i => sel.getD i false = false)).card - 1 :=
        Finset.card_erase_of_mem hmem
    _ < _ := Nat.sub_lt (Finset.card_pos.mpr ⟨w, hmem⟩) Nat.one_pos

theorem simulateLoop_covers (n : ℕ) (edges : List (ℕ × ℕ))
    (hedge : ∀ e ∈ edges, e.1 < n ∧ e.2 < n) :
    ∀ fuel sel, sel.length = n → unselCount n sel < fuel →
      uncoveredExists edges (simulateLoop n edges fuel sel) = false := by
  intro fuel
  induction fuel with
  | zero => intro sel _ h; omega
  | succ f ih =>
      intro sel hlen hcount
      unfold simulateLoop
      by_cases hunc : uncoveredExists edges sel = true
      · rw [if_pos hunc]
        obtain ⟨e, hmem, hcov⟩ := by
          simpa only [uncoveredExists, List.any_eq_true, Bool.not_eq_true'] using hunc
        have he1 : sel.getD e.1 false = false := by
          revert hcov; unfold coveredB
          cases h1 : sel.getD e.1 false <;> cases h2 : sel.getD e.2 false <;> simp
        have hsome := pickMax_isSome n edges sel e.1 (hedge e hmem).1 he1
        rcases hpm : pickMax n edges sel with _ | w
        · rw [hpm] at hsome; cases hsome
        · simp only
          obtain ⟨hwsel, hwn⟩ := pickMax_unselected n edges sel w hpm
          exact ih (sel.set w true) (by simp [hlen])
            (by
              have := unselCount_set n sel w hwn (by omega) hwsel
              omega)
      · rw [if_neg hunc]
        simpa using hunc

theorem mem_edgeList (g : Graph) (u v : ℕ) :
    (u, v) ∈ edgeList g ↔ u ∈ List.range g.numVertices ∧ v ∈ g.adj u ∧ u < v := by
  unfold edgeList
  simp only [List.mem_flatMap, List.mem_map, List.mem_filter, decide_eq_true_eq]
  constructor
  · rintro ⟨u', hu', v', ⟨hv', hlt⟩, heq⟩
    cases heq
    exact ⟨hu', hv', hlt⟩
  · rintro ⟨hu, hv, hlt⟩
    exact ⟨u, hu, v, ⟨hv, hlt⟩, rfl⟩

theorem ofVector_mem_selected (sel : List Bool) (i : ℕ) :
    i ∈ (State.ofVector sel).selectedVertices ↔ i < sel.length ∧ sel.getD i false = true := by
  unfold State.ofVector
  simp [Finset.mem_filter, Finset.mem_range]

theorem simulateSel_length (g : Graph) (s : State) :
    (simulateSel g s).length = g.numVertices := by
  unfold simulateSel
  rw [simulateLoop_length]
  simp

theorem simulate_isValid (g : Graph) (hWF : g.WF) (s : State) :
    (simulate g s).isValid g = true := by
  have hedge : ∀ e ∈ edgeList g, e.1 < g.numVertices ∧ e.2 < g.numVertices := by
    rintro ⟨u, v⟩ hmem
    obtain ⟨hu, hv, _⟩ := (mem_edgeList g u v).mp hmem
    exact ⟨List.mem_range.mp hu, hWF.adj_lt u v hv⟩
  have hcov : uncoveredExists (edgeList g) (simulateSel g s) = false := by
    unfold simulateSel
    apply simulateLoop_covers g.numVertices (edgeList g) hedge
    · simp
    · calc unselCount g.numVertices _ ≤ (Finset.range g.numVertices).card :=
            Finset.card_le_card (Finset.filter_subset _ _)
        _ < g.numVertices + 1 := by simp
  have hcov' : ∀ e ∈ edgeList g, coveredB (simulateSel g s) e = true := by
    intro e he
    by_contra hne
    have : uncoveredExists (edgeList g) (simulateSel g s) = true := by
      unfold uncoveredExists
      rw [List.any_eq_true]
      exact ⟨e, he, by simp [Bool.not_eq_true'] at hne ⊢; exact hne⟩
    rw [hcov] at this
    cases this
  unfold State.isValid simulate
  simp only [List.all_eq_true]
  intro u hu v hv
  split
  · next hlt =>
      have hmem : (u, v) ∈ edgeList g := (mem_edgeList g u v).mpr ⟨hu, hv, hlt⟩
      have hc := hcov' (u, v) hmem
      unfold coveredB at hc
      rcases Bool.or_eq_true_iff.mp hc with h | h
      · have : u ∈ (State.ofVector (simulateSel g s)).selectedVertices :=
          (ofVector_mem_selected _ u).mpr
            ⟨by rw [simulateSel_length]; exact List.mem_range.mp hu, h⟩
        simp [this]
      · have : v ∈ (State.ofVector (simulateSel g s)).selectedVertices :=
          (ofVector_mem_selected _ v).mpr
            ⟨by rw [simulateSel_length]; exact hWF.adj_lt u v hv, h⟩
        simp [this]
  · rfl

end Simulate

section NodeTree

/-- `Node` from `node.hpp`: state, visit count, running mean reward, maximal
reward, and the owned children (rewards are `double`, modelled as `ℝ`).  The
`parent` back-pointer and `expandable` counter are not needed by the claims
about `getSolution` and `UCT::sampling` and are omitted from this tree
value. -/
inductive Node : Type where
  | mk : State → ℕ → ℝ → ℝ → List Node → Node

def Node.state : Node → State
  | .mk s _ _ _ _ => s

def Node.visits : Node → ℕ
  | .mk _ v _ _ _ => v

def Node.value : Node → ℝ
  | .mk _ _ x _ _ => x

def Node.maxValue : Node → ℝ
  | .mk _ _ _ m _ => m

def Node.children : Node → List Node
  | .mk _ _ _ _ c => c

/-- The best-child scan in `MCTS::getSolution`: greatest `maxValue`, ties by
greater `visits`, further ties keep the earlier child. -/
noncomputable def bestChild (l : List Node) : Option Node :=
  match l with
  | [] => none
  | c :: cs =>
      some (cs.foldl
        (fun best c' =>
          if c'.maxValue > best.maxValue ∨
              (c'.maxValue = best.maxValue ∧ c'.visits > best.visits) then c'
          else best) c)

theorem bestChild_mem (l : List Node) (c : Node) (h : bestChild l = some c) : c ∈ l := by
  match l with
  | [] => cases h
  | c0 :: cs =>
      unfold bestChild at h
      injection h with h
      subst h
      suffices hf : ∀ (cs : List Node) (b : Node) (l0 : List Node), b ∈ l0 → cs ⊆ l0 →
          cs.foldl (fun best c' =>
            if c'.maxValue > best.maxValue ∨
                (c'.maxValue = best.maxValue ∧ c'.visits > best.visits) then c'
            else best) b ∈ l0 by
        exact hf cs c0 (c0 :: cs) (List.mem_cons_self c0 cs)
          (fun x hx => List.mem_cons_of_mem c0 hx)
      intro cs
      induction cs with
      | nil => intro b l0 hb _; exact hb
      | cons d ds ih =>
          intro b l0 hb hsub
          simp only [List.foldl_cons]
          apply ih _ l0 _ (fun x hx => hsub (List.mem_cons_of_mem d hx))
          split
          · exact hsub (List.mem_cons_self d ds)
          · exact hb

theorem sizeOf_children_lt (t : Node) (c : Node) (h : c ∈ t.children) :
    sizeOf c < sizeOf t := by
  match t with
  | .mk s v x m ch =>
      simp only [Node.children] at h
      have h1 : sizeOf c < sizeOf ch := List.sizeOf_lt_of_mem h
      simp only [Node.mk.sizeOf_spec]
      omega

/-- The descent loop of `MCTS::getSolution`: while the node has children,
step to the best child. -/
noncomputable def descend (t : Node) : Node :=
  match h : bestChild t.children with
  | none => t
  | some c => descend c
termination_by sizeOf t
decreasing_by exact sizeOf_children_lt t c (bestChild_mem _ _ h)

/-- `MCTS::getSolution`: descend to the best leaf, then run one rollout and
return its state. -/
noncomputable def getSolution (g : Graph) (t : Node) : State :=
  simulate g (descend t).state

end NodeTree

/-- C1: `MCTS::simulate` terminates (the fuelled loop reaches a covered
state) and returns a state that is a valid vertex cover of `G`; the driver's
answer becomes `min(previous, |cover|)`, hence never increases and is at most
`N`; and `getSolution()` returns the rollout of the best leaf, which is
likewise a valid cover. -/
theorem claim_C1_simulate_valid_and_answer (g : Graph) (hWF : g.WF) (s : State)
    (a : ℕ) (ha : a ≤ g.numVertices) (t : Node) :
    (simulate g s).isValid g = true ∧
    simulateAnswer g s a = min a ((simulateSel g s).count true) ∧
    simulateAnswer g s a ≤ a ∧
    simulateAnswer g s a ≤ g.numVertices ∧
    (getSolution g t).isValid g = true := by
  refine ⟨simulate_isValid g hWF s, rfl, min_le_left _ _, ?_, simulate_isValid g hWF _⟩
  calc simulateAnswer g s a ≤ a := min_le_left _ _
    _ ≤ g.numVertices := ha

section ExactSolve

/-- The state `GraphOracle::exactSolve` builds for a subset mask:
`State currState(n)` followed by `include(i)` for every set bit
(`mask & (1 << i)`). -/
def maskState (n : ℕ) (mask : ℕ) : State :=
  (List.range n).foldl (fun s i => if mask.testBit i then s.include' i else s) (State.new n)

/-- The weight of the selected set as `exactSolve` computes it:
`for i: if selected, size += weights[i]`. -/
def coverWeight (g : Graph) (s : State) : ℤ :=
  (List.range g.numVertices).foldl
    (fun acc i => if i ∈ s.selectedVertices then acc + g.weights.getD i 0 else acc) 0

/-- The initial `bestSize`: the sum of all vertex weights. -/
def totalWeight0 (g : Graph) : ℤ :=
  (List.range g.numVertices).foldl (fun acc i => acc + g.weights.getD i 0) 0

/-- One iteration of the `for (mask = 0; mask < total; ++mask)` loop of
`GraphOracle::exactSolve` (the inline validity re-check it performs is the
same computation as `State::isValid`). -/
def exactSolveStep (g : Graph) (acc : ℤ × State) (mask : ℕ) : ℤ × State :=
  if (maskState g.numVertices mask).isValid g = true then
    if coverWeight g (maskState g.numVertices mask) < acc.1 then
      (coverWeight g (maskState g.numVertices mask), maskState g.numVertices mask)
    else acc
  else acc

/-- `GraphOracle::exactSolve`: enumerate all `2^n` subsets in increasing mask
order, keeping the first strictly better valid cover; `bestState` starts as
the default-constructed `State` (empty bitmap). -/
def exactSolve (g : Graph) : State :=
  ((List.range (2 ^ g.numVertices)).foldl (exactSolveStep g)
    (totalWeight0 g, ⟨[], ∅, ∅⟩)).2

theorem maskState_core (mask : ℕ) :
    ∀ (l : List ℕ) (s : State), (∀ i ∈ l, i < s.isSelected.length) →
      ((l.foldl (fun s i => if mask.testBit i then s.include' i else s) s).selectedVertices
        = s.selectedVertices ∪ (l.filter (fun i => mask.testBit i)).toFinset ∧
       (l.foldl (fun s i => if mask.testBit i then s.include' i else s) s).isSelected.length
        = s.isSelected.length) := by
  intro l
  induction l with
  | nil => intro s _; simp
  | cons i is ih =>
      intro s hmem
      simp only [List.foldl_cons]
      by_cases hbit : mask.testBit i
      · rw [if_pos hbit]
        have hlen : (s.include' i).isSelected.length = s.isSelected.length :=
          include'_length s i
        have hi : i < s.isSelected.length := hmem i (List.mem_cons_self i is)
        obtain ⟨hsel, hlen'⟩ := ih (s.include' i)
          (fun j hj => by rw [hlen]; exact hmem j (List.mem_cons_of_mem i hj))
        constructor
        · rw [hsel]
          unfold State.include'
          rw [if_pos hi]
          ext x
          simp only [List.filter_cons, hbit, if_true, Finset.mem_union, Finset.mem_insert,
            List.toFinset_cons, List.mem_toFinset, List.mem_filter]
          tauto
        · rw [hlen', hlen]
      · rw [if_neg hbit]
        obtain ⟨hsel, hlen'⟩ := ih s (fun j hj => hmem j (List.mem_cons_of_mem i hj))
        refine ⟨?_, hlen'⟩
        rw [hsel]
        simp [List.filter_cons, hbit]

theorem maskState_selected (n mask : ℕ) (i : ℕ) :
    i ∈ (maskState n mask).selectedVertices ↔ i < n ∧ mask.testBit i = true := by
  unfold maskState
  have := maskState_core mask (List.range n) (State.new n)
    (by intro j hj; simp only [State.new, List.length_replicate]; exact List.mem_range.mp hj)
  rw [this.1]
  simp only [State.new, Finset.empty_union, List.mem_toFinset, List.mem_filter, List.mem_range]

theorem coverWeight_as_sum (g : Graph) (s : State) :
    coverWeight g s = ∑ i ∈ Finset.range g.numVertices,
      (if i ∈ s.selectedVertices then g.weights.getD i 0 else 0) := by
  unfold coverWeight
  induction g.numVertices with
  | zero => simp
  | succ n ih =>
      rw [List.range_succ, List.foldl_append, Finset.sum_range_succ, ih]
      simp only [List.foldl_cons, List.foldl_nil]
      split <;> simp

theorem totalWeight0_as_sum (g : Graph) :
    totalWeight0 g = ∑ i ∈ Finset.range g.numVertices, g.weights.getD i 0 := by
  unfold totalWeight0
  induction g.numVertices with
  | zero => simp
  | succ n ih =>
      rw [List.range_succ, List.foldl_append, Finset.sum_range_succ, ih]
      simp

theorem coverWeight_congr (g : Graph) (s₁ s₂ : State)
    (h : ∀ i < g.numVertices, (i ∈ s₁.selectedVertices ↔ i ∈ s₂.selectedVertices)) :
    coverWeight g s₁ = coverWeight g s₂ := by
  rw [coverWeight_as_sum, coverWeight_as_sum]
  apply Finset.sum_congr rfl
  intro i hi
  have := h i (Finset.mem_range.mp hi)
  by_cases h1 : i ∈ s₁.selectedVertices
  · rw [if_pos h1, if_pos (this.mp h1)]
  · rw [if_neg h1, if_neg (fun hc => h1 (this.mpr hc))]

theorem isValid_congr (g : Graph) (hWF : g.WF) (s₁ s₂ : State)
    (h : ∀ i < g.numVertices, (i ∈ s₁.selectedVertices ↔ i ∈ s₂.selectedVertices)) :
    s₁.isValid g = s₂.isValid g := by
  unfold State.isValid
  rw [Bool.eq_iff_iff]
  simp only [List.all_eq_true]
  constructor <;> intro hv u hu v hvadj <;> have h1 := hv u hu v hvadj <;>
    revert h1 <;> split <;> try exact id
  · next hlt =>
      intro h1
      rcases Bool.or_eq_true_iff.mp h1 with h2 | h2
      · rw [decide_eq_true_eq] at h2
        simp [(h u (List.mem_range.mp hu)).mp h2]
      · rw [decide_eq_true_eq] at h2
        simp [(h v (hWF.adj_lt u v hvadj)).mp h2]
  · next hlt =>
      intro h1
      rcases Bool.or_eq_true_iff.mp h1 with h2 | h2
      · rw [decide_eq_true_eq] at h2
        simp [(h u (List.mem_range.mp hu)).mpr h2]
      · rw [decide_eq_true_eq] at h2
        simp [(h v (hWF.adj_lt u v hvadj)).mpr h2]

/-- Every Boolean predicate on `[0, n)` is realised by some mask below
`2^n`. -/
theorem exists_mask (n : ℕ) (f : ℕ → Bool) :
    ∃ mask, mask < 2 ^ n ∧ ∀ i < n, mask.testBit i = f i := by
  induction n with
  | zero => exact ⟨0, by norm_num, fun i hi => absurd hi (by omega)⟩
  | succ n ih =>
      obtain ⟨m, hm, hbit⟩ := ih
      cases hf : f n
      · refine ⟨m, lt_of_lt_of_le hm (Nat.pow_le_pow_right (by norm_num) (by omega)), ?_⟩
        intro i hi
        by_cases hi' : i < n
        · exact hbit i hi'
        · have : i = n := by omega
          subst this
          rw [Nat.testBit_lt_two_pow hm, hf]
      · refine ⟨2 ^ n + m, ?_, ?_⟩
        · have : 2 ^ (n + 1) = 2 ^ n + 2 ^ n := by ring
          omega
        · intro i hi
          by_cases hi' : i < n
          · rw [Nat.testBit_two_pow_add_gt hi' m]
            exact hbit i hi'
          · have : i = n := by omega
            subst this
            rw [Nat.testBit_two_pow_add_eq, Nat.testBit_lt_two_pow hm, hf]
            rfl

/-- `Good` accumulator: the stored state is valid and its weight is the
stored best size. -/
def GoodAcc (g : Graph) (acc : ℤ × State) : Prop :=
  acc.2.isValid g = true ∧ coverWeight g acc.2 = acc.1

theorem exactSolveStep_le (g : Graph) (acc : ℤ × State) (m : ℕ) :
    (exactSolveStep g acc m).1 ≤ acc.1 := by
  unfold exactSolveStep
  split
  · split
    · next h => exact le_of_lt h
    · exact le_refl _
  · exact le_refl _

theorem exactSolveStep_good (g : Graph) (acc : ℤ × State) (m : ℕ)
    (h : GoodAcc g acc) : GoodAcc g (exactSolveStep g acc m) := by
  unfold exactSolveStep
  split
  · split
    · next hval _ => exact ⟨hval, rfl⟩
    · exact h
  · exact h

theorem exactSolve_foldl_le (g : Graph) :
    ∀ (l : List ℕ) (acc : ℤ × State), (l.foldl (exactSolveStep g) acc).1 ≤ acc.1 := by
  intro l
  induction l with
  | nil => intro acc; exact le_refl _
  | cons m ms ih =>
      intro acc
      simp only [List.foldl_cons]
      exact le_trans (ih _) (exactSolveStep_le g acc m)

theorem exactSolve_foldl_good (g : Graph) :
    ∀ (l : List ℕ) (acc : ℤ × State), GoodAcc g acc →
      GoodAcc g (l.foldl (exactSolveStep g) acc) := by
  intro l
  induction l with
  | nil => intro acc h; exact h
  | cons m ms ih =>
      intro acc h
      simp only [List.foldl_cons]
      exact ih _ (exactSolveStep_good g acc m h)

theorem exactSolve_foldl_good_of_improving (g : Graph) :
    ∀ (l : List ℕ) (acc : ℤ × State),
      (∃ m ∈ l, (maskState g.numVertices m).isValid g = true ∧
        coverWeight g (maskState g.numVertices m) < acc.1) →
      GoodAcc g (l.foldl (exactSolveStep g) acc) := by
  intro l
  induction l with
  | nil => rintro acc ⟨m, hm, _⟩; cases hm
  | cons m₀ ms ih =>
      rintro acc ⟨m, hm, hval, himp⟩
      simp only [List.foldl_cons]
      rcases List.mem_cons.mp hm with rfl | hm'
      · have : GoodAcc g (exactSolveStep g acc m) := by
          unfold exactSolveStep
          rw [if_pos hval, if_pos himp]
          exact ⟨hval, rfl⟩
        exact exactSolve_foldl_good g ms _ this
      · by_cases hstep : (exactSolveStep g acc m₀).1 = acc.1 ∧ exactSolveStep g acc m₀ = acc
        · exact ih _ ⟨m, hm', hval, by rw [hstep.2]; exact himp⟩
        · -- the step changed the accumulator, which only happens on a valid
          -- improving update, so the accumulator is now Good
          have : GoodAcc g (exactSolveStep g acc m₀) := by
            by_cases hval₀ : (maskState g.numVertices m₀).isValid g = true
            · by_cases himp₀ : coverWeight g (maskState g.numVertices m₀) < acc.1
              · unfold exactSolveStep GoodAcc
                rw [if_pos hval₀, if_pos himp₀]
                exact ⟨hval₀, rfl⟩
              · exfalso
                apply hstep
                unfold exactSolveStep
                rw [if_pos hval₀, if_neg himp₀]
                exact ⟨rfl, rfl⟩
            · exfalso
              apply hstep
              unfold exactSolveStep
              rw [if_neg hval₀]
              exact ⟨rfl, rfl⟩
          exact exactSolve_foldl_good g ms _ this

theorem exactSolve_foldl_min (g : Graph) :
    ∀ (l : List ℕ) (acc : ℤ × State), ∀ m ∈ l,
      (maskState g.numVertices m).isValid g = true →
      (l.foldl (exactSolveStep g) acc).1 ≤ coverWeight g (maskState g.numVertices m) := by
  intro l
  induction l with
  | nil => intro acc m hm; cases hm
  | cons m₀ ms ih =>
      intro acc m hm hval
      simp only [List.foldl_cons]
      rcases List.mem_cons.mp hm with rfl | hm'
      · refine le_trans (exactSolve_foldl_le g ms _) ?_
        unfold exactSolveStep
        rw [if_pos hval]
        split
        · exact le_refl _
        · next h => exact le_of_not_lt h
      · exact ih _ m hm' hval

end ExactSolve

section Coarsen

/-- Pop of the lazy min-heap in `coarsenGraph`'s core-number peeling:
`std::priority_queue` with `greater` pops the lexicographically smallest
`(degree, vertex)` pair (equal pairs are interchangeable, so removing the
first occurrence of the minimum models the multiset behaviour exactly). -/
def heapPopMin (h : List (ℕ × ℕ)) : Option ((ℕ × ℕ) × List (ℕ × ℕ)) :=
  match h with
  | [] => none
  | x :: xs =>
      let m := xs.foldl (fun a b => if b.1 < a.1 ∨ (b.1 = a.1 ∧ b.2 < a.2) then b else a) x
      some (m, h.erase m)

/-- The `while (!pq.empty())` peeling loop computing core numbers: stale
entries (removed vertex or outdated degree) are skipped; otherwise the vertex
is removed with its current degree as core number and each remaining
neighbour's degree is decremented (when positive) and re-pushed. -/
def coreLoop (g : Graph) : ℕ → List (ℕ × ℕ) → List ℕ → List ℕ → List Bool → List ℕ
  | 0, _, _, core, _ => core
  | fuel + 1, heap, deg, core, removed =>
      match heapPopMin heap with
      | none => core
      | some ((d, v), heap') =>
          if removed.getD v false = true ∨ d ≠ deg.getD v 0 then
            coreLoop g fuel heap' deg core removed
          else
            let removed' := removed.set v true
            let dh := (g.adj v).foldl
              (fun (acc : List ℕ × List (ℕ × ℕ)) u =>
                if removed'.getD u false = true then acc
                else
                  let d' := if 0 < acc.1.getD u 0 then acc.1.getD u 0 - 1 else acc.1.getD u 0
                  (acc.1.set u d', acc.2 ++ [(d', u)]))
              (deg, heap')
            coreLoop g fuel dh.2 dh.1 (core.set v d) removed'

/-- Sum of all adjacency-list lengths (used only to size the peeling fuel:
the heap receives at most `n + Σ deg` entries). -/
def totalAdjLen (g : Graph) : ℕ :=
  (g.adjacencyList.map List.length).sum

/-- Core numbers via lazy min-heap peeling (step 1 of `coarsenGraph`). -/
def computeCores (g : Graph) : List ℕ :=
  coreLoop g (g.numVertices + totalAdjLen g + 1)
    ((List.range g.numVertices).map (fun v => ((g.adj v).length, v)))
    ((List.range g.numVertices).map (fun v => (g.adj v).length))
    (List.replicate g.numVertices 0)
    (List.replicate g.numVertices false)

/-- Floor of the base-2 logarithm by fuelled halving (structural, so it
evaluates by reduction; the fuel argument is always at least the input). -/
def log2floor : ℕ → ℕ → ℕ
  | 0, _ => 0
  | fuel + 1, n => if 2 ≤ n then log2floor fuel (n / 2) + 1 else 0

/-- Bucket key `(core(v), ⌊log₂(deg(v)+1)⌋)`; the `double` `log2`/`floor` is
exact on these integer inputs, so the integer floor-log models it. -/
def bucketKey (g : Graph) (cores : List ℕ) (v : ℕ) : ℕ × ℕ :=
  (cores.getD v 0, log2floor ((g.adj v).length + 1) ((g.adj v).length + 1))

/-- Buckets keyed by `bucketKey`, built by pushing `v = 0, …, n-1` in order.
The C++ stores them in an `unordered_map` whose iteration order is
unspecified; this model fixes first-insertion order (every property proved
below is invariant under bucket order). -/
def buildBuckets (g : Graph) (cores : List ℕ) : List ((ℕ × ℕ) × List ℕ) :=
  (List.range g.numVertices).foldl
    (fun acc v =>
      if acc.any (fun p => decide (p.1 = bucketKey g cores v)) then
        acc.map (fun p => if p.1 = bucketKey g cores v then (p.1, p.2 ++ [v]) else p)
      else acc ++ [(bucketKey g cores v, [v])])
    []

/-- Accumulated matching state across buckets: the matched pairs, the
preserved odd singles, and the global `isMatched` flags. -/
structure MatchAcc where
  matchedPairs : List (ℕ × ℕ)
  preservedSingles : List ℕ
  isMatched : List Bool
  deriving DecidableEq

/-- One vertex of phase 2a (locality-aware matching): an unmatched `v` is
matched with its first unmatched neighbour that lies in the same bucket. -/
def phase2aStep (g : Graph) (B : List ℕ) (acc : MatchAcc) (v : ℕ) : MatchAcc :=
  if acc.isMatched.getD v false = true then acc
  else
    match (g.adj v).find?
        (fun u => !acc.isMatched.getD u false && decide (u ∈ B)) with
    | some u =>
        { acc with
          isMatched := (acc.isMatched.set v true).set u true,
          matchedPairs := acc.matchedPairs ++ [(v, u)] }
    | none => acc

/-- Phase 2a over the bucket in order. -/
def phase2a (g : Graph) (B : List ℕ) (acc : MatchAcc) : MatchAcc :=
  B.foldl (phase2aStep g B) acc

/-- The 2-hop partner search of phase 2b: the first `w` over the nested
`for (nbh : adj[v]) for (w : adj[nbh])` loops with `w ≠ v`, `w` still in
`remain`, and its (first-occurrence) index unused. -/
def findPartner2b (g : Graph) (remain : List ℕ) (used : List Bool) (v : ℕ) : Option ℕ :=
  ((g.adj v).flatMap (fun nbh => g.adj nbh)).find?
    (fun w => decide (w ≠ v) && decide (w ∈ remain) && !used.getD (remain.indexOf w) false)

/-- One index of phase 2b. -/
def phase2bStep (g : Graph) (remain : List ℕ) (st : List Bool × MatchAcc) (i : ℕ) :
    List Bool × MatchAcc :=
  if st.1.getD i false = true then st
  else
    match findPartner2b g remain st.1 (remain.getD i 0) with
    | some w =>
        ((st.1.set i true).set (remain.indexOf w) true,
         { st.2 with
           isMatched := (st.2.isMatched.set (remain.getD i 0) true).set w true,
           matchedPairs := st.2.matchedPairs ++ [(remain.getD i 0, w)] })
    | none => st

/-- Phase 2b (2-hop matching) over the indices of `remain`. -/
def phase2b (g : Graph) (remain : List ℕ) (acc : MatchAcc) : List Bool × MatchAcc :=
  (List.range remain.length).foldl (phase2bStep g remain)
    (List.replicate remain.length false, acc)

/-- Sequential pairing of phase 2c (`for i; i+1 < size; i += 2`). -/
def pairsOfList : List ℕ → List (ℕ × ℕ)
  | a :: b :: rest => (a, b) :: pairsOfList rest
  | _ => []

/-- Process one bucket: phase 2a, collect `remain`, phase 2b, collect the
leftovers, preserve one single if their count is odd, and pair the rest
sequentially. -/
def processBucket (g : Graph) (acc : MatchAcc) (B : List ℕ) : MatchAcc :=
  let acc1 := phase2a g B acc
  let remain := B.filter (fun v => !acc1.isMatched.getD v false)
  let st2 := phase2b g remain acc1
  let leftovers := ((List.range remain.length).filter (fun i =>
      !st2.1.getD i false && !st2.2.isMatched.getD (remain.getD i 0) false)).map
      (fun i => remain.getD i 0)
  let leftovers' := if leftovers.length % 2 = 1 then leftovers.dropLast else leftovers
  let singles' := if leftovers.length % 2 = 1 then
      st2.2.preservedSingles ++ [leftovers.getLastD 0] else st2.2.preservedSingles
  let newPairs := pairsOfList leftovers'
  { matchedPairs := st2.2.matchedPairs ++ newPairs,
    preservedSingles := singles',
    isMatched := newPairs.foldl (fun m p => (m.set p.1 true).set p.2 true) st2.2.isMatched }

/-- Steps 1–2 of `coarsenGraph`: the groups (matched pairs as two-element
lists, then preserved singles as singletons). -/
def coarsenGroups (g : Graph) : List (List ℕ) :=
  let acc := (buildBuckets g (computeCores g)).foldl
    (fun acc b => processBucket g acc b.2)
    ⟨[], [], List.replicate g.numVertices false⟩
  (acc.matchedPairs.map (fun p => [p.1, p.2])) ++ (acc.preservedSingles.map (fun x => [x]))

/-- Super-node weights: each group inherits the summed weight of its members
(`v` out of range contributes the default 1, as in the C++ guard). -/
def groupWeights (g : Graph) (groups : List (List ℕ)) : List ℤ :=
  groups.map (fun grp =>
    grp.foldl (fun acc v => acc + (if v < g.weights.length then g.weights.getD v 0 else 1)) 0)

/-- `mapOldToNew`: old vertex to super-node index (`-1` as `none`). -/
def mapOldToNew (n : ℕ) (groups : List (List ℕ)) : List (Option ℕ) :=
  (List.range groups.length).foldl
    (fun m i => (groups.getD i []).foldl (fun m v => m.set v (some i)) m)
    (List.replicate n none)

/-- Neighbour sets of the coarse graph: for every old edge whose endpoints
map to distinct super-nodes, insert each side into the other's set,
discarding self-loops (`su == sv`).  The unmapped (`-1`) case would index out
of bounds in the C++ and is unreachable because the groups partition the
vertices; the model skips it. -/
def coarseNbrSets (g : Graph) (groups : List (List ℕ)) : List (Finset ℕ) :=
  (List.range g.numVertices).foldl
    (fun ns u =>
      (g.adj u).foldl
        (fun ns v =>
          match (mapOldToNew g.numVertices groups).getD u none,
              (mapOldToNew g.numVertices groups).getD v none with
          | some su, some sv =>
              if su = sv then ns
              else (ns.set su (insert sv (ns.getD su ∅))).set sv (insert su (ns.getD sv ∅))
          | _, _ => ns)
        ns)
    (List.replicate (groups.length) (∅ : Finset ℕ))

/-- The elements of a finite set of naturals below `m`, in increasing order
(the deterministic order the model fixes for the C++ `unordered_set`
iteration). -/
def finsetAsc (m : ℕ) (S : Finset ℕ) : List ℕ :=
  (List.range m).filter (fun j => decide (j ∈ S))

/-- `GraphOracle::coarsenGraph`: groups, summed weights, and the coarse
adjacency built by `addEdge(i, j)` for every `j` in `nbrSets[i]` (the C++
iterates each `unordered_set` in unspecified order; the model iterates in
increasing order — the adjacency lists are equal as multisets either way). -/
def coarsenGraph (g : Graph) : Graph × List (List ℕ) :=
  let groups := coarsenGroups g
  let ns := coarseNbrSets g groups
  let G2 := (List.range groups.length).foldl
    (fun G2 i => (finsetAsc groups.length (ns.getD i ∅)).foldl
      (fun G2 j => G2.addEdge i j) G2)
    { numVertices := groups.length,
      adjacencyList := List.replicate groups.length [],
      weights := groupWeights g groups }
  (G2, groups)

/-- `GraphOracle::greedySolve`: the same greedy max-degree completion loop as
`MCTS::simulate` (identical statement-for-statement), started from the empty
selection. -/
def greedySolve (g : Graph) : State :=
  State.ofVector
    (simulateLoop g.numVertices (edgeList g) (g.numVertices + 1)
      (List.replicate g.numVertices false))

/-- `covered` over a `State` selection, as the local-fix loop of
`coarseSolve` uses it. -/
def coveredS (s : State) (e : ℕ × ℕ) : Bool :=
  decide (e.1 ∈ s.selectedVertices) || decide (e.2 ∈ s.selectedVertices)

/-- Residual degree over uncovered edges for the local-fix loop. -/
def residualDegS (edges : List (ℕ × ℕ)) (s : State) (i : ℕ) : ℕ :=
  (edges.filter (fun e => (! coveredS s e) && (decide (e.1 = i) || decide (e.2 = i)))).length

/-- The local-fix argmax (`!selected(i) && deg[i] > best`). -/
def pickMaxS (n : ℕ) (edges : List (ℕ × ℕ)) (s : State) : Option ℕ :=
  (List.range n).foldl
    (fun acc i =>
      if decide (i ∉ s.selectedVertices) = true then
        match acc with
        | none => some i
        | some w => if residualDegS edges s w < residualDegS edges s i then some i else acc
      else acc)
    none

/-- The local-fix fallback: the first uncovered edge contributes its first
unselected endpoint. -/
def fallbackS (edges : List (ℕ × ℕ)) (s : State) : Option ℕ :=
  match edges.find? (fun e => ! coveredS s e) with
  | some e =>
      if e.1 ∉ s.selectedVertices then some e.1
      else if e.2 ∉ s.selectedVertices then some e.2
      else none
  | none => none

/-- The greedy local-fix loop of `coarseSolve` after lifting. -/
def localFixLoop (n : ℕ) (edges : List (ℕ × ℕ)) : ℕ → State → State
  | 0, s => s
  | fuel + 1, s =>
      if edges.any (fun e => ! coveredS s e) then
        match pickMaxS n edges s with
        | some w => localFixLoop n edges fuel (s.include' w)
        | none =>
            match fallbackS edges s with
            | some w => localFixLoop n edges fuel (s.include' w)
            | none => s
      else s

/-- Lifting plus local fix: include every original vertex of each selected
super-node (the C++ iterates the selected set in unspecified order; the
resulting state is order-independent, and the model uses increasing order),
then run the greedy local fix. -/
def liftAndFix (g : Graph) (groups : List (List ℕ)) (coarseSol : State) : State :=
  let lifted := (coarseSol.selectedVertices.sort (· ≤ ·)).foldl
    (fun s gnum => (groups.getD gnum []).foldl (fun s v => s.include' v) s)
    (State.new g.numVertices)
  localFixLoop g.numVertices (edgeList g) (g.numVertices + 1) lifted

/-- `GraphOracle::coarseSolve`, fuel-indexed (each recursive call strictly
shrinks the vertex count, so fuel `numVertices + 1` never runs out; the
fuel-0 branch is unreachable). -/
def coarseSolveF : ℕ → Graph → State
  | 0, g => greedySolve g
  | fuel + 1, g =>
      if g.numVertices ≤ 16 then exactSolve g
      else
        if g.numVertices = (coarsenGraph g).1.numVertices then greedySolve g
        else liftAndFix g (coarsenGraph g).2 (coarseSolveF fuel (coarsenGraph g).1)

/-- `GraphOracle::coarseSolve`. -/
def coarseSolve (g : Graph) : State :=
  coarseSolveF (g.numVertices + 1) g

/-- The sizes of all graphs on which the `coarseSolve` recursion invokes
`exactSolve` (ghost instrumentation of the same recursion skeleton). -/
def coarseSolveCalls : ℕ → Graph → List ℕ
  | 0, _ => []
  | fuel + 1, g =>
      if g.numVertices ≤ 16 then [g.numVertices]
      else
        if g.numVertices = (coarsenGraph g).1.numVertices then []
        else coarseSolveCalls fuel (coarsenGraph g).1

end Coarsen

section C9Lemmas

theorem getD_set_eq {α : Type} (l : List α) (i : ℕ) (a d : α) (h : i < l.length) :
    (l.set i a).getD i d = a := by
  rw [List.getD_eq_getElem?_getD, List.getElem?_set_self h]
  rfl

theorem getD_set_ne {α : Type} (l : List α) (i j : ℕ) (a d : α) (h : i ≠ j) :
    (l.set i a).getD j d = l.getD j d := by
  rw [List.getD_eq_getElem?_getD, List.getElem?_set_ne h, ← List.getD_eq_getElem?_getD]

/-- All vertices occurring in a pair list, in order. -/
def endpoints (P : List (ℕ × ℕ)) : List ℕ :=
  P.flatMap (fun p => [p.1, p.2])

theorem endpoints_append (P Q : List (ℕ × ℕ)) :
    endpoints (P ++ Q) = endpoints P ++ endpoints Q := by
  simp [endpoints]

/-- `acc'` extends `acc` by the pairs `P`, whose endpoints are fresh distinct
members of `dom`, with the matched flags updated exactly on those
endpoints. -/
def Extends (dom : List ℕ) (acc acc' : MatchAcc) (P : List (ℕ × ℕ)) : Prop :=
  acc'.matchedPairs = acc.matchedPairs ++ P ∧
  acc'.preservedSingles = acc.preservedSingles ∧
  acc'.isMatched.length = acc.isMatched.length ∧
  (∀ x : ℕ, acc'.isMatched.getD x false
      = (acc.isMatched.getD x false || decide (x ∈ endpoints P))) ∧
  (endpoints P).Nodup ∧
  (∀ x ∈ endpoints P, x ∈ dom ∧ acc.isMatched.getD x false = false)

theorem Extends.refl (dom : List ℕ) (acc : MatchAcc) : Extends dom acc acc [] := by
  refine ⟨by simp, rfl, rfl, ?_, by simp [endpoints], by simp [endpoints]⟩
  intro x
  simp [endpoints]

theorem Extends.trans {dom : List ℕ} {a b c : MatchAcc} {P Q : List (ℕ × ℕ)}
    (h1 : Extends dom a b P) (h2 : Extends dom b c Q) :
    Extends dom a c (P ++ Q) := by
  obtain ⟨hp1, hs1, hl1, hm1, hn1, hd1⟩ := h1
  obtain ⟨hp2, hs2, hl2, hm2, hn2, hd2⟩ := h2
  refine ⟨by rw [hp2, hp1, List.append_assoc], by rw [hs2, hs1], by rw [hl2, hl1], ?_, ?_, ?_⟩
  · intro x
    rw [hm2, hm1, endpoints_append]
    by_cases hP : x ∈ endpoints P <;> by_cases hQ : x ∈ endpoints Q <;>
      simp [hP, hQ, List.mem_append]
  · rw [endpoints_append]
    rw [List.nodup_append]
    refine ⟨hn1, hn2, ?_⟩
    intro x hxP hxQ
    have := (hd2 x hxQ).2
    rw [hm1 x] at this
    simp only [Bool.or_eq_false_iff, decide_eq_false_iff_not] at this
    exact this.2 hxP
  · rw [endpoints_append]
    intro x hx
    rcases List.mem_append.mp hx with h | h
    · exact hd1 x h
    · refine ⟨(hd2 x h).1, ?_⟩
      have := (hd2 x h).2
      rw [hm1 x] at this
      simp only [Bool.or_eq_false_iff, decide_eq_false_iff_not] at this
      exact this.1

theorem Extends.mono {dom dom' : List ℕ} {a b : MatchAcc} {P : List (ℕ × ℕ)}
    (h : Extends dom a b P) (hsub : ∀ x ∈ dom, x ∈ dom') : Extends dom' a b P := by
  obtain ⟨hp, hs, hl, hm, hn, hd⟩ := h
  exact ⟨hp, hs, hl, hm, hn, fun x hx => ⟨hsub x (hd x hx).1, (hd x hx).2⟩⟩

theorem phase2aStep_spec (g : Graph) (hWF : g.WF) (B : List ℕ) (acc : MatchAcc) (v : ℕ)
    (hv : v ∈ B) (hBlen : ∀ x ∈ B, x < acc.isMatched.length) :
    ∃ P, Extends B acc (phase2aStep g B acc v) P := by
  unfold phase2aStep
  by_cases hm : acc.isMatched.getD v false = true
  · rw [if_pos hm]
    exact ⟨[], Extends.refl B acc⟩
  · rw [if_neg hm]
    rcases hf : (g.adj v).find? (fun u => !acc.isMatched.getD u false && decide (u ∈ B)) with
      _ | u
    · exact ⟨[], Extends.refl B acc⟩
    · have hpred := List.find?_some hf
      simp only [Bool.and_eq_true, Bool.not_eq_true', decide_eq_true_eq] at hpred
      have humem : u ∈ g.adj v := List.mem_of_find?_eq_some hf
      have hne : v ≠ u := by
        rintro rfl
        exact hWF.no_self v humem
      have hvm : acc.isMatched.getD v false = false := by
        cases h : acc.isMatched.getD v false
        · rfl
        · exact absurd h hm
      have hvlen : v < acc.isMatched.length := hBlen v hv
      have hulen : u < acc.isMatched.length := hBlen u hpred.2
      have hep : endpoints [(v, u)] = [v, u] := by simp [endpoints]
      refine ⟨[(v, u)], by simp, rfl, by simp, ?_, ?_, ?_⟩
      · intro x
        rw [hep]
        by_cases hxu : x = u
        · subst hxu
          rw [getD_set_eq _ x true false (by simpa using hulen)]
          simp
        · rw [getD_set_ne _ u x true false (Ne.symm hxu)]
          by_cases hxv : x = v
          · subst hxv
            rw [getD_set_eq _ x true false hvlen]
            simp
          · rw [getD_set_ne _ v x true false (Ne.symm hxv)]
            simp [hxv, hxu]
      · rw [hep]
        simp [hne]
      · rw [hep]
        intro x hx
        rcases List.mem_cons.mp hx with rfl | hx
        · exact ⟨hv, hvm⟩
        · rcases List.mem_singleton.mp (by simpa using hx) with rfl
          exact ⟨hpred.2, hpred.1⟩

theorem phase2a_spec (g : Graph) (hWF : g.WF) (B : List ℕ) :
    ∀ (l : List ℕ) (acc : MatchAcc), (∀ v ∈ l, v ∈ B) →
      (∀ x ∈ B, x < acc.isMatched.length) →
      ∃ P, Extends B acc (l.foldl (phase2aStep g B) acc) P := by
  intro l
  induction l with
  | nil => intro acc _ _; exact ⟨[], Extends.refl B acc⟩
  | cons v vs ih =>
      intro acc hl hlen
      simp only [List.foldl_cons]
      obtain ⟨P₀, h₀⟩ := phase2aStep_spec g hWF B acc v (hl v (List.mem_cons_self v vs)) hlen
      obtain ⟨P₁, h₁⟩ := ih (phase2aStep g B acc v)
        (fun u hu => hl u (List.mem_cons_of_mem v hu))
        (by intro x hx
            rw [h₀.2.2.1]
            exact hlen x hx)
      exact ⟨P₀ ++ P₁, h₀.trans h₁⟩

theorem getD_eq_getElem' {α : Type} (l : List α) (d : α) {i : ℕ} (h : i < l.length) :
    l.getD i d = l[i] := by
  rw [List.getD_eq_getElem?_getD, List.getElem?_eq_getElem h]
  rfl

theorem getD_mem' {α : Type} (l : List α) (d : α) {i : ℕ} (h : i < l.length) :
    l.getD i d ∈ l := by
  rw [getD_eq_getElem' l d h]
  exact List.getElem_mem h

theorem phase2bStep_spec (g : Graph) (remain : List ℕ) (hnd : remain.Nodup)
    (st : List Bool × MatchAcc) (i : ℕ) (hi : i < remain.length)
    (acc₁ : MatchAcc) (P₀ : List (ℕ × ℕ))
    (hrlen : ∀ x ∈ remain, x < acc₁.isMatched.length)
    (hentry : ∀ v ∈ remain, acc₁.isMatched.getD v false = false)
    (hx : Extends remain acc₁ st.2 P₀)
    (hul : st.1.length = remain.length)
    (hsync : ∀ k, k < remain.length → (st.1.getD k false = true ↔
      remain.getD k 0 ∈ endpoints P₀)) :
    ∃ P₁, Extends remain acc₁ (phase2bStep g remain st i).2 (P₀ ++ P₁) ∧
      (phase2bStep g remain st i).1.length = remain.length ∧
      (∀ k, k < remain.length → ((phase2bStep g remain st i).1.getD k false = true ↔
        remain.getD k 0 ∈ endpoints (P₀ ++ P₁))) := by
  unfold phase2bStep
  by_cases hused : st.1.getD i false = true
  · rw [if_pos hused]
    exact ⟨[], by rw [List.append_nil]; exact ⟨hx, hul, hsync⟩⟩
  · rw [if_neg hused]
    rcases hf : findPartner2b g remain st.1 (remain.getD i 0) with _ | w
    · exact ⟨[], by rw [List.append_nil]; exact ⟨hx, hul, hsync⟩⟩
    · have hpred := List.find?_some hf
      simp only [Bool.and_eq_true, Bool.not_eq_true', decide_eq_true_eq] at hpred
      obtain ⟨⟨hwne, hwmem⟩, hwused⟩ := hpred
      -- abbreviations
      have hv₀ := getD_mem' remain 0 hi
      have hj : remain.indexOf w < remain.length := List.indexOf_lt_length.mpr hwmem
      have hjw : remain.getD (remain.indexOf w) 0 = w := by
        rw [getD_eq_getElem' remain 0 hj]
        exact List.getElem_indexOf hj
      have hij : i ≠ remain.indexOf w := by
        intro h
        apply hwne
        rw [← hjw, ← h]
      have hv₀notP : remain.getD i 0 ∉ endpoints P₀ := by
        intro hmem
        exact hused ((hsync i hi).mpr hmem)
      have hwnotP : w ∉ endpoints P₀ := by
        intro hmem
        have h2 := (hsync _ hj).mpr (by rw [hjw]; exact hmem)
        rw [hwused] at h2
        exact Bool.false_ne_true h2
      have hmark : ∀ x ∈ remain, x ∉ endpoints P₀ → st.2.isMatched.getD x false = false := by
        intro x hxr hxP
        rw [hx.2.2.2.1 x, hentry x hxr]
        simp [hxP]
      have hv₀m : st.2.isMatched.getD (remain.getD i 0) false = false :=
        hmark _ hv₀ hv₀notP
      have hwm : st.2.isMatched.getD w false = false := hmark w hwmem hwnotP
      have hlen2 : st.2.isMatched.length = acc₁.isMatched.length := hx.2.2.1
      have hv₀len : remain.getD i 0 < st.2.isMatched.length := by
        rw [hlen2]; exact hrlen _ hv₀
      have hwlen : w < st.2.isMatched.length := by
        rw [hlen2]; exact hrlen w hwmem
      have hstep : Extends remain st.2
          ⟨st.2.matchedPairs ++ [(remain.getD i 0, w)], st.2.preservedSingles,
           (st.2.isMatched.set (remain.getD i 0) true).set w true⟩
          [(remain.getD i 0, w)] := by
        have hep : endpoints [(remain.getD i 0, w)] = [remain.getD i 0, w] := by
          simp [endpoints]
        refine ⟨rfl, rfl, by simp, ?_, ?_, ?_⟩
        · intro x
          rw [hep]
          by_cases hxw : x = w
          · subst hxw
            rw [getD_set_eq _ x true false (by simpa using hwlen)]
            simp
          · rw [getD_set_ne _ w x true false (Ne.symm hxw)]
            by_cases hxv : x = remain.getD i 0
            · rw [hxv, getD_set_eq _ _ true false hv₀len,
                decide_eq_true (List.mem_cons_self _ _), Bool.or_true]
            · rw [getD_set_ne _ _ x true false (Ne.symm hxv)]
              have hdec : decide (x ∈ [remain.getD i 0, w]) = false := by
                rw [decide_eq_false_iff_not]
                intro hmem
                rcases List.mem_cons.mp hmem with h | hmem
                · exact hxv h
                · exact hxw (List.mem_singleton.mp hmem)
              rw [hdec, Bool.or_false]
        · rw [hep]
          refine List.nodup_cons.mpr ⟨?_, List.nodup_cons.mpr
            ⟨List.not_mem_nil w, List.nodup_nil⟩⟩
          intro hmem
          exact hwne (List.mem_singleton.mp hmem).symm
        · rw [hep]
          intro x hmem
          rcases List.mem_cons.mp hmem with rfl | hmem
          · exact ⟨hv₀, hv₀m⟩
          · rcases List.mem_singleton.mp (by simpa using hmem) with rfl
            exact ⟨hwmem, hwm⟩
      refine ⟨[(remain.getD i 0, w)], hx.trans hstep, by simp [hul], ?_⟩
      intro k hk
      rw [endpoints_append]
      by_cases hkj : k = remain.indexOf w
      · subst hkj
        rw [getD_set_eq _ _ true false (by simpa [hul] using hj), hjw]
        simp [endpoints]
      · rw [getD_set_ne _ _ k true false (Ne.symm hkj)]
        by_cases hki : k = i
        · subst hki
          rw [getD_set_eq _ _ true false (by simpa [hul] using hi)]
          simp [endpoints]
        · rw [getD_set_ne _ _ k true false (Ne.symm hki)]
          have hkv : remain.getD k 0 ≠ remain.getD i 0 := by
            rw [getD_eq_getElem' remain 0 hk, getD_eq_getElem' remain 0 hi]
            intro h
            exact hki ((List.Nodup.getElem_inj_iff hnd).mp h)
          have hkw : remain.getD k 0 ≠ w := by
            rw [← hjw, getD_eq_getElem' remain 0 hk, getD_eq_getElem' remain 0 hj]
            intro h
            exact hkj ((List.Nodup.getElem_inj_iff hnd).mp h)
          rw [hsync k hk]
          simp only [endpoints, List.flatMap_cons, List.flatMap_nil, List.append_nil,
            List.mem_append, List.mem_cons, List.mem_singleton]
          constructor
          · intro h; exact Or.inl h
          · rintro (h | h | h)
            · exact h
            · exact absurd h hkv
            · rcases h with h | h
              · exact absurd h hkw
              · cases h

theorem phase2b_fold_spec (g : Graph) (remain : List ℕ) (hnd : remain.Nodup)
    (acc₁ : MatchAcc)
    (hrlen : ∀ x ∈ remain, x < acc₁.isMatched.length)
    (hentry : ∀ v ∈ remain, acc₁.isMatched.getD v false = false) :
    ∀ (idxs : List ℕ) (st : List Bool × MatchAcc) (P₀ : List (ℕ × ℕ)),
      (∀ i ∈ idxs, i < remain.length) →
      Extends remain acc₁ st.2 P₀ →
      st.1.length = remain.length →
      (∀ k, k < remain.length → (st.1.getD k false = true ↔
        remain.getD k 0 ∈ endpoints P₀)) →
      ∃ P, Extends remain acc₁ (idxs.foldl (phase2bStep g remain) st).2 P ∧
        (idxs.foldl (phase2bStep g remain) st).1.length = remain.length ∧
        (∀ k, k < remain.length →
          ((idxs.foldl (phase2bStep g remain) st).1.getD k false = true ↔
            remain.getD k 0 ∈ endpoints P)) := by
  intro idxs
  induction idxs with
  | nil => intro st P₀ _ hx hul hsync; exact ⟨P₀, hx, hul, hsync⟩
  | cons i is ih =>
      intro st P₀ hidx hx hul hsync
      simp only [List.foldl_cons]
      obtain ⟨P₁, hx', hul', hsync'⟩ := phase2bStep_spec g remain hnd st i
        (hidx i (List.mem_cons_self i is)) acc₁ P₀ hrlen hentry hx hul hsync
      exact ih _ (P₀ ++ P₁) (fun j hj => hidx j (List.mem_cons_of_mem i hj)) hx' hul' hsync'

theorem getD_replicate_self {α : Type} (n i : ℕ) (a : α) :
    (List.replicate n a).getD i a = a := by
  rw [List.getD_eq_getElem?_getD]
  rcases lt_or_le i n with h | h
  · rw [List.getElem?_eq_getElem (by simpa using h)]
    simp [List.getElem_replicate]
  · rw [List.getElem?_eq_none (by simpa using h)]
    rfl

theorem phase2b_spec (g : Graph) (remain : List ℕ) (hnd : remain.Nodup)
    (acc₁ : MatchAcc)
    (hrlen : ∀ x ∈ remain, x < acc₁.isMatched.length)
    (hentry : ∀ v ∈ remain, acc₁.isMatched.getD v false = false) :
    ∃ P, Extends remain acc₁ (phase2b g remain acc₁).2 P ∧
      (phase2b g remain acc₁).1.length = remain.length ∧
      (∀ k, k < remain.length → ((phase2b g remain acc₁).1.getD k false = true ↔
        remain.getD k 0 ∈ endpoints P)) := by
  unfold phase2b
  apply phase2b_fold_spec g remain hnd acc₁ hrlen hentry (List.range remain.length)
    (List.replicate remain.length false, acc₁) []
  · intro i hi; exact List.mem_range.mp hi
  · exact Extends.refl remain acc₁
  · simp
  · intro k hk
    rw [getD_replicate_self]
    simp [endpoints]

theorem filter_index_map {α : Type} (d : α) (p : α → Bool) :
    ∀ (l : List α),
      (((List.range l.length).filter (fun i => p (l.getD i d))).map (fun i => l.getD i d))
        = l.filter p := by
  intro l
  induction l with
  | nil => simp
  | cons a t ih =>
      rw [List.length_cons, List.range_succ_eq_map]
      rw [List.filter_cons]
      by_cases hp : p ((a :: t).getD 0 d) = true
      · rw [if_pos hp]
        rw [List.map_cons]
        have hp' : p a = true := by simpa using hp
        rw [List.filter_cons, if_pos hp']
        congr 1
        · rw [List.filter_map, List.map_map]
          rw [← ih]
          congr 1
      · rw [if_neg hp]
        have hp' : ¬ p a = true := by simpa using hp
        rw [List.filter_cons, if_neg hp']
        rw [List.filter_map, List.map_map]
        rw [← ih]
        congr 1

theorem pairsOfList_endpoints :
    ∀ (k : ℕ) (l : List ℕ), l.length ≤ k → l.length % 2 = 0 →
      endpoints (pairsOfList l) = l := by
  intro k
  induction k with
  | zero =>
      intro l hl _
      have hl0 : l.length = 0 := by omega
      rcases List.eq_nil_of_length_eq_zero hl0 with rfl
      rfl
  | succ k ih =>
      intro l hl hev
      match l with
      | [] => rfl
      | [a] => simp at hev
      | a :: b :: rest =>
          rw [show pairsOfList (a :: b :: rest) = (a, b) :: pairsOfList rest from rfl]
          have : endpoints ((a, b) :: pairsOfList rest)
              = [a, b] ++ endpoints (pairsOfList rest) := by
            simp [endpoints]
          rw [this, ih rest (by simp only [List.length_cons] at hl; omega)
            (by simp only [List.length_cons] at hev; omega)]
          rfl

theorem foldSet_marks (newPairs : List (ℕ × ℕ)) :
    ∀ (m : List Bool), (∀ x ∈ endpoints newPairs, x < m.length) →
      ((newPairs.foldl (fun m p => (m.set p.1 true).set p.2 true) m).length = m.length ∧
       ∀ x, (newPairs.foldl (fun m p => (m.set p.1 true).set p.2 true) m).getD x false
         = (m.getD x false || decide (x ∈ endpoints newPairs))) := by
  induction newPairs with
  | nil =>
      intro m _
      refine ⟨rfl, fun x => ?_⟩
      simp [endpoints]
  | cons p ps ih =>
      intro m hbnd
      have hp1 : p.1 ∈ endpoints (p :: ps) := by simp [endpoints]
      have hp2 : p.2 ∈ endpoints (p :: ps) := by simp [endpoints]
      have hb1 : p.1 < m.length := hbnd p.1 hp1
      have hb2 : p.2 < m.length := hbnd p.2 hp2
      simp only [List.foldl_cons]
      obtain ⟨hlen, hchar⟩ := ih ((m.set p.1 true).set p.2 true)
        (by intro x hx
            simp only [List.length_set]
            apply hbnd
            have hsplit : endpoints (p :: ps) = [p.1, p.2] ++ endpoints ps := by
              simp [endpoints]
            rw [hsplit]
            exact List.mem_append.mpr (Or.inr hx))
      refine ⟨by rw [hlen]; simp, fun x => ?_⟩
      rw [hchar x]
      have hsplit : endpoints (p :: ps) = [p.1, p.2] ++ endpoints ps := by
        simp [endpoints]
      rw [hsplit]
      by_cases hx2 : x = p.2
      · rw [hx2, getD_set_eq _ _ true false (by simpa using hb2)]
        simp
      · rw [getD_set_ne _ _ x true false (Ne.symm hx2)]
        by_cases hx1 : x = p.1
        · rw [hx1, getD_set_eq _ _ true false hb1]
          simp
        · rw [getD_set_ne _ _ x true false (Ne.symm hx1)]
          have : (x ∈ [p.1, p.2] ++ endpoints ps) ↔ (x ∈ endpoints ps) := by
            simp only [List.mem_append, List.mem_cons, List.mem_singleton,
              List.not_mem_nil, or_false]
            constructor
            · rintro ((h | h) | h)
              · exact absurd h hx1
              · exact absurd h hx2
              · exact h
            · exact fun h => Or.inr h
          by_cases hmem : x ∈ endpoints ps
          · rw [decide_eq_true (this.mpr hmem), decide_eq_true hmem]
          · rw [decide_eq_false (fun hc => hmem (this.mp hc)), decide_eq_false hmem]

/-- The multiset of vertices grouped so far (pair endpoints plus preserved
singles). -/
def groupedVerts (acc : MatchAcc) : List ℕ :=
  endpoints acc.matchedPairs ++ acc.preservedSingles

theorem nodup_filter_perm (B : List ℕ) (E : List ℕ) (hB : B.Nodup) (hE : E.Nodup)
    (hsub : ∀ x ∈ E, x ∈ B) :
    (B.filter (fun v => decide (v ∈ E))).Perm E := by
  rw [List.perm_ext_iff_of_nodup (hB.filter _) hE]
  intro a
  simp only [List.mem_filter, decide_eq_true_eq]
  exact ⟨fun h => h.2, fun h => ⟨hsub a h, h⟩⟩

/-- Named pieces of `processBucket` (each definitionally equal to the
corresponding `let` in its body). -/
def bRemain (g : Graph) (B : List ℕ) (acc : MatchAcc) : List ℕ :=
  B.filter (fun v => !(phase2a g B acc).isMatched.getD v false)

def bSt2 (g : Graph) (B : List ℕ) (acc : MatchAcc) : List Bool × MatchAcc :=
  phase2b g (bRemain g B acc) (phase2a g B acc)

def bLeftovers (g : Graph) (B : List ℕ) (acc : MatchAcc) : List ℕ :=
  ((List.range (bRemain g B acc).length).filter (fun i =>
      !(bSt2 g B acc).1.getD i false &&
      !(bSt2 g B acc).2.isMatched.getD ((bRemain g B acc).getD i 0) false)).map
    (fun i => (bRemain g B acc).getD i 0)

def bLeftovers2 (g : Graph) (B : List ℕ) (acc : MatchAcc) : List ℕ :=
  if (bLeftovers g B acc).length % 2 = 1 then (bLeftovers g B acc).dropLast
  else bLeftovers g B acc

def bExtra (g : Graph) (B : List ℕ) (acc : MatchAcc) : List ℕ :=
  if (bLeftovers g B acc).length % 2 = 1 then [(bLeftovers g B acc).getLastD 0] else []

def bSingles (g : Graph) (B : List ℕ) (acc : MatchAcc) : List ℕ :=
  if (bLeftovers g B acc).length % 2 = 1 then
    (bSt2 g B acc).2.preservedSingles ++ [(bLeftovers g B acc).getLastD 0]
  else (bSt2 g B acc).2.preservedSingles

theorem processBucket_eq (g : Graph) (acc : MatchAcc) (B : List ℕ) :
    processBucket g acc B =
      { matchedPairs := (bSt2 g B acc).2.matchedPairs ++ pairsOfList (bLeftovers2 g B acc),
        preservedSingles := bSingles g B acc,
        isMatched := (pairsOfList (bLeftovers2 g B acc)).foldl
          (fun m p => (m.set p.1 true).set p.2 true) (bSt2 g B acc).2.isMatched } := rfl

theorem bSingles_eq (g : Graph) (B : List ℕ) (acc : MatchAcc) :
    bSingles g B acc = (bSt2 g B acc).2.preservedSingles ++ bExtra g B acc := by
  unfold bSingles bExtra
  split
  · rfl
  · rw [List.append_nil]

theorem bLeftovers_split (g : Graph) (B : List ℕ) (acc : MatchAcc) :
    bLeftovers g B acc = bLeftovers2 g B acc ++ bExtra g B acc := by
  unfold bLeftovers2 bExtra
  by_cases hodd : (bLeftovers g B acc).length % 2 = 1
  · rw [if_pos hodd, if_pos hodd]
    have hne : bLeftovers g B acc ≠ [] := by
      intro h
      rw [h] at hodd
      simp at hodd
    rw [List.getLastD_eq_getLast?, List.getLast?_eq_getLast _ hne]
    exact (List.dropLast_concat_getLast hne).symm
  · rw [if_neg hodd, if_neg hodd, List.append_nil]

theorem bLeftovers2_even (g : Graph) (B : List ℕ) (acc : MatchAcc) :
    (bLeftovers2 g B acc).length % 2 = 0 := by
  unfold bLeftovers2
  by_cases hodd : (bLeftovers g B acc).length % 2 = 1
  · rw [if_pos hodd, List.length_dropLast]
    omega
  · rw [if_neg hodd]
    omega

theorem processBucket_spec (g : Graph) (hWF : g.WF) (B : List ℕ) (acc : MatchAcc)
    (hBnodup : B.Nodup)
    (hBlen : ∀ x ∈ B, x < acc.isMatched.length)
    (hunm : ∀ v ∈ B, acc.isMatched.getD v false = false) :
    ((groupedVerts (processBucket g acc B) : Multiset ℕ)
      = (groupedVerts acc : Multiset ℕ) + (B : Multiset ℕ)) ∧
    (processBucket g acc B).isMatched.length = acc.isMatched.length ∧
    (∀ v, (processBucket g acc B).isMatched.getD v false = true →
      acc.isMatched.getD v false = true ∨ v ∈ B) := by
  -- phase 2a
  obtain ⟨P₁, hE₁⟩ : ∃ P, Extends B acc (phase2a g B acc) P :=
    phase2a_spec g hWF B B acc (fun v hv => hv) hBlen
  obtain ⟨hmp₁, hsg₁, hlen₁, hchar₁, hnd₁, hdom₁⟩ := hE₁
  -- remain facts
  have hremsub : ∀ v ∈ bRemain g B acc, v ∈ B := fun v hv => (List.mem_filter.mp hv).1
  have hremnodup : (bRemain g B acc).Nodup := hBnodup.filter _
  have hrlen : ∀ x ∈ bRemain g B acc, x < (phase2a g B acc).isMatched.length := by
    intro x hx
    rw [hlen₁]
    exact hBlen x (hremsub x hx)
  have hentry : ∀ v ∈ bRemain g B acc,
      (phase2a g B acc).isMatched.getD v false = false := by
    intro v hv
    have := (List.mem_filter.mp hv).2
    simpa using this
  have hmark₁ : ∀ v ∈ B, (phase2a g B acc).isMatched.getD v false
      = decide (v ∈ endpoints P₁) := by
    intro v hv
    rw [hchar₁ v, hunm v hv, Bool.false_or]
  have hremfilter : bRemain g B acc = B.filter (fun v => !decide (v ∈ endpoints P₁)) := by
    unfold bRemain
    apply List.filter_congr
    intro v hv
    rw [hmark₁ v hv]
  -- phase 2b
  obtain ⟨P₂, hE₂, hul₂, hsync₂⟩ := phase2b_spec g (bRemain g B acc) hremnodup
    (phase2a g B acc) hrlen hentry
  obtain ⟨hmp₂, hsg₂, hlen₂, hchar₂, hnd₂, hdom₂⟩ := hE₂
  have hbst2 : phase2b g (bRemain g B acc) (phase2a g B acc) = bSt2 g B acc := rfl
  rw [hbst2] at hul₂ hsync₂ hmp₂ hsg₂ hlen₂ hchar₂
  -- leftovers are the complement filter of the 2b endpoints inside remain
  have hlefto : bLeftovers g B acc
      = (bRemain g B acc).filter (fun v => !decide (v ∈ endpoints P₂)) := by
    unfold bLeftovers
    rw [List.filter_congr (q := fun i =>
        !decide ((bRemain g B acc).getD i 0 ∈ endpoints P₂)) ?_]
    · exact filter_index_map 0 (fun v => !decide (v ∈ endpoints P₂)) (bRemain g B acc)
    · intro i hi
      have hik := List.mem_range.mp hi
      have hused : (bSt2 g B acc).1.getD i false
          = decide ((bRemain g B acc).getD i 0 ∈ endpoints P₂) := by
        rcases h : (bSt2 g B acc).1.getD i false
        · symm
          rw [decide_eq_false_iff_not]
          intro hc
          have := (hsync₂ i hik).mpr hc
          rw [h] at this
          exact Bool.false_ne_true this
        · symm
          rw [decide_eq_true ((hsync₂ i hik).mp h)]
      have hmarkv : (bSt2 g B acc).2.isMatched.getD ((bRemain g B acc).getD i 0) false
          = decide ((bRemain g B acc).getD i 0 ∈ endpoints P₂) := by
        rw [hchar₂ _, hentry _ (getD_mem' _ 0 hik), Bool.false_or]
      rw [hused, hmarkv, Bool.and_self]
  have hleftsub : ∀ v ∈ bLeftovers g B acc, v ∈ bRemain g B acc := by
    intro v hv
    rw [hlefto] at hv
    exact (List.mem_filter.mp hv).1
  -- multiset splits
  have hsplitB : (B : Multiset ℕ)
      = (endpoints P₁ : Multiset ℕ) + ((bRemain g B acc : List ℕ) : Multiset ℕ) := by
    rw [Multiset.coe_add, Multiset.coe_eq_coe, hremfilter]
    have hperm := List.filter_append_perm (fun v => decide (v ∈ endpoints P₁)) B
    refine ((List.Perm.append ?_ (List.Perm.refl _)).trans hperm).symm
    exact (nodup_filter_perm B (endpoints P₁) hBnodup hnd₁ (fun x hx => (hdom₁ x hx).1)).symm
  have hsplitR : ((bRemain g B acc : List ℕ) : Multiset ℕ)
      = (endpoints P₂ : Multiset ℕ) + ((bLeftovers g B acc : List ℕ) : Multiset ℕ) := by
    rw [Multiset.coe_add, Multiset.coe_eq_coe, hlefto]
    have hperm := List.filter_append_perm (fun v => decide (v ∈ endpoints P₂))
      (bRemain g B acc)
    refine ((List.Perm.append ?_ (List.Perm.refl _)).trans hperm).symm
    exact (nodup_filter_perm (bRemain g B acc) (endpoints P₂) hremnodup hnd₂
      (fun x hx => (hdom₂ x hx).1)).symm
  have hsplitL : ((bLeftovers g B acc : List ℕ) : Multiset ℕ)
      = ((bLeftovers2 g B acc : List ℕ) : Multiset ℕ)
        + ((bExtra g B acc : List ℕ) : Multiset ℕ) := by
    rw [Multiset.coe_add, Multiset.coe_eq_coe]
    rw [bLeftovers_split g B acc]
  -- endpoints of the 2c pairs
  have hend2c : endpoints (pairsOfList (bLeftovers2 g B acc)) = bLeftovers2 g B acc :=
    pairsOfList_endpoints (bLeftovers2 g B acc).length _ (le_refl _)
      (bLeftovers2_even g B acc)
  -- final marks
  have hbnd2c : ∀ x ∈ endpoints (pairsOfList (bLeftovers2 g B acc)),
      x < (bSt2 g B acc).2.isMatched.length := by
    intro x hx
    rw [hend2c] at hx
    have hx2 : x ∈ bLeftovers g B acc := by
      rw [bLeftovers_split g B acc]
      exact List.mem_append.mpr (Or.inl hx)
    rw [hlen₂, hlen₁]
    exact hBlen x (hremsub x (hleftsub x hx2))
  obtain ⟨hflen, hfchar⟩ := foldSet_marks (pairsOfList (bLeftovers2 g B acc))
    (bSt2 g B acc).2.isMatched hbnd2c
  refine ⟨?_, ?_, ?_⟩
  · -- the grouped-vertex multiset grows by exactly B
    rw [processBucket_eq]
    unfold groupedVerts
    simp only
    rw [hmp₂, hmp₁, bSingles_eq, hsg₂, hsg₁]
    simp only [endpoints_append]
    rw [hend2c, hsplitB, hsplitR, hsplitL]
    simp only [← Multiset.coe_add]
    simp only [add_comm, add_left_comm, add_assoc]
  · rw [processBucket_eq]
    simp only
    rw [hflen, hlen₂, hlen₁]
  · intro v hv
    rw [processBucket_eq] at hv
    simp only at hv
    rw [hfchar v] at hv
    rcases Bool.or_eq_true_iff.mp hv with h | h
    · rw [hchar₂ v] at h
      rcases Bool.or_eq_true_iff.mp h with h2 | h2
      · rw [hchar₁ v] at h2
        rcases Bool.or_eq_true_iff.mp h2 with h3 | h3
        · exact Or.inl h3
        · exact Or.inr (hdom₁ v (of_decide_eq_true h3)).1
      · exact Or.inr (hremsub v (hdom₂ v (of_decide_eq_true h2)).1)
    · have hx := of_decide_eq_true h
      rw [hend2c] at hx
      refine Or.inr (hremsub v (hleftsub v ?_))
      rw [bLeftovers_split g B acc]
      exact List.mem_append.mpr (Or.inl hx)

/-- One vertex of the bucket construction (the loop body of `buildBuckets`). -/
def bucketStep (g : Graph) (cores : List ℕ) (acc : List ((ℕ × ℕ) × List ℕ)) (v : ℕ) :
    List ((ℕ × ℕ) × List ℕ) :=
  if acc.any (fun p => decide (p.1 = bucketKey g cores v)) then
    acc.map (fun p => if p.1 = bucketKey g cores v then (p.1, p.2 ++ [v]) else p)
  else acc ++ [(bucketKey g cores v, [v])]

theorem buildBuckets_eq (g : Graph) (cores : List ℕ) :
    buildBuckets g cores = (List.range g.numVertices).foldl (bucketStep g cores) [] := rfl

theorem keys_map_update (k : ℕ × ℕ) (v : ℕ) (acc : List ((ℕ × ℕ) × List ℕ)) :
    (acc.map (fun p => if p.1 = k then (p.1, p.2 ++ [v]) else p)).map Prod.fst
      = acc.map Prod.fst := by
  rw [List.map_map]
  apply List.map_congr_left
  intro p _
  by_cases h : p.1 = k
  · simp [h]
  · simp [h]

theorem flatten_map_update (k : ℕ × ℕ) (v : ℕ) (acc : List ((ℕ × ℕ) × List ℕ))
    (hnd : (acc.map Prod.fst).Nodup)
    (hany : acc.any (fun p => decide (p.1 = k)) = true) :
    (((acc.map (fun p => if p.1 = k then (p.1, p.2 ++ [v]) else p)).map Prod.snd).flatten
        : Multiset ℕ)
      = ((acc.map Prod.snd).flatten : Multiset ℕ) + ({v} : Multiset ℕ) := by
  induction acc with
  | nil => simp at hany
  | cons p rest ih =>
    rw [List.map_cons, List.nodup_cons] at hnd
    by_cases hp : p.1 = k
    · have hrest : rest.map (fun q => if q.1 = k then (q.1, q.2 ++ [v]) else q) = rest := by
        rw [List.map_congr_left (g := id) ?_, List.map_id]
        intro q hq
        rw [if_neg]
        · rfl
        · intro hc
          exact hnd.1 (hp ▸ hc ▸ List.mem_map_of_mem Prod.fst hq)
      rw [List.map_cons, if_pos hp, hrest]
      simp only [List.map_cons, List.flatten_cons, ← Multiset.coe_add, Multiset.coe_singleton]
      rw [add_right_comm]
    · have hany' : rest.any (fun p => decide (p.1 = k)) = true := by
        simp only [List.any_cons, Bool.or_eq_true, decide_eq_true_eq] at hany
        rcases hany with h | h
        · exact absurd h hp
        · exact h
      rw [List.map_cons, if_neg hp, List.map_cons, List.flatten_cons, List.map_cons,
        List.flatten_cons]
      simp only [← Multiset.coe_add]
      rw [ih hnd.2 hany', ← add_assoc]

theorem bucketFoldAux (g : Graph) (cores : List ℕ) :
    ∀ (l : List ℕ) (acc : List ((ℕ × ℕ) × List ℕ)), (acc.map Prod.fst).Nodup →
      ((l.foldl (bucketStep g cores) acc).map Prod.fst).Nodup ∧
      ((((l.foldl (bucketStep g cores) acc).map Prod.snd).flatten : Multiset ℕ)
        = ((acc.map Prod.snd).flatten : Multiset ℕ) + (l : Multiset ℕ))
  | [], acc, hnd => ⟨hnd, by simp⟩
  | v :: l, acc, hnd => by
    rw [List.foldl_cons]
    have hstep : ((bucketStep g cores acc v).map Prod.fst).Nodup ∧
        (((bucketStep g cores acc v).map Prod.snd).flatten : Multiset ℕ)
          = ((acc.map Prod.snd).flatten : Multiset ℕ) + ({v} : Multiset ℕ) := by
      unfold bucketStep
      by_cases hany : acc.any (fun p => decide (p.1 = bucketKey g cores v)) = true
      · rw [if_pos hany]
        exact ⟨by rw [keys_map_update]; exact hnd, flatten_map_update _ v acc hnd hany⟩
      · rw [if_neg hany]
        constructor
        · rw [List.map_append]
          rw [List.nodup_append]
          refine ⟨hnd, by simp, ?_⟩
          intro x hx
          obtain ⟨p, hp, rfl⟩ := List.mem_map.mp hx
          simp only [List.map_cons, List.map_nil, List.mem_cons, List.not_mem_nil]
          intro hc
          rcases hc with hc | hc
          · rw [List.any_eq_true] at hany
            exact hany ⟨p, hp, by rw [decide_eq_true_eq]; exact hc⟩
          · exact hc
        · rw [List.map_append, List.flatten_append]
          simp only [List.map_cons, List.map_nil, List.flatten_cons, List.flatten_nil,
            List.append_nil]
          simp only [← Multiset.coe_add]
          simp only [Multiset.coe_add, ← Multiset.coe_singleton]
    obtain ⟨h1, h2⟩ := bucketFoldAux g cores l (bucketStep g cores acc v) hstep.1
    refine ⟨h1, ?_⟩
    rw [h2, hstep.2]
    have hvl : ((v :: l : List ℕ) : Multiset ℕ) = ({v} : Multiset ℕ) + (l : Multiset ℕ) := by
      rw [← Multiset.cons_coe, ← Multiset.singleton_add]
    rw [hvl, add_assoc]

theorem buildBuckets_flatten_perm (g : Graph) (cores : List ℕ) :
    (((buildBuckets g cores).map Prod.snd).flatten).Perm (List.range g.numVertices) := by
  have h := bucketFoldAux g cores (List.range g.numVertices) [] (by simp)
  rw [buildBuckets_eq, ← Multiset.coe_eq_coe]
  simpa using h.2

theorem processFold_spec (g : Graph) (hWF : g.WF) :
    ∀ (bs : List (List ℕ)) (acc : MatchAcc), bs.flatten.Nodup →
      (∀ x ∈ bs.flatten, x < acc.isMatched.length) →
      (∀ v ∈ bs.flatten, acc.isMatched.getD v false = false) →
      ((groupedVerts (bs.foldl (processBucket g) acc) : Multiset ℕ)
          = (groupedVerts acc : Multiset ℕ) + (bs.flatten : Multiset ℕ)) ∧
      (bs.foldl (processBucket g) acc).isMatched.length = acc.isMatched.length ∧
      (∀ v, (bs.foldl (processBucket g) acc).isMatched.getD v false = true →
          acc.isMatched.getD v false = true ∨ v ∈ bs.flatten)
  | [], acc, _, _, _ => ⟨by simp, rfl, fun v hv => Or.inl hv⟩
  | B :: bs, acc, hnd, hbnd, hunm => by
    rw [List.flatten_cons] at hnd hbnd hunm
    rw [List.foldl_cons, List.flatten_cons]
    obtain ⟨hBnd, hbsnd, hdisj⟩ := List.nodup_append.mp hnd
    obtain ⟨hm1, hm2, hm3⟩ := processBucket_spec g hWF B acc hBnd
      (fun x hx => hbnd x (List.mem_append.mpr (Or.inl hx)))
      (fun v hv => hunm v (List.mem_append.mpr (Or.inl hv)))
    obtain ⟨hi1, hi2, hi3⟩ := processFold_spec g hWF bs (processBucket g acc B) hbsnd
      (fun x hx => by rw [hm2]; exact hbnd x (List.mem_append.mpr (Or.inr hx)))
      (fun v hv => by
        rcases hmk : (processBucket g acc B).isMatched.getD v false with _ | _
        · rfl
        · rcases hm3 v hmk with h | h
          · rw [hunm v (List.mem_append.mpr (Or.inr hv))] at h
            exact absurd h Bool.false_ne_true
          · exact absurd hv (hdisj h))
    refine ⟨?_, by rw [hi2, hm2], ?_⟩
    · rw [hi1, hm1]
      simp only [← Multiset.coe_add]
      rw [add_assoc]
    · intro v hv
      rcases hi3 v hv with h | h
      · rcases hm3 v h with h2 | h2
        · exact Or.inl h2
        · exact Or.inr (List.mem_append.mpr (Or.inl h2))
      · exact Or.inr (List.mem_append.mpr (Or.inr h))

/-- The accumulated matching after all buckets (the `acc` of
`coarsenGroups`). -/
def finalMatchAcc (g : Graph) : MatchAcc :=
  (buildBuckets g (computeCores g)).foldl (fun acc b => processBucket g acc b.2)
    ⟨[], [], List.replicate g.numVertices false⟩

theorem coarsenGroups_eq (g : Graph) :
    coarsenGroups g = ((finalMatchAcc g).matchedPairs.map (fun p => [p.1, p.2]))
      ++ ((finalMatchAcc g).preservedSingles.map (fun x => [x])) := rfl

theorem flatten_singletons : ∀ (S : List ℕ), (S.map (fun x => [x])).flatten = S
  | [] => rfl
  | x :: S => by rw [List.map_cons, List.flatten_cons, flatten_singletons S]; rfl

theorem coarsenGroups_flatten (g : Graph) :
    (coarsenGroups g).flatten = groupedVerts (finalMatchAcc g) := by
  rw [coarsenGroups_eq, List.flatten_append]
  unfold groupedVerts endpoints
  rw [List.flatMap_def, flatten_singletons]

theorem processGroupsAux (g : Graph) (hWF : g.WF)
    (hperm : (((buildBuckets g (computeCores g)).map Prod.snd).flatten).Perm
      (List.range g.numVertices))
    (hnd : (((buildBuckets g (computeCores g)).map Prod.snd).flatten).Nodup) :
    (coarsenGroups g).flatten.Perm (List.range g.numVertices) := by
  obtain ⟨h1, -, -⟩ := processFold_spec g hWF
    ((buildBuckets g (computeCores g)).map Prod.snd)
    ⟨[], [], List.replicate g.numVertices false⟩ hnd
    (fun x hx => by
      simpa using List.mem_range.mp (hperm.mem_iff.mp hx))
    (fun v hv => getD_replicate_self _ _ _)
  have hfold_eq : ((buildBuckets g (computeCores g)).map Prod.snd).foldl (processBucket g)
      (⟨[], [], List.replicate g.numVertices false⟩ : MatchAcc) = finalMatchAcc g := by
    rw [List.foldl_map]
    rfl
  rw [hfold_eq] at h1
  rw [← Multiset.coe_eq_coe, coarsenGroups_flatten, h1]
  have hinit : groupedVerts (⟨[], [], List.replicate g.numVertices false⟩ : MatchAcc)
      = [] := rfl
  rw [hinit]
  rw [← Multiset.coe_eq_coe] at hperm
  rw [hperm]
  rfl

theorem coarsenGroups_flatten_perm (g : Graph) (hWF : g.WF) :
    (coarsenGroups g).flatten.Perm (List.range g.numVertices) := by
  have hperm := buildBuckets_flatten_perm g (computeCores g)
  have hnd : (((buildBuckets g (computeCores g)).map Prod.snd).flatten).Nodup :=
    hperm.nodup_iff.mpr (List.nodup_range _)
  have hfold := processGroupsAux g hWF hperm hnd
  exact hfold

/-- The coarse graph built by `coarsenGraph` (its first component). -/
def coarseG2 (g : Graph) : Graph :=
  (List.range (coarsenGroups g).length).foldl
    (fun G2 i => (finsetAsc (coarsenGroups g).length
        ((coarseNbrSets g (coarsenGroups g)).getD i ∅)).foldl
      (fun G2 j => G2.addEdge i j) G2)
    { numVertices := (coarsenGroups g).length,
      adjacencyList := List.replicate (coarsenGroups g).length [],
      weights := groupWeights g (coarsenGroups g) }

theorem coarsenGraph_eq (g : Graph) : coarsenGraph g = (coarseG2 g, coarsenGroups g) := rfl

theorem foldl_graph_pres {α β : Type} (f : Graph → β) (step : Graph → α → Graph)
    (hstep : ∀ G a, f (step G a) = f G) :
    ∀ (l : List α) (G : Graph), f (l.foldl step G) = f G
  | [], _ => rfl
  | a :: l, G => by
    rw [List.foldl_cons, foldl_graph_pres f step hstep l (step G a), hstep]

theorem coarseG2_fold {β : Type} (g : Graph) (f : Graph → β)
    (hstep : ∀ (G : Graph) (u v : ℕ), f (G.addEdge u v) = f G) :
    f (coarseG2 g) = f ({ numVertices := (coarsenGroups g).length,
                          adjacencyList := List.replicate (coarsenGroups g).length [],
                          weights := groupWeights g (coarsenGroups g) } : Graph) := by
  unfold coarseG2
  exact foldl_graph_pres f _
    (fun G i => foldl_graph_pres f _ (fun G j => hstep G i j) _ G) _ _

theorem coarseG2_weights (g : Graph) :
    (coarseG2 g).weights = groupWeights g (coarsenGroups g) := by
  rw [coarseG2_fold g Graph.weights (fun G u v => rfl)]

theorem coarseG2_num (g : Graph) :
    (coarseG2 g).numVertices = (coarsenGroups g).length := by
  rw [coarseG2_fold g Graph.numVertices (fun G u v => rfl)]

theorem coarseG2_adjLen (g : Graph) :
    (coarseG2 g).adjacencyList.length = (coarsenGroups g).length := by
  rw [coarseG2_fold g (fun G => G.adjacencyList.length)
    (fun G u v => by simp [Graph.addEdge, List.length_set])]
  exact List.length_replicate _ _

theorem foldl_add_map {α : Type} (f : α → ℤ) :
    ∀ (l : List α) (a : ℤ), l.foldl (fun a v => a + f v) a = a + (l.map f).sum
  | [], a => by simp
  | v :: l, a => by
    rw [List.foldl_cons, foldl_add_map f l (a + f v), List.map_cons, List.sum_cons]
    ring

theorem groupWeights_sum (g : Graph) (groups : List (List ℕ)) :
    (groupWeights g groups).sum
      = (groups.flatten.map
          (fun v => if v < g.weights.length then g.weights.getD v 0 else 1)).sum := by
  unfold groupWeights
  rw [List.map_flatten, List.sum_flatten, List.map_map]
  apply congrArg List.sum
  apply List.map_congr_left
  intro grp _
  rw [Function.comp_apply, foldl_add_map, zero_add]

theorem map_getD_range (w : List ℤ) :
    (List.range w.length).map (fun v => w.getD v 0) = w := by
  apply List.ext_getElem
  · simp
  · intro n h1 h2
    simp only [List.getElem_map, List.getElem_range]
    exact List.getD_eq_getElem w 0 h2

theorem coarsenGraph_weight_sum (g : Graph) (hWF : g.WF) :
    (coarseG2 g).weights.sum = g.weights.sum := by
  rw [coarseG2_weights, groupWeights_sum]
  have hperm := (coarsenGroups_flatten_perm g hWF).map
    (fun v => if v < g.weights.length then g.weights.getD v 0 else 1)
  rw [hperm.sum_eq]
  have hrange : (List.range g.numVertices).map
      (fun v => if v < g.weights.length then g.weights.getD v 0 else 1)
      = (List.range g.weights.length).map (fun v => g.weights.getD v 0) := by
    rw [hWF.weights_length]
    apply List.map_congr_left
    intro v hv
    rw [if_pos]
    exact List.mem_range.mp hv
  rw [hrange, map_getD_range]

theorem length_le_flatten_length :
    ∀ (L : List (List ℕ)), (∀ l ∈ L, l ≠ []) → L.length ≤ L.flatten.length
  | [], _ => le_refl 0
  | l :: L, h => by
    rw [List.flatten_cons, List.length_append, List.length_cons]
    have h1 : 0 < l.length := List.length_pos.mpr (h l (List.mem_cons_self l L))
    have h2 := length_le_flatten_length L (fun x hx => h x (List.mem_cons_of_mem l hx))
    omega

theorem coarsenGroups_length_le (g : Graph) (hWF : g.WF) :
    (coarsenGroups g).length ≤ g.numVertices := by
  have hperm := coarsenGroups_flatten_perm g hWF
  have hlen : (coarsenGroups g).flatten.length = g.numVertices := by
    rw [hperm.length_eq, List.length_range]
  have hne : ∀ grp ∈ coarsenGroups g, grp ≠ [] := by
    rw [coarsenGroups_eq]
    intro grp hg
    rcases List.mem_append.mp hg with h | h <;>
      obtain ⟨p, _, rfl⟩ := List.mem_map.mp h <;> simp
  calc (coarsenGroups g).length ≤ (coarsenGroups g).flatten.length :=
        length_le_flatten_length _ hne
    _ = g.numVertices := hlen

theorem foldl_induct {σ α : Type} (P : σ → Prop) (f : σ → α → σ) :
    ∀ (l : List α) (s : σ), P s → (∀ s a, a ∈ l → P s → P (f s a)) → P (l.foldl f s)
  | [], _, h0, _ => h0
  | a :: l, s, h0, hstep => by
    rw [List.foldl_cons]
    exact foldl_induct P f l (f s a) (hstep s a (List.mem_cons_self a l) h0)
      (fun s b hb hs => hstep s b (List.mem_cons_of_mem a hb) hs)

theorem getD_some_mem {α : Type} (l : List (Option α)) (u : ℕ) (x : α)
    (h : l.getD u none = some x) : some x ∈ l := by
  rcases lt_or_le u l.length with hlt | hle
  · rw [List.getD_eq_getElem l none hlt] at h
    rw [← h]
    exact List.getElem_mem hlt
  · rw [List.getD_eq_default l none hle] at h
    cases h

theorem mapOldToNew_entries (n : ℕ) (groups : List (List ℕ)) :
    ∀ x ∈ mapOldToNew n groups, ∀ i, x = some i → i < groups.length := by
  unfold mapOldToNew
  apply foldl_induct (fun m => ∀ x ∈ m, ∀ i, x = some i → i < groups.length)
  · intro x hx i hi
    rw [List.eq_of_mem_replicate hx] at hi
    cases hi
  · intro m k hk hm
    apply foldl_induct (fun m => ∀ x ∈ m, ∀ i, x = some i → i < groups.length)
    · exact hm
    · intro m v _ hm x hx i hi
      rcases List.mem_or_eq_of_mem_set hx with h | h
      · exact hm x h i hi
      · rw [h] at hi
        injection hi with hik
        rw [← hik]
        exact List.mem_range.mp hk

/-- Invariant of the coarse neighbour sets: correct length, entries in range
and irreflexive, and symmetric. -/
def NsInv (m : ℕ) (ns : List (Finset ℕ)) : Prop :=
  ns.length = m ∧
  (∀ i j, j ∈ ns.getD i ∅ → j < m ∧ j ≠ i) ∧
  (∀ i j, j ∈ ns.getD i ∅ → i ∈ ns.getD j ∅)

theorem NsInv_insert (m : ℕ) (ns : List (Finset ℕ)) (hInv : NsInv m ns)
    (su sv : ℕ) (hsu : su < m) (hsv : sv < m) (hne : su ≠ sv) :
    NsInv m ((ns.set su (insert sv (ns.getD su ∅))).set sv
      (insert su (ns.getD sv ∅))) := by
  obtain ⟨hlen, hbnd, hsym⟩ := hInv
  have hchar : ∀ k, ((ns.set su (insert sv (ns.getD su ∅))).set sv
      (insert su (ns.getD sv ∅))).getD k ∅
      = if k = sv then insert su (ns.getD sv ∅)
        else if k = su then insert sv (ns.getD su ∅)
        else ns.getD k ∅ := by
    intro k
    by_cases hk1 : k = sv
    · rw [if_pos hk1, hk1,
        getD_set_eq _ _ _ _ (by rw [List.length_set, hlen]; exact hsv)]
    · rw [if_neg hk1, getD_set_ne _ _ _ _ _ (fun h => hk1 h.symm)]
      by_cases hk2 : k = su
      · rw [if_pos hk2, hk2, getD_set_eq _ _ _ _ (by rw [hlen]; exact hsu)]
      · rw [if_neg hk2, getD_set_ne _ _ _ _ _ (fun h => hk2 h.symm)]
  refine ⟨by rw [List.length_set, List.length_set]; exact hlen, ?_, ?_⟩
  · intro i j hj
    rw [hchar i] at hj
    by_cases hi1 : i = sv
    · rw [if_pos hi1] at hj
      rcases Finset.mem_insert.mp hj with h | h
      · rw [h, hi1]
        exact ⟨hsu, hne⟩
      · exact ⟨(hbnd sv j h).1, hi1 ▸ (hbnd sv j h).2⟩
    · rw [if_neg hi1] at hj
      by_cases hi2 : i = su
      · rw [if_pos hi2] at hj
        rcases Finset.mem_insert.mp hj with h | h
        · rw [h, hi2]
          exact ⟨hsv, fun hc => hne hc.symm⟩
        · exact ⟨(hbnd su j h).1, hi2 ▸ (hbnd su j h).2⟩
      · rw [if_neg hi2] at hj
        exact hbnd i j hj
  · intro i j hj
    rw [hchar i] at hj
    rw [hchar j]
    by_cases hi1 : i = sv
    · rw [if_pos hi1] at hj
      rcases Finset.mem_insert.mp hj with h | h
      · rw [h, if_neg (fun hc : su = sv => hne hc), if_pos rfl, hi1]
        exact Finset.mem_insert_self sv (ns.getD su ∅)
      · have hij := hsym sv j h
        by_cases hj1 : j = sv
        · exact absurd hj1 (hbnd sv j h).2
        · rw [if_neg hj1]
          by_cases hj2 : j = su
          · rw [if_pos hj2, hi1]
            exact Finset.mem_insert_of_mem (hj2 ▸ hij)
          · rw [if_neg hj2, hi1]
            exact hij
    · rw [if_neg hi1] at hj
      by_cases hi2 : i = su
      · rw [if_pos hi2] at hj
        rcases Finset.mem_insert.mp hj with h | h
        · rw [h, if_pos rfl, hi2]
          exact Finset.mem_insert_self su (ns.getD sv ∅)
        · have hij := hsym su j h
          by_cases hj1 : j = sv
          · rw [if_pos hj1, hi2]
            exact Finset.mem_insert_of_mem (hj1 ▸ hij)
          · rw [if_neg hj1]
            by_cases hj2 : j = su
            · exact absurd hj2 (hbnd su j h).2
            · rw [if_neg hj2, hi2]
              exact hij
      · rw [if_neg hi2] at hj
        have hij := hsym i j hj
        by_cases hj1 : j = sv
        · rw [if_pos hj1]
          exact Finset.mem_insert_of_mem (hj1 ▸ hij)
        · rw [if_neg hj1]
          by_cases hj2 : j = su
          · rw [if_pos hj2]
            exact Finset.mem_insert_of_mem (hj2 ▸ hij)
          · rw [if_neg hj2]
            exact hij

theorem coarseNbrSets_inv (g : Graph) (groups : List (List ℕ)) :
    NsInv groups.length (coarseNbrSets g groups) := by
  unfold coarseNbrSets
  apply foldl_induct (NsInv groups.length)
  · refine ⟨List.length_replicate _ _, ?_, ?_⟩
    · intro i j hj
      rw [getD_replicate_self] at hj
      exact absurd hj (Finset.not_mem_empty j)
    · intro i j hj
      rw [getD_replicate_self] at hj
      exact absurd hj (Finset.not_mem_empty j)
  · intro ns u _ hInv
    apply foldl_induct (NsInv groups.length)
    · exact hInv
    · intro ns v _ hInv
      rcases hu : (mapOldToNew g.numVertices groups).getD u none with _ | su <;>
        rcases hv : (mapOldToNew g.numVertices groups).getD v none with _ | sv
      · exact hInv
      · exact hInv
      · exact hInv
      · show NsInv groups.length
          (if su = sv then ns
           else (ns.set su (insert sv (ns.getD su ∅))).set sv
             (insert su (ns.getD sv ∅)))
        by_cases hne : su = sv
        · rw [if_pos hne]
          exact hInv
        · rw [if_neg hne]
          exact NsInv_insert groups.length ns hInv su sv
            (mapOldToNew_entries g.numVertices groups _
              (getD_some_mem _ u su hu) su rfl)
            (mapOldToNew_entries g.numVertices groups _
              (getD_some_mem _ v sv hv) sv rfl)
            hne

theorem addEdge_adj (G : Graph) (i j : ℕ) (hi : i < G.adjacencyList.length)
    (hj : j < G.adjacencyList.length) (hij : i ≠ j) (a : ℕ) :
    (G.addEdge i j).adj a
      = G.adj a ++ (if a = i then [j] else []) ++ (if a = j then [i] else []) := by
  show ((G.adjacencyList.set i (G.adj i ++ [j])).set j
      (((G.adjacencyList.set i (G.adj i ++ [j])).getD j []) ++ [i])).getD a []
      = _
  by_cases haj : a = j
  · rw [haj, getD_set_eq _ _ _ _ (by rw [List.length_set]; exact hj),
      getD_set_ne _ _ _ _ _ hij, if_neg (fun h : j = i => hij h.symm), if_pos rfl,
      List.append_nil]
    rfl
  · rw [getD_set_ne _ _ _ _ _ (fun h => haj h.symm), if_neg haj, List.append_nil]
    by_cases hai : a = i
    · rw [hai, getD_set_eq _ _ _ _ hi, if_pos rfl]
    · rw [getD_set_ne _ _ _ _ _ (fun h => hai h.symm), if_neg hai, List.append_nil]
      rfl

theorem foldl_addEdge_count (i : ℕ) :
    ∀ (L : List ℕ) (G : Graph), i < G.adjacencyList.length →
      (∀ y ∈ L, y < G.adjacencyList.length) → i ∉ L →
      ∀ a x, List.count x ((L.foldl (fun G2 j => G2.addEdge i j) G).adj a)
        = List.count x (G.adj a) + (if a = i then List.count x L else 0)
          + (if x = i then List.count a L else 0)
  | [], G, _, _, _, a, x => by simp
  | j :: L, G, hi, hbnd, hni, a, x => by
    rw [List.foldl_cons]
    have hj : j < G.adjacencyList.length := hbnd j (List.mem_cons_self j L)
    have hij : i ≠ j := fun h => hni (h ▸ List.mem_cons_self j L)
    have hlen : (G.addEdge i j).adjacencyList.length = G.adjacencyList.length := by
      simp [Graph.addEdge, List.length_set]
    rw [foldl_addEdge_count i L (G.addEdge i j) (by rw [hlen]; exact hi)
      (fun y hy => by rw [hlen]; exact hbnd y (List.mem_cons_of_mem j hy))
      (fun h => hni (List.mem_cons_of_mem j h)) a x]
    rw [addEdge_adj G i j hi hj hij a, List.count_append, List.count_append,
      List.count_cons, List.count_cons]
    have e1 : List.count x (if a = i then [j] else [])
        = if a = i then (if j = x then 1 else 0) else 0 := by
      by_cases h : a = i <;> simp [h, List.count_singleton]
    have e2 : List.count x (if a = j then [i] else [])
        = if a = j then (if i = x then 1 else 0) else 0 := by
      by_cases h : a = j <;> simp [h, List.count_singleton]
    rw [e1, e2]
    simp only [beq_iff_eq]
    split_ifs <;> omega

theorem mem_finsetAsc (m : ℕ) (S : Finset ℕ) (y : ℕ) (hy : y ∈ finsetAsc m S) :
    y ∈ S ∧ y < m := by
  obtain ⟨h1, h2⟩ := List.mem_filter.mp hy
  exact ⟨of_decide_eq_true h2, List.mem_range.mp h1⟩

theorem count_finsetAsc (m : ℕ) (S : Finset ℕ) (x : ℕ) (hsub : ∀ y ∈ S, y < m) :
    List.count x (finsetAsc m S) = if x ∈ S then 1 else 0 := by
  by_cases h : x ∈ S
  · rw [if_pos h]
    exact List.count_eq_one_of_mem ((List.nodup_range m).filter _)
      (List.mem_filter.mpr ⟨List.mem_range.mpr (hsub x h), decide_eq_true h⟩)
  · rw [if_neg h]
    exact List.count_eq_zero.mpr (fun hc => h (mem_finsetAsc m S x hc).1)

set_option maxHeartbeats 1600000 in
theorem foldl_outer_count (g : Graph) (m : ℕ) (ns : List (Finset ℕ))
    (hInv : NsInv m ns) :
    ∀ (l : List ℕ) (G : Graph), l.Nodup → (∀ k ∈ l, k < m) →
      G.adjacencyList.length = m →
      ∀ a x, List.count x ((l.foldl (fun G2 i =>
          (finsetAsc m (ns.getD i ∅)).foldl (fun G2 j => G2.addEdge i j) G2) G).adj a)
        = List.count x (G.adj a)
          + (if a ∈ l ∧ x ∈ ns.getD a ∅ then 1 else 0)
          + (if x ∈ l ∧ a ∈ ns.getD x ∅ then 1 else 0)
  | [], G, _, _, _, a, x => by simp
  | k :: l, G, hnd, hlt, hGlen, a, x => by
    rw [List.foldl_cons]
    have hkm : k < m := hlt k (List.mem_cons_self k l)
    have hknl : k ∉ l := (List.nodup_cons.mp hnd).1
    have hG1len : ((finsetAsc m (ns.getD k ∅)).foldl
        (fun G2 j => G2.addEdge k j) G).adjacencyList.length = m := by
      rw [foldl_graph_pres (fun G => G.adjacencyList.length) _
        (fun G j => by simp [Graph.addEdge, List.length_set]) _ G]
      exact hGlen
    rw [foldl_outer_count g m ns hInv l
      ((finsetAsc m (ns.getD k ∅)).foldl (fun G2 j => G2.addEdge k j) G)
      (List.nodup_cons.mp hnd).2
      (fun y hy => hlt y (List.mem_cons_of_mem k hy)) hG1len a x]
    rw [foldl_addEdge_count k (finsetAsc m (ns.getD k ∅)) G
      (by rw [hGlen]; exact hkm)
      (fun y hy => by
        rw [hGlen]
        exact (mem_finsetAsc m _ y hy).2)
      (fun hc => (hInv.2.1 k k (mem_finsetAsc m _ k hc).1).2 rfl) a x]
    rw [count_finsetAsc m _ _ (fun y hy => (hInv.2.1 k y hy).1),
      count_finsetAsc m _ _ (fun y hy => (hInv.2.1 k y hy).1)]
    simp only [List.mem_cons]
    split_ifs <;> subst_vars <;> first | omega | tauto

/-- The starting graph of the coarse adjacency build. -/
def coarseG0 (g : Graph) : Graph :=
  { numVertices := (coarsenGroups g).length,
    adjacencyList := List.replicate (coarsenGroups g).length [],
    weights := groupWeights g (coarsenGroups g) }

theorem coarseG2_eq_fold (g : Graph) :
    coarseG2 g = (List.range (coarsenGroups g).length).foldl
      (fun G2 i => (finsetAsc (coarsenGroups g).length
          ((coarseNbrSets g (coarsenGroups g)).getD i ∅)).foldl
        (fun G2 j => G2.addEdge i j) G2) (coarseG0 g) := rfl

theorem coarseG2_adj_count (g : Graph) (i j : ℕ) :
    List.count j ((coarseG2 g).adj i)
      = 2 * (if j ∈ (coarseNbrSets g (coarsenGroups g)).getD i ∅ then 1 else 0) := by
  have hInv := coarseNbrSets_inv g (coarsenGroups g)
  have h := foldl_outer_count g (coarsenGroups g).length
    (coarseNbrSets g (coarsenGroups g)) hInv
    (List.range (coarsenGroups g).length) (coarseG0 g)
    (List.nodup_range _) (fun k hk => List.mem_range.mp hk)
    (List.length_replicate _ _) i j
  rw [coarseG2_eq_fold, h]
  have h0 : List.count j ((coarseG0 g).adj i) = 0 := by
    show List.count j ((List.replicate (coarsenGroups g).length []).getD i []) = 0
    rw [getD_replicate_self]
    rfl
  rw [h0]
  by_cases hmem : j ∈ (coarseNbrSets g (coarsenGroups g)).getD i ∅
  · have him : i < (coarsenGroups g).length := by
      by_contra h'
      rw [List.getD_eq_default _ _ (by rw [hInv.1]; exact le_of_not_lt h')] at hmem
      exact absurd hmem (Finset.not_mem_empty j)
    have hjm : j < (coarsenGroups g).length := (hInv.2.1 i j hmem).1
    have hsym := hInv.2.2 i j hmem
    rw [if_pos ⟨List.mem_range.mpr him, hmem⟩, if_pos ⟨List.mem_range.mpr hjm, hsym⟩,
      if_pos hmem]
  · rw [if_neg (fun hc => hmem hc.2),
      if_neg (fun hc => hmem (hInv.2.2 j i hc.2)), if_neg hmem]

theorem coarseG2_no_selfloop (g : Graph) (i : ℕ) : i ∉ (coarseG2 g).adj i := by
  have h := coarseG2_adj_count g i i
  rw [if_neg (fun hc =>
    ((coarseNbrSets_inv g (coarsenGroups g)).2.1 i i hc).2 rfl)] at h
  rw [Nat.mul_zero] at h
  exact List.count_eq_zero.mp h

end C9Lemmas

/-- The error kind the spec names for the exact solver.  The C++ sources
contain no such check, assert, or abort anywhere in `GraphOracle::exactSolve`
(its body is the plain `2^n` enumeration), which is what C7's counterexample
exhibits. -/
inductive OracleError where
  | InstanceTooLarge
  deriving DecidableEq

/-- `GraphOracle::exactSolve` with an explicit error channel: the body has no
failure path, so every input — of any size — returns `Except.ok`. -/
def exactSolveE (g : Graph) : Except OracleError State :=
  Except.ok (exactSolve g)

theorem coarseSolveCalls_le (fuel : ℕ) :
    ∀ g : Graph, ∀ m ∈ coarseSolveCalls fuel g, m ≤ 16 := by
  induction fuel with
  | zero => intro g m hm; cases hm
  | succ f ih =>
      intro g m hm
      unfold coarseSolveCalls at hm
      split at hm
      · next h =>
          rcases List.mem_singleton.mp hm with rfl
          exact h
      · split at hm
        · cases hm
        · exact ih _ m hm

/-- C7 (counterexample): invoked on a 17-vertex graph, `exactSolve` returns
normally (`Except.ok`) — there is no `InstanceTooLarge` failure in the
code. -/
theorem claim_C7_counterexample :
    16 < (Graph.new 17).numVertices ∧
    exactSolveE (Graph.new 17) = Except.ok (exactSolve (Graph.new 17)) ∧
    (exactSolveE (Graph.new 17)).isOk = true :=
  ⟨by decide, rfl, rfl⟩

/-- C7 (amended): `exactSolve` itself performs no size check and returns
normally on graphs of any size; the `≤ 16` guard lives in its caller:
`coarseSolve` invokes the exact solver exactly on graphs of at most 16
vertices (every size in the instrumented call list is `≤ 16`, and on a small
graph `coarseSolve` is exactly `exactSolve`). -/
theorem claim_C7_exact_solver_guard (g : Graph) (fuel : ℕ) :
    (exactSolveE g).isOk = true ∧
    (∀ m ∈ coarseSolveCalls fuel g, m ≤ 16) ∧
    (g.numVertices ≤ 16 → coarseSolve g = exactSolve g) := by
  refine ⟨rfl, coarseSolveCalls_le fuel g, fun h => ?_⟩
  unfold coarseSolve coarseSolveF
  rw [if_pos h]

/-- Witness for C7 at a concrete input. -/
theorem claim_C7_witness :
    ((1 : ℕ) ∈ coarseSolveCalls 2 (Graph.new 1) ∧ (1 : ℕ) ≤ 16) ∧
    ((Graph.new 1).numVertices ≤ 16 ∧ coarseSolve (Graph.new 1) = exactSolve (Graph.new 1)) :=
  ⟨⟨by decide, (claim_C7_exact_solver_guard (Graph.new 1) 2).2.1 1 (by decide)⟩,
   ⟨by decide, (claim_C7_exact_solver_guard (Graph.new 1) 2).2.2 (by decide)⟩⟩

/-- C6: on any well-formed graph with at most 16 vertices and positive vertex
weights, `exactSolve` returns a valid vertex cover whose total weight is
minimal among all vertex subsets that are valid covers (subsets are
quantified as arbitrary `State` values; only the selected set matters to
`isValid` and to the weight). -/
theorem claim_C6_exactSolve_minimum (g : Graph) (hWF : g.WF)
    (_hn : g.numVertices ≤ 16) (hw : ∀ i < g.numVertices, 0 < g.weights.getD i 0) :
    (exactSolve g).isValid g = true ∧
    ∀ s : State, s.isValid g = true →
      coverWeight g (exactSolve g) ≤ coverWeight g s := by
  rcases Nat.eq_zero_or_pos g.numVertices with hzero | hpos
  · constructor
    · unfold State.isValid
      rw [hzero]
      rfl
    · intro s _
      rw [coverWeight_as_sum, coverWeight_as_sum, hzero]
      simp
  · -- the all-but-vertex-0 mask is a valid strict improvement, so the fold
    -- ends in a Good accumulator
    obtain ⟨mstar, hmlt, hmbit⟩ := exists_mask g.numVertices (fun i => decide (0 < i))
    have hmsel : ∀ i, i ∈ (maskState g.numVertices mstar).selectedVertices ↔
        i < g.numVertices ∧ 0 < i := by
      intro i
      rw [maskState_selected]
      constructor
      · rintro ⟨hi, hbit⟩
        rw [hmbit i hi] at hbit
        exact ⟨hi, of_decide_eq_true hbit⟩
      · rintro ⟨hi, hipos⟩
        exact ⟨hi, by rw [hmbit i hi]; exact decide_eq_true hipos⟩
    have hmval : (maskState g.numVertices mstar).isValid g = true := by
      unfold State.isValid
      simp only [List.all_eq_true]
      intro u hu v hv
      split
      · next hlt =>
          have hvn : v < g.numVertices := hWF.adj_lt u v hv
          have : v ∈ (maskState g.numVertices mstar).selectedVertices :=
            (hmsel v).mpr ⟨hvn, by omega⟩
          simp [this]
      · rfl
    have hmw : coverWeight g (maskState g.numVertices mstar) =
        totalWeight0 g - g.weights.getD 0 0 := by
      rw [coverWeight_as_sum, totalWeight0_as_sum]
      have h0 : (0 : ℕ) ∈ Finset.range g.numVertices := Finset.mem_range.mpr hpos
      rw [← Finset.add_sum_erase _ _ h0, ← Finset.add_sum_erase _ (fun i => g.weights.getD i 0) h0]
      have hz : (if 0 ∈ (maskState g.numVertices mstar).selectedVertices then
          g.weights.getD 0 0 else 0) = 0 := by
        rw [if_neg]
        intro hc
        exact absurd ((hmsel 0).mp hc).2 (by omega)
      rw [hz]
      have : ∀ i ∈ (Finset.range g.numVertices).erase 0,
          (if i ∈ (maskState g.numVertices mstar).selectedVertices then
            g.weights.getD i 0 else 0) = g.weights.getD i 0 := by
        intro i hi
        obtain ⟨hne, hr⟩ := Finset.mem_erase.mp hi
        rw [if_pos ((hmsel i).mpr ⟨Finset.mem_range.mp hr, by omega⟩)]
      rw [Finset.sum_congr rfl this]
      ring
    have himp : coverWeight g (maskState g.numVertices mstar) < totalWeight0 g := by
      rw [hmw]
      have := hw 0 hpos
      omega
    have hgood : GoodAcc g ((List.range (2 ^ g.numVertices)).foldl (exactSolveStep g)
        (totalWeight0 g, ⟨[], ∅, ∅⟩)) :=
      exactSolve_foldl_good_of_improving g _ _
        ⟨mstar, List.mem_range.mpr hmlt, hmval, himp⟩
    refine ⟨hgood.1, ?_⟩
    intro s hs
    obtain ⟨ms, hmslt, hmsbit⟩ := exists_mask g.numVertices
      (fun i => decide (i ∈ s.selectedVertices))
    have hcong : ∀ i < g.numVertices,
        (i ∈ (maskState g.numVertices ms).selectedVertices ↔ i ∈ s.selectedVertices) := by
      intro i hi
      rw [maskState_selected]
      constructor
      · rintro ⟨_, hbit⟩
        rw [hmsbit i hi] at hbit
        exact of_decide_eq_true hbit
      · intro hmem
        exact ⟨hi, by rw [hmsbit i hi]; exact decide_eq_true hmem⟩
    have hvalms : (maskState g.numVertices ms).isValid g = true := by
      rw [isValid_congr g hWF _ s hcong]
      exact hs
    have hwms : coverWeight g (maskState g.numVertices ms) = coverWeight g s :=
      coverWeight_congr g _ s hcong
    have hmin := exactSolve_foldl_min g (List.range (2 ^ g.numVertices))
      (totalWeight0 g, ⟨[], ∅, ∅⟩) ms (List.mem_range.mpr hmslt) hvalms
    unfold exactSolve
    rw [← hgood.2, hwms] at hmin
    exact hmin

/-- Witness for C6 on the triangle `K_3`. -/
theorem claim_C6_witness :
    ((Graph.ofEdges 3 [(0, 1), (1, 2), (0, 2)]).WF ∧ (3:ℕ) ≤ 16 ∧
      (∀ i < (3:ℕ), (0:ℤ) < (Graph.ofEdges 3 [(0, 1), (1, 2), (0, 2)]).weights.getD i 0)) ∧
    (exactSolve (Graph.ofEdges 3 [(0, 1), (1, 2), (0, 2)])).isValid
      (Graph.ofEdges 3 [(0, 1), (1, 2), (0, 2)]) = true :=
  have hwf : (Graph.ofEdges 3 [(0, 1), (1, 2), (0, 2)]).WF :=
    Graph.wf_of_check _ (by decide)
  ⟨⟨hwf, by decide, by decide⟩,
   (claim_C6_exactSolve_minimum (Graph.ofEdges 3 [(0, 1), (1, 2), (0, 2)]) hwf
     (by decide) (by decide)).1⟩

/-- Witness for C1 on the triangle `K_3` with a leaf-only tree. -/
theorem claim_C1_witness :
    ((Graph.ofEdges 3 [(0, 1), (1, 2), (0, 2)]).WF ∧ 3 ≤ 3) ∧
    ((simulate (Graph.ofEdges 3 [(0, 1), (1, 2), (0, 2)]) (State.new 3)).isValid
      (Graph.ofEdges 3 [(0, 1), (1, 2), (0, 2)]) = true ∧
     simulateAnswer (Graph.ofEdges 3 [(0, 1), (1, 2), (0, 2)]) (State.new 3) 3 ≤ 3) :=
  have hwf : (Graph.ofEdges 3 [(0, 1), (1, 2), (0, 2)]).WF :=
    Graph.wf_of_check _ (by decide)
  have h := claim_C1_simulate_valid_and_answer (Graph.ofEdges 3 [(0, 1), (1, 2), (0, 2)])
    hwf (State.new 3) 3 (by decide) (Node.mk (State.new 3) 0 0 0 [])
  ⟨⟨hwf, by decide⟩, ⟨h.1, h.2.2.2.1⟩⟩

/-- C2: `kernelization` returns `true` iff it changed the state — `false`
leaves the state exactly as it was, and `true` strictly decreases
`|possibleVertices|` (so in particular changes the state); consequently the
driver's `while (kernelization(node))` loop reaches the fixed point within
`|possible| + 1 ≤ N + 1` calls, i.e. after at most `N` successful
invocations. -/
theorem claim_C2_kernelization_change_and_termination (g : Graph) (a : ℕ) (s : State)
    (hWF : State.PossWF s) :
    ((kernelization g a s).1 = false → (kernelization g a s).2 = s) ∧
    ((kernelization g a s).1 = true →
      (kernelization g a s).2.possibleVertices.card < s.possibleVertices.card ∧
      (kernelization g a s).2 ≠ s) ∧
    (kernelization g a (kernelizeLoop g a (s.possibleVertices.card + 1) s)).1 = false := by
  refine ⟨kernelization_false_eq g a s, fun h => ?_, ?_⟩
  · refine ⟨kernelization_true_card_lt g a s hWF h, fun heq => ?_⟩
    have := kernelization_true_card_lt g a s hWF h
    rw [heq] at this
    exact lt_irrefl _ this
  · exact kernelizeLoop_fixed g a (s.possibleVertices.card + 1) s hWF (Nat.lt_succ_self _)

/-- Witness for C2 at a concrete input: the initial state of `P_4`. -/
theorem claim_C2_witness :
    State.PossWF (State.new 4) ∧
    (kernelization pathP4 4 (kernelizeLoop pathP4 4 ((State.new 4).possibleVertices.card + 1)
      (State.new 4))).1 = false :=
  ⟨by decide,
   (claim_C2_kernelization_change_and_termination pathP4 4 (State.new 4) (by decide)).2.2⟩

/-- C5 (counterexample): kernelizing the `P_4` root to fixed point selects
`{1, 3}`, not `{1, 2}` as the claim states. -/
theorem claim_C5_counterexample :
    (mctsRoot pathP4).selectedVertices = {1, 3} ∧
    (mctsRoot pathP4).selectedVertices ≠ ({1, 2} : Finset ℕ) := by decide

/-- C5 (amended): on `P_4`, rule 2 first includes vertex 1 (neighbour of the
pendant 0); vertex 0 becomes isolated and is excluded by rule 1; then vertex
2 is the first live vertex of live-degree 1 (its unique live neighbour is 3),
so rule 2 includes vertex 3; vertex 2 is then excluded; at the fixed point no
live vertex remains, the selected set is `{1, 3}`, and the terminal-root
answer `std::count(isSelected, true)` is 2. -/
theorem claim_C5_p4_kernelization :
    (kernelization pathP4 4 (State.new 4)).2.selectedVertices = {1} ∧
    (kernelization pathP4 4
      (kernelization pathP4 4 (State.new 4)).2).2.selectedVertices = {1} ∧
    (kernelization pathP4 4
      (kernelization pathP4 4
        (kernelization pathP4 4 (State.new 4)).2).2).2.selectedVertices = {1, 3} ∧
    (mctsRoot pathP4).selectedVertices = {1, 3} ∧
    (mctsRoot pathP4).possibleVertices = ∅ ∧
    (mctsRoot pathP4).isSelected.count true = 2 := by decide

/-- C8 (counterexample): on the state of two vertices with vertex 0 already
excluded (so `0 ∉ possible`), `exclude(0)` passes its assertion and proceeds
silently (returning the unchanged state rather than aborting), and
`include(0)` has no assertion at all and silently moves 0 into the selected
set. -/
theorem claim_C8_counterexample :
    0 ∉ ((State.new 2).exclude 0).possibleVertices ∧
    ((State.new 2).exclude 0).excludeChecked 0 = some ((State.new 2).exclude 0) ∧
    (((State.new 2).exclude 0).include' 0).selectedVertices = {0} := by decide

/-- C8 (amended): `include` never aborts (it is assertion-free: out-of-range
arguments are silent no-ops and any in-range argument is moved into the
selected set, live or not); `exclude` aborts exactly when the vertex is in
range and `isSelected[v]` holds, and excluding an in-range vertex that is
neither live nor selected proceeds silently and leaves the state unchanged. -/
theorem claim_C8_abort_characterisation (s : State) (v : ℕ) :
    (s.excludeChecked v = none ↔
      v < s.isSelected.length ∧ s.isSelected.getD v false = true) ∧
    (v ∉ s.possibleVertices → ¬ s.isSelected.getD v false = true →
      s.excludeChecked v = some s) ∧
    (v < s.isSelected.length →
      (s.include' v).selectedVertices = insert v s.selectedVertices) ∧
    (s.isSelected.length ≤ v → s.include' v = s) := by
  refine ⟨?_, ?_, ?_, ?_⟩
  · unfold State.excludeChecked
    constructor
    · intro h
      split at h
      · split at h
        · exact ⟨by assumption, by assumption⟩
        · exact absurd h (by simp)
      · exact absurd h (by simp)
    · rintro ⟨h1, h2⟩
      rw [if_pos h1, if_pos h2]
  · intro hnp hns
    unfold State.excludeChecked
    by_cases hlen : v < s.isSelected.length
    · rw [if_pos hlen, if_neg hns, Finset.erase_eq_of_not_mem hnp]
    · rw [if_neg hlen]
  · intro h
    unfold State.include'
    rw [if_pos h]
  · intro h
    unfold State.include'
    rw [if_neg (by omega)]

/-- Witness for C8 (amended) at concrete inputs. -/
theorem claim_C8_witness :
    (5 ∉ (State.new 1).possibleVertices ∧ ¬ (State.new 1).isSelected.getD 5 false = true ∧
      (State.new 1).excludeChecked 5 = some (State.new 1)) ∧
    ((State.new 1).isSelected.length ≤ 5 ∧ (State.new 1).include' 5 = State.new 1) :=
  ⟨⟨by decide, by decide,
    (claim_C8_abort_characterisation (State.new 1) 5).2.1 (by decide) (by decide)⟩,
   ⟨by decide, (claim_C8_abort_characterisation (State.new 1) 5).2.2.2 (by decide)⟩⟩

/-- C10: `State::include` is idempotent for vertices in `[0, N)` and a silent
no-op (no abort, no change) for vertices outside `[0, N)`. -/
theorem claim_C10_include_idempotent (s : State) (v : ℕ) :
    (v < s.isSelected.length → (s.include' v).include' v = s.include' v) ∧
    (s.isSelected.length ≤ v → s.include' v = s) := by
  constructor
  · intro hv
    unfold State.include'
    rw [if_pos hv]
    rw [if_pos (by simpa using hv)]
    simp [List.set_set]
  · intro hv
    unfold State.include'
    rw [if_neg (by omega)]

/-- Witness for C10 at concrete inputs. -/
theorem claim_C10_witness :
    (0 < (State.new 2).isSelected.length ∧
      ((State.new 2).include' 0).include' 0 = (State.new 2).include' 0) ∧
    ((State.new 2).isSelected.length ≤ 7 ∧ (State.new 2).include' 7 = State.new 2) :=
  ⟨⟨by decide, (claim_C10_include_idempotent (State.new 2) 0).1 (by decide)⟩,
   ⟨by decide, (claim_C10_include_idempotent (State.new 2) 7).2 (by decide)⟩⟩

section C3Invariants

/-- `|deg_live(u) − deg_live(v)|` for an edge, as a natural number. -/
def edgeDiff (g : Graph) (poss : Finset ℕ) (e : ℕ × ℕ) : ℕ :=
  max (liveDegree g poss e.1) (liveDegree g poss e.2)
    - min (liveDegree g poss e.1) (liveDegree g poss e.2)

/-- Modelled from the spec: `selectActionEdge(G)` scans all edges `(u, v)`
with `u < v` and both endpoints live and picks the edge maximising
`|deg_live(u) − deg_live(v)|`, returning `none` (the C++ `(−1,−1)`) when no
live edge exists.  The C++ `State::selectActionEdge` itself is absent from
`src/`, so this follows the spec's description; ties keep the first edge in
scan order. -/
def selectActionEdge (g : Graph) (s : State) : Option (ℕ × ℕ) :=
  match (edgeList g).filter (fun e =>
      decide (e.1 ∈ s.possibleVertices) && decide (e.2 ∈ s.possibleVertices)) with
  | [] => none
  | c :: cs =>
      some (cs.foldl (fun best e =>
        if edgeDiff g s.possibleVertices best < edgeDiff g s.possibleVertices e then e
        else best) c)

/-- The node states the driver can construct: the fresh root, any single
kernelization step (at any driver `answer`), and the two `MCTS::expand`
children of a state with a branching edge — the first child includes the
edge's first endpoint, the second (after the `std::swap` of the edge) includes
the second endpoint and excludes the first. -/
inductive Reach (g : Graph) : State → Prop where
  | root : Reach g (State.new g.numVertices)
  | kernel (s : State) (ans : ℕ) (hs : Reach g s) : Reach g (kernelization g ans s).2
  | expand1 (s : State) (e : ℕ × ℕ) (hs : Reach g s)
      (he : selectActionEdge g s = some e) : Reach g (s.include' e.1)
  | expand2 (s : State) (e : ℕ × ℕ) (hs : Reach g s)
      (he : selectActionEdge g s = some e) : Reach g ((s.include' e.2).exclude e.1)

/-- The states reachable by kernelization alone (no expansion). -/
inductive KReach (g : Graph) : State → Prop where
  | root : KReach g (State.new g.numVertices)
  | kernel (s : State) (ans : ℕ) (hs : KReach g s) : KReach g (kernelization g ans s).2

/-- The excluded vertices: in range but neither selected nor live. -/
def excludedVertices (g : Graph) (s : State) : Finset ℕ :=
  Finset.range g.numVertices \ (s.selectedVertices ∪ s.possibleVertices)

/-- The basic state invariant behind C3's first two conjuncts. -/
structure InvBasic (g : Graph) (s : State) : Prop where
  len : s.isSelected.length = g.numVertices
  disj : Disjoint s.selectedVertices s.possibleVertices
  sel_sub : s.selectedVertices ⊆ Finset.range g.numVertices
  poss_sub : s.possibleVertices ⊆ Finset.range g.numVertices

/-- C3's third conjunct: every neighbour of an excluded vertex is itself
selected or excluded (not live). -/
def ExcludedClosed (g : Graph) (s : State) : Prop :=
  ∀ v, v < g.numVertices → v ∉ s.selectedVertices → v ∉ s.possibleVertices →
    ∀ u ∈ g.adj v, u ∉ s.possibleVertices

theorem include'_InvBasic (g : Graph) (s : State) (v : ℕ) (h : InvBasic g s) :
    InvBasic g (s.include' v) := by
  unfold State.include'
  split
  · refine ⟨by simpa using h.len, ?_, ?_, ?_⟩
    · rw [Finset.disjoint_left]
      intro x hx hx2
      rcases Finset.mem_insert.mp hx with hxe | hxs
      · rw [hxe] at hx2
        exact Finset.not_mem_erase v s.possibleVertices hx2
      · exact (Finset.disjoint_left.mp h.disj hxs) (Finset.mem_of_mem_erase hx2)
    · intro x hx
      rcases Finset.mem_insert.mp hx with hxe | hxs
      · rw [hxe]
        rw [Finset.mem_range, ← h.len]
        assumption
      · exact h.sel_sub hxs
    · exact fun x hx => h.poss_sub (Finset.mem_of_mem_erase hx)
  · exact h

theorem exclude_InvBasic (g : Graph) (s : State) (v : ℕ) (h : InvBasic g s) :
    InvBasic g (s.exclude v) := by
  unfold State.exclude
  split
  · exact ⟨h.len, Finset.disjoint_of_subset_right (Finset.erase_subset _ _) h.disj,
      h.sel_sub, fun x hx => h.poss_sub (Finset.mem_of_mem_erase hx)⟩
  · exact h

theorem includeAll_InvBasic (g : Graph) (l : List ℕ) (s : State) (h : InvBasic g s) :
    InvBasic g (includeAll s l) := by
  induction l generalizing s with
  | nil => exact h
  | cons v vs ih => exact ih (s.include' v) (include'_InvBasic g s v h)

theorem excludeAll_InvBasic (g : Graph) (l : List ℕ) (s : State) (h : InvBasic g s) :
    InvBasic g (excludeAll s l) := by
  induction l generalizing s with
  | nil => exact h
  | cons v vs ih => exact ih (s.exclude v) (exclude_InvBasic g s v h)

theorem kernelization_InvBasic (g : Graph) (a : ℕ) (s : State) (h : InvBasic g s) :
    InvBasic g (kernelization g a s).2 := by
  unfold kernelization
  split
  · exact exclude_InvBasic g s _ h
  · split
    · exact include'_InvBasic g s _ h
    · split
      · exact include'_InvBasic g s _ h
      · split
        · split
          · exact excludeAll_InvBasic g _ _ (includeAll_InvBasic g _ s h)
          · exact h
        · exact h

theorem reach_InvBasic (g : Graph) (s : State) (h : Reach g s) : InvBasic g s := by
  induction h with
  | root =>
      exact ⟨List.length_replicate _ _, by simp [State.new], by simp [State.new],
        fun x hx => hx⟩
  | kernel s ans hs ih => exact kernelization_InvBasic g ans s ih
  | expand1 s e hs he ih => exact include'_InvBasic g s e.1 ih
  | expand2 s e hs he ih =>
      exact exclude_InvBasic g _ e.1 (include'_InvBasic g s e.2 ih)

theorem InvBasic.card_sum (g : Graph) (s : State) (h : InvBasic g s) :
    s.selectedVertices.card + s.possibleVertices.card + (excludedVertices g s).card
      = g.numVertices := by
  unfold excludedVertices
  have hsub : s.selectedVertices ∪ s.possibleVertices ⊆ Finset.range g.numVertices :=
    Finset.union_subset h.sel_sub h.poss_sub
  rw [Finset.card_sdiff hsub, Finset.card_union_of_disjoint h.disj, Finset.card_range]
  have hle : (s.selectedVertices ∪ s.possibleVertices).card
      ≤ (Finset.range g.numVertices).card := Finset.card_le_card hsub
  rw [Finset.card_union_of_disjoint h.disj, Finset.card_range] at hle
  omega

theorem include'_sets (s : State) (v : ℕ) (hv : v < s.isSelected.length) :
    (s.include' v).selectedVertices = insert v s.selectedVertices ∧
    (s.include' v).possibleVertices = s.possibleVertices.erase v := by
  unfold State.include'
  rw [if_pos hv]
  exact ⟨rfl, rfl⟩

theorem exclude_sets (s : State) (v : ℕ) (hv : v < s.isSelected.length) :
    (s.exclude v).selectedVertices = s.selectedVertices ∧
    (s.exclude v).possibleVertices = s.possibleVertices.erase v := by
  unfold State.exclude
  rw [if_pos hv]
  exact ⟨rfl, rfl⟩

theorem includeAll_sets (l : List ℕ) (s : State)
    (hbnd : ∀ v ∈ l, v < s.isSelected.length) :
    (includeAll s l).selectedVertices = s.selectedVertices ∪ l.toFinset ∧
    (includeAll s l).possibleVertices = s.possibleVertices \ l.toFinset := by
  induction l generalizing s with
  | nil => exact ⟨by simp [includeAll], by simp [includeAll]⟩
  | cons v vs ih =>
      have hv : v < s.isSelected.length := hbnd v (List.mem_cons_self v vs)
      have hstep := include'_sets s v hv
      have hrec := ih (s.include' v) (fun x hx => by
        rw [include'_length]
        exact hbnd x (List.mem_cons_of_mem v hx))
      constructor
      · show (includeAll (s.include' v) vs).selectedVertices = _
        rw [hrec.1, hstep.1]
        ext x
        simp only [Finset.mem_insert, Finset.mem_union, List.mem_toFinset, List.mem_cons]
        tauto
      · show (includeAll (s.include' v) vs).possibleVertices = _
        rw [hrec.2, hstep.2]
        ext x
        simp only [Finset.mem_erase, Finset.mem_sdiff, List.mem_toFinset, List.mem_cons,
          not_or]
        tauto

theorem excludeAll_sets (l : List ℕ) (s : State)
    (hbnd : ∀ v ∈ l, v < s.isSelected.length) :
    (excludeAll s l).selectedVertices = s.selectedVertices ∧
    (excludeAll s l).possibleVertices = s.possibleVertices \ l.toFinset := by
  induction l generalizing s with
  | nil => exact ⟨rfl, by simp [excludeAll]⟩
  | cons v vs ih =>
      have hv : v < s.isSelected.length := hbnd v (List.mem_cons_self v vs)
      have hstep := exclude_sets s v hv
      have hrec := ih (s.exclude v) (fun x hx => by
        rw [exclude_length]
        exact hbnd x (List.mem_cons_of_mem v hx))
      constructor
      · show (excludeAll (s.exclude v) vs).selectedVertices = _
        rw [hrec.1, hstep.1]
      · show (excludeAll (s.exclude v) vs).possibleVertices = _
        rw [hrec.2, hstep.2]
        ext x
        simp only [Finset.mem_erase, Finset.mem_sdiff, List.mem_toFinset, List.mem_cons,
          not_or]
        tauto

/-- Moving any vertex into the selected set (dead or alive) never creates a
new excluded vertex, so the closure property survives. -/
theorem include'_ExcludedClosed (g : Graph) (s : State) (v : ℕ)
    (h : ExcludedClosed g s) : ExcludedClosed g (s.include' v) := by
  unfold State.include'
  split
  · intro x hx hxs hxp u hu hup
    simp only at hxs hxp hup
    have hxv : x ≠ v := fun hc => hxs (by rw [hc]; exact Finset.mem_insert_self v _)
    exact h x hx (fun hc => hxs (Finset.mem_insert_of_mem hc))
      (fun hc => hxp (Finset.mem_erase.mpr ⟨hxv, hc⟩)) u hu
      (Finset.mem_of_mem_erase hup)
  · exact h

/-- Two-sided consistency of the Hopcroft–Karp matching arrays. -/
def Matched (st : NT.HKS) : Prop :=
  ∀ a b : ℕ, st.pairU.getD a none = some b ↔ st.pairV.getD b none = some a

/-- Shape invariant of the matching arrays: both have length `n` and store
only values below `n`. -/
def PairsBound (n : ℕ) (st : NT.HKS) : Prop :=
  st.pairU.length = n ∧ st.pairV.length = n ∧
  (∀ a b, st.pairU.getD a none = some b → b < n) ∧
  (∀ a b, st.pairV.getD b none = some a → a < n)

/-- Apply the pair flips of an augmenting spine to `pairV` (the head of the
spine — the outermost `dfs` frame — is applied last). -/
def applyV (C : List (ℕ × ℕ)) (pV : List (Option ℕ)) : List (Option ℕ) :=
  C.foldr (fun p acc => acc.set p.2 (some p.1)) pV

/-- Apply the pair flips of an augmenting spine to `pairU`. -/
def applyU (C : List (ℕ × ℕ)) (pU : List (Option ℕ)) : List (Option ℕ) :=
  C.foldr (fun p acc => acc.set p.1 (some p.2)) pU

/-- Adjacency of two consecutive spine frames `p = (uᵢ, vᵢ)`,
`q = (uᵢ₊₁, vᵢ₊₁)`: the entry `pairV` matched `vᵢ` to `uᵢ₊₁`, and in the
final state the BFS layers of the frame vertices step by exactly one. -/
def SpineR (st stf : NT.HKS) (p q : ℕ × ℕ) : Prop :=
  st.pairV.getD p.2 none = some q.1 ∧
  stf.dist.getD q.1 0 = stf.dist.getD p.1 0 + 1

/-- Postcondition of a successful `dfs(u)`: the flips performed are exactly
those of an alternating spine starting at `u` and ending at an unmatched
right vertex, and the final BFS layers increase strictly along the spine (so
its frames are pairwise distinct). -/
def Spine (poss : Finset ℕ) (st stf : NT.HKS) (u : ℕ) (C : List (ℕ × ℕ)) : Prop :=
  (∃ p₀, C.head? = some p₀ ∧ p₀.1 = u) ∧
  List.Chain' (SpineR st stf) C ∧
  (∃ pl, C.getLast? = some pl ∧ st.pairV.getD pl.2 none = none) ∧
  (∀ p ∈ C, p.2 ∈ poss) ∧
  stf.pairV = applyV C st.pairV ∧
  stf.pairU = applyU C st.pairU ∧
  stf.dist.getD u 0 = st.dist.getD u 0

theorem getLast?_cons_of_some {α : Type} (a : α) (l : List α) (x : α)
    (h : l.getLast? = some x) : (a :: l).getLast? = some x := by
  cases l
  · cases h
  · rw [List.getLast?_cons_cons]
    exact h

set_option maxHeartbeats 1600000 in
theorem dfsGo_spec (g : Graph) (poss : Finset ℕ) :
    ∀ (fuel : ℕ) (u : ℕ) (vs : List ℕ) (st : NT.HKS),
      ((NT.dfsGo g poss fuel u vs st).2.pairU.length = st.pairU.length ∧
       (NT.dfsGo g poss fuel u vs st).2.pairV.length = st.pairV.length) ∧
      (∀ x, (NT.dfsGo g poss fuel u vs st).2.dist.getD x 0 ≠ st.dist.getD x 0 →
        (NT.dfsGo g poss fuel u vs st).2.dist.getD x 0 = INTMAX ∧
          (x = u ∨ st.dist.getD u 0 + 1 ≤ st.dist.getD x 0)) ∧
      ((NT.dfsGo g poss fuel u vs st).1 = false →
        (NT.dfsGo g poss fuel u vs st).2.pairU = st.pairU ∧
        (NT.dfsGo g poss fuel u vs st).2.pairV = st.pairV) ∧
      ((NT.dfsGo g poss fuel u vs st).1 = true →
        ∃ C, Spine poss st (NT.dfsGo g poss fuel u vs st).2 u C) := by
  intro fuel
  induction fuel with
  | zero =>
      intro u vs st
      exact ⟨⟨rfl, rfl⟩, fun x hx => absurd rfl hx, fun _ => ⟨rfl, rfl⟩,
        fun h => Bool.noConfusion h⟩
  | succ fuel ih =>
      intro u vs st
      match vs with
      | [] =>
          refine ⟨⟨rfl, rfl⟩, ?_, fun _ => ⟨rfl, rfl⟩, fun h => Bool.noConfusion h⟩
          intro x hx
          show (st.dist.set u INTMAX).getD x 0 = INTMAX ∧ _
          by_cases hxu : x = u
          · subst hxu
            rcases lt_or_le x st.dist.length with hlt | hle
            · rw [getD_set_eq _ _ _ _ hlt]
              exact ⟨rfl, Or.inl rfl⟩
            · exfalso
              apply hx
              show (st.dist.set x INTMAX).getD x 0 = st.dist.getD x 0
              rw [List.getD_eq_default _ _ (by rw [List.length_set]; exact hle),
                List.getD_eq_default _ _ hle]
          · exfalso
            apply hx
            show (st.dist.set u INTMAX).getD x 0 = st.dist.getD x 0
            exact getD_set_ne _ _ _ _ _ (fun h => hxu h.symm)
      | v :: vs =>
          by_cases hv : v ∈ poss
          · rcases hpv : st.pairV.getD v none with _ | w
            · -- immediate augment: pairV v free
              have heq : NT.dfsGo g poss (fuel + 1) u (v :: vs) st
                  = (true, { st with
                               pairV := st.pairV.set v (some u),
                               pairU := st.pairU.set u (some v) }) := by
                show (if v ∈ poss then _ else _) = _
                rw [if_pos hv, hpv]
              rw [heq]
              refine ⟨⟨by simp [List.length_set], by simp [List.length_set]⟩,
                fun x hx => absurd rfl hx, fun h => Bool.noConfusion h, fun _ => ?_⟩
              refine ⟨[(u, v)], ⟨(u, v), rfl, rfl⟩, List.chain'_singleton _,
                ⟨(u, v), rfl, hpv⟩, ?_, rfl, rfl, rfl⟩
              intro p hp
              rw [List.mem_singleton.mp hp]
              exact hv
            · -- pairV v = some w
              by_cases hguard : st.dist.getD w 0 = st.dist.getD u 0 + 1
              · have hwu : w ≠ u := by
                  intro hc
                  rw [hc] at hguard
                  omega
                rcases hrec : NT.dfsGo g poss fuel w (g.adj w) st with ⟨b, st''⟩
                have hihw := ih w (g.adj w) st
                rw [hrec] at hihw
                obtain ⟨⟨hlU, hlV⟩, hprof, hfalse, htrue⟩ := hihw
                have hust : st''.dist.getD u 0 = st.dist.getD u 0 := by
                  by_contra hne
                  rcases hprof u hne with ⟨_, h | h⟩
                  · exact hwu h.symm
                  · omega
                cases b with
                | true =>
                    have heq : NT.dfsGo g poss (fuel + 1) u (v :: vs) st
                        = (true, { st'' with
                                     pairV := st''.pairV.set v (some u),
                                     pairU := st''.pairU.set u (some v) }) := by
                      show (if v ∈ poss then _ else _) = _
                      rw [if_pos hv, hpv]
                      show (if st.dist.getD w 0 = st.dist.getD u 0 + 1
                          then _ else _) = _
                      rw [if_pos hguard, hrec]
                    rw [heq]
                    obtain ⟨C', hC'⟩ := htrue rfl
                    obtain ⟨⟨p₀, hp₀, hp₀u⟩, hchain, ⟨pl, hpl, hplv⟩, hposs,
                      hfV, hfU, hwst⟩ := hC'
                    have hC'ne : C' ≠ [] := by
                      intro hc
                      rw [hc] at hp₀
                      cases hp₀
                    refine ⟨⟨by simp [List.length_set, hlU],
                      by simp [List.length_set, hlV]⟩, ?_,
                      fun h => Bool.noConfusion h, fun _ => ?_⟩
                    · intro x hx
                      show st''.dist.getD x 0 = INTMAX ∧ _
                      have hx' : st''.dist.getD x 0 ≠ st.dist.getD x 0 := hx
                      rcases hprof x hx' with ⟨hI, hcase⟩
                      refine ⟨hI, Or.inr ?_⟩
                      rcases hcase with hxw | hge
                      · rw [hxw, hguard]
                      · omega
                    · refine ⟨(u, v) :: C', ⟨(u, v), rfl, rfl⟩, ?_,
                        ⟨pl, getLast?_cons_of_some _ _ _ hpl, hplv⟩, ?_, ?_, ?_, ?_⟩
                      · rw [List.chain'_cons']
                        constructor
                        · intro b hb
                          rw [hp₀] at hb
                          have hbp : p₀ = b := Option.mem_some_iff.mp hb
                          constructor
                          · show st.pairV.getD v none = some b.1
                            rw [hpv, ← hbp, hp₀u]
                          · show st''.dist.getD b.1 0 = st''.dist.getD u 0 + 1
                            rw [← hbp, hp₀u, hwst, hust]
                            exact hguard
                        · exact List.Chain'.imp (fun p q h => ⟨h.1, h.2⟩) hchain
                      · intro p hp
                        rcases List.mem_cons.mp hp with hpe | hpm
                        · rw [hpe]
                          exact hv
                        · exact hposs p hpm
                      · show st''.pairV.set v (some u) = _
                        rw [hfV]
                        rfl
                      · show st''.pairU.set u (some v) = _
                        rw [hfU]
                        rfl
                      · show st''.dist.getD u 0 = st.dist.getD u 0
                        exact hust
                | false =>
                    have heq : NT.dfsGo g poss (fuel + 1) u (v :: vs) st
                        = NT.dfsGo g poss fuel u vs st'' := by
                      show (if v ∈ poss then _ else _) = _
                      rw [if_pos hv, hpv]
                      show (if st.dist.getD w 0 = st.dist.getD u 0 + 1
                          then _ else _) = _
                      rw [if_pos hguard, hrec]
                    rw [heq]
                    obtain ⟨hpU, hpV⟩ := hfalse rfl
                    have hihc := ih u vs st''
                    obtain ⟨⟨hlU2, hlV2⟩, hprof2, hfalse2, htrue2⟩ := hihc
                    refine ⟨⟨hlU2.trans hlU, hlV2.trans hlV⟩, ?_, ?_, ?_⟩
                    · intro x hx
                      by_cases hx2 : (NT.dfsGo g poss fuel u vs st'').2.dist.getD x 0
                          = st''.dist.getD x 0
                      · have hx1 : st''.dist.getD x 0 ≠ st.dist.getD x 0 := by
                          rw [← hx2]
                          exact hx
                        rcases hprof x hx1 with ⟨hI, hcase⟩
                        refine ⟨hx2.trans hI, Or.inr ?_⟩
                        rcases hcase with hxw | hge
                        · rw [hxw, hguard]
                        · omega
                      · rcases hprof2 x hx2 with ⟨hI, hcase⟩
                        refine ⟨hI, ?_⟩
                        rcases hcase with hxu | hge
                        · exact Or.inl hxu
                        · rw [hust] at hge
                          by_cases hx1 : st''.dist.getD x 0 = st.dist.getD x 0
                          · rw [hx1] at hge
                            exact Or.inr hge
                          · rcases hprof x hx1 with ⟨hI1, hcase1⟩
                            refine Or.inr ?_
                            rcases hcase1 with hxw | hge1
                            · rw [hxw, hguard]
                            · omega
                    · intro h
                      obtain ⟨h1, h2⟩ := hfalse2 h
                      exact ⟨h1.trans hpU, h2.trans hpV⟩
                    · intro h
                      obtain ⟨C, hC⟩ := htrue2 h
                      obtain ⟨hhead, hchain, ⟨pl, hpl, hplv⟩, hposs, hfV, hfU, hstab⟩ := hC
                      refine ⟨C, hhead, ?_, ⟨pl, hpl, ?_⟩, hposs, ?_, ?_, ?_⟩
                      · refine List.Chain'.imp ?_ hchain
                        intro p q hpq
                        refine ⟨?_, hpq.2⟩
                        rw [← hpV]
                        exact hpq.1
                      · rw [← hpV]
                        exact hplv
                      · rw [hfV, hpV]
                      · rw [hfU, hpU]
                      · rw [hstab, hust]
              · -- guard fails: skip neighbour
                have heq : NT.dfsGo g poss (fuel + 1) u (v :: vs) st
                    = NT.dfsGo g poss fuel u vs st := by
                  show (if v ∈ poss then _ else _) = _
                  rw [if_pos hv, hpv]
                  show (if st.dist.getD w 0 = st.dist.getD u 0 + 1
                      then _ else _) = _
                  rw [if_neg hguard]
                rw [heq]
                exact ih u vs st
          · have heq : NT.dfsGo g poss (fuel + 1) u (v :: vs) st
                = NT.dfsGo g poss fuel u vs st := by
              show (if v ∈ poss then _ else _) = _
              rw [if_neg hv]
            rw [heq]
            exact ih u vs st

theorem chain'_elem_head_or_succ {α : Type} (R : α → α → Prop) :
    ∀ (C : List α) (p : α), p ∈ C → List.Chain' R C →
      ∀ p₀, C.head? = some p₀ → p = p₀ ∨ ∃ q ∈ C, R q p
  | [], p, hp, _, _, _ => absurd hp (List.not_mem_nil p)
  | c :: rest, p, hp, hchain, p₀, hhead => by
    have hc : p₀ = c := by
      injection hhead with h
      exact h.symm
    rcases List.mem_cons.mp hp with hpe | hpm
    · exact Or.inl (hpe.trans hc.symm)
    · obtain ⟨hlink, hchain'⟩ := List.chain'_cons'.mp hchain
      rcases rest with _ | ⟨r, rest'⟩
      · cases hpm
      · rcases chain'_elem_head_or_succ R (r :: rest') p hpm hchain' r rfl with he | hq
        · refine Or.inr ⟨c, List.mem_cons_self _ _, ?_⟩
          rw [he]
          exact hlink r rfl
        · obtain ⟨q, hqm, hqR⟩ := hq
          exact Or.inr ⟨q, List.mem_cons_of_mem c hqm, hqR⟩

theorem chain'_elem_last_or_succ {α : Type} (R : α → α → Prop) :
    ∀ (C : List α) (p : α), p ∈ C → List.Chain' R C →
      ∀ pl, C.getLast? = some pl → p = pl ∨ ∃ q ∈ C, R p q
  | [], p, hp, _, _, _ => absurd hp (List.not_mem_nil p)
  | c :: rest, p, hp, hchain, pl, hlast => by
    obtain ⟨hlink, hchain'⟩ := List.chain'_cons'.mp hchain
    rcases rest with _ | ⟨r, rest'⟩
    · have hc : p = c := List.mem_singleton.mp hp
      have hcl : pl = c := by
        injection hlast with h
        exact h.symm
      exact Or.inl (hc.trans hcl.symm)
    · have hlast' : (r :: rest').getLast? = some pl := by
        rw [List.getLast?_cons_cons] at hlast
        exact hlast
      rcases List.mem_cons.mp hp with hpe | hpm
      · refine Or.inr ⟨r, List.mem_cons_of_mem c (List.mem_cons_self _ _), ?_⟩
        rw [hpe]
        exact hlink r rfl
      · rcases chain'_elem_last_or_succ R (r :: rest') p hpm hchain' pl hlast' with
          he | ⟨q, hqm, hqR⟩
        · exact Or.inl he
        · exact Or.inr ⟨q, List.mem_cons_of_mem c hqm, hqR⟩

/-- The final BFS layers of the spine frames are pairwise distinct (they
increase strictly along the spine). -/
theorem spine_dist_nodup (poss : Finset ℕ) (st stf : NT.HKS) (u : ℕ)
    (C : List (ℕ × ℕ)) (hS : Spine poss st stf u C) :
    (C.map (fun p => stf.dist.getD p.1 0)).Nodup := by
  obtain ⟨-, hchain, -, -, -, -, -⟩ := hS
  have hd : List.Chain' (fun a b => a < b)
      (C.map (fun p => stf.dist.getD p.1 0)) := by
    rw [List.chain'_map]
    refine List.Chain'.imp ?_ hchain
    intro p q hpq
    obtain ⟨-, h2⟩ := hpq
    omega
  exact (List.chain'_iff_pairwise.mp hd).imp Nat.ne_of_lt

/-- The left components of a spine are pairwise distinct. -/
theorem spine_fst_nodup (poss : Finset ℕ) (st stf : NT.HKS) (u : ℕ)
    (C : List (ℕ × ℕ)) (hS : Spine poss st stf u C) : (C.map Prod.fst).Nodup := by
  have hnd := spine_dist_nodup poss st stf u C hS
  have hmm : C.map (fun p => stf.dist.getD p.1 0)
      = (C.map Prod.fst).map (fun a => stf.dist.getD a 0) := by
    rw [List.map_map]
    rfl
  rw [hmm] at hnd
  exact List.Nodup.of_map _ hnd

/-- The right components of a spine are pairwise distinct. -/
theorem spine_snd_nodup (poss : Finset ℕ) (st stf : NT.HKS) (u : ℕ)
    (C : List (ℕ × ℕ)) (hS : Spine poss st stf u C) : (C.map Prod.snd).Nodup := by
  have hdnd := spine_dist_nodup poss st stf u C hS
  have hfst := spine_fst_nodup poss st stf u C hS
  obtain ⟨-, hchain, ⟨pl, hpl, hplv⟩, -, -, -, -⟩ := hS
  rw [List.nodup_map_iff_inj_on (List.Nodup.of_map _ hfst)]
  intro p hp q hq hpq
  rcases chain'_elem_last_or_succ _ C p hp hchain pl hpl with hple | ⟨p', hp'm, hp'R⟩
  · rcases chain'_elem_last_or_succ _ C q hq hchain pl hpl with hqle | ⟨q', hq'm, hq'R⟩
    · rw [hple, hqle]
    · have h := hq'R.1
      rw [← hpq, hple, hplv] at h
      cases h
  · rcases chain'_elem_last_or_succ _ C q hq hchain pl hpl with hqle | ⟨q', hq'm, hq'R⟩
    · have h := hp'R.1
      rw [hpq, hqle, hplv] at h
      cases h
    · have h1 := hp'R.1
      have h2 := hq'R.1
      rw [hpq] at h1
      rw [h1] at h2
      have hinj : p' = q' := List.inj_on_of_nodup_map hfst hp'm hq'm
        (Option.some.inj h2)
      have hd1 := hp'R.2
      have hd2 := hq'R.2
      rw [hinj] at hd1
      exact List.inj_on_of_nodup_map hdnd hp hq (by omega)

theorem applyV_length (C : List (ℕ × ℕ)) (pV : List (Option ℕ)) :
    (applyV C pV).length = pV.length := by
  induction C with
  | nil => rfl
  | cons c rest ih =>
      show ((applyV rest pV).set c.2 (some c.1)).length = _
      rw [List.length_set, ih]

theorem applyU_length (C : List (ℕ × ℕ)) (pU : List (Option ℕ)) :
    (applyU C pU).length = pU.length := by
  induction C with
  | nil => rfl
  | cons c rest ih =>
      show ((applyU rest pU).set c.1 (some c.2)).length = _
      rw [List.length_set, ih]

theorem applyV_getD_of_mem (pV : List (Option ℕ)) :
    ∀ (C : List (ℕ × ℕ)) (p : ℕ × ℕ), (C.map Prod.snd).Nodup → p ∈ C →
      p.2 < pV.length → (applyV C pV).getD p.2 none = some p.1
  | [], p, _, hp, _ => absurd hp (List.not_mem_nil p)
  | c :: rest, p, hnd, hp, hbnd => by
    show ((applyV rest pV).set c.2 (some c.1)).getD p.2 none = some p.1
    rw [List.map_cons, List.nodup_cons] at hnd
    rcases List.mem_cons.mp hp with hpe | hpm
    · rw [hpe, getD_set_eq _ _ _ _ (by rw [applyV_length]; rw [hpe] at hbnd; exact hbnd)]
    · have hne : c.2 ≠ p.2 := fun hc =>
        hnd.1 (hc ▸ List.mem_map_of_mem Prod.snd hpm)
      rw [getD_set_ne _ _ _ _ _ hne]
      exact applyV_getD_of_mem pV rest p hnd.2 hpm hbnd

theorem applyU_getD_of_mem (pU : List (Option ℕ)) :
    ∀ (C : List (ℕ × ℕ)) (p : ℕ × ℕ), (C.map Prod.fst).Nodup → p ∈ C →
      p.1 < pU.length → (applyU C pU).getD p.1 none = some p.2
  | [], p, _, hp, _ => absurd hp (List.not_mem_nil p)
  | c :: rest, p, hnd, hp, hbnd => by
    show ((applyU rest pU).set c.1 (some c.2)).getD p.1 none = some p.2
    rw [List.map_cons, List.nodup_cons] at hnd
    rcases List.mem_cons.mp hp with hpe | hpm
    · rw [hpe, getD_set_eq _ _ _ _ (by rw [applyU_length]; rw [hpe] at hbnd; exact hbnd)]
    · have hne : c.1 ≠ p.1 := fun hc =>
        hnd.1 (hc ▸ List.mem_map_of_mem Prod.fst hpm)
      rw [getD_set_ne _ _ _ _ _ hne]
      exact applyU_getD_of_mem pU rest p hnd.2 hpm hbnd

theorem applyV_getD_of_not_mem (pV : List (Option ℕ)) :
    ∀ (C : List (ℕ × ℕ)) (x : ℕ), (∀ p ∈ C, p.2 ≠ x) →
      (applyV C pV).getD x none = pV.getD x none
  | [], _, _ => rfl
  | c :: rest, x, hx => by
    show ((applyV rest pV).set c.2 (some c.1)).getD x none = _
    rw [getD_set_ne _ _ _ _ _ (hx c (List.mem_cons_self c rest))]
    exact applyV_getD_of_not_mem pV rest x
      (fun p hp => hx p (List.mem_cons_of_mem c hp))

theorem applyU_getD_of_not_mem (pU : List (Option ℕ)) :
    ∀ (C : List (ℕ × ℕ)) (x : ℕ), (∀ p ∈ C, p.1 ≠ x) →
      (applyU C pU).getD x none = pU.getD x none
  | [], _, _ => rfl
  | c :: rest, x, hx => by
    show ((applyU rest pU).set c.1 (some c.2)).getD x none = _
    rw [getD_set_ne _ _ _ _ _ (hx c (List.mem_cons_self c rest))]
    exact applyU_getD_of_not_mem pU rest x
      (fun p hp => hx p (List.mem_cons_of_mem c hp))

set_option maxHeartbeats 800000 in
theorem spine_matched (n : ℕ) (poss : Finset ℕ) (hposs : ∀ v ∈ poss, v < n)
    (st stf : NT.HKS) (u : ℕ) (hu : u < n) (hun : st.pairU.getD u none = none)
    (hM : Matched st) (hB : PairsBound n st)
    (C : List (ℕ × ℕ)) (hS : Spine poss st stf u C) :
    Matched stf ∧ PairsBound n stf := by
  have hfst := spine_fst_nodup poss st stf u C hS
  have hsnd := spine_snd_nodup poss st stf u C hS
  obtain ⟨⟨p₀, hp₀, hp₀u⟩, hchain, ⟨pl, hpl, hplv⟩, hposs2, hfV, hfU, -⟩ := hS
  obtain ⟨hlU, hlV, hbU, hbV⟩ := hB
  have hvbnd : ∀ p ∈ C, p.2 < n := fun p hp => hposs p.2 (hposs2 p hp)
  have hubnd : ∀ p ∈ C, p.1 < n := by
    intro p hp
    rcases chain'_elem_head_or_succ _ C p hp hchain p₀ hp₀ with he | ⟨q, hq, hR⟩
    · rw [he, hp₀u]
      exact hu
    · exact hbV _ _ hR.1
  have hVmem : ∀ p ∈ C, stf.pairV.getD p.2 none = some p.1 := by
    intro p hp
    rw [hfV]
    exact applyV_getD_of_mem st.pairV C p hsnd hp (by rw [hlV]; exact hvbnd p hp)
  have hUmem : ∀ p ∈ C, stf.pairU.getD p.1 none = some p.2 := by
    intro p hp
    rw [hfU]
    exact applyU_getD_of_mem st.pairU C p hfst hp (by rw [hlU]; exact hubnd p hp)
  have hVnot : ∀ x, (∀ p ∈ C, p.2 ≠ x) →
      stf.pairV.getD x none = st.pairV.getD x none := by
    intro x hx
    rw [hfV]
    exact applyV_getD_of_not_mem st.pairV C x hx
  have hUnot : ∀ x, (∀ p ∈ C, p.1 ≠ x) →
      stf.pairU.getD x none = st.pairU.getD x none := by
    intro x hx
    rw [hfU]
    exact applyU_getD_of_not_mem st.pairU C x hx
  have hMf : Matched stf := by
    intro a b
    by_cases ha : ∃ p ∈ C, p.1 = a
    · obtain ⟨p, hpC, hpa⟩ := ha
      have hUa : stf.pairU.getD a none = some p.2 := by
        rw [← hpa]
        exact hUmem p hpC
      rw [hUa]
      constructor
      · intro h
        have hb : b = p.2 := (Option.some.inj h).symm
        rw [hb, hVmem p hpC, hpa]
      · intro h
        by_cases hb : ∃ r ∈ C, r.2 = b
        · obtain ⟨r, hrC, hrb⟩ := hb
          have hVb : stf.pairV.getD b none = some r.1 := by
            rw [← hrb]
            exact hVmem r hrC
          rw [hVb] at h
          have hra : r.1 = a := Option.some.inj h
          have hrp : r = p := List.inj_on_of_nodup_map hfst hrC hpC
            (by rw [hra, hpa])
          rw [← hrp, hrb]
        · push_neg at hb
          rw [hVnot b hb] at h
          rcases chain'_elem_head_or_succ _ C p hpC hchain p₀ hp₀ with
              he | ⟨q, hqC, hR⟩
          · exfalso
            have hau : a = u := by rw [← hpa, he, hp₀u]
            rw [hau] at h
            have := (hM u b).mpr h
            rw [hun] at this
            cases this
          · exfalso
            have h1 : st.pairU.getD a none = some b := (hM a b).mpr h
            have h2 : st.pairU.getD a none = some q.2 := by
              apply (hM a q.2).mpr
              rw [← hpa]
              exact hR.1
            rw [h1] at h2
            exact hb q hqC (Option.some.inj h2).symm
    · push_neg at ha
      rw [hUnot a ha]
      constructor
      · intro h
        have hVb : st.pairV.getD b none = some a := (hM a b).mp h
        by_cases hb : ∃ r ∈ C, r.2 = b
        · obtain ⟨r, hrC, hrb⟩ := hb
          exfalso
          rcases chain'_elem_last_or_succ _ C r hrC hchain pl hpl with
              he | ⟨q, hqC, hR⟩
          · rw [← hrb, he, hplv] at hVb
            cases hVb
          · have := hR.1
            rw [hrb, hVb] at this
            exact ha q hqC (Option.some.inj this).symm
        · push_neg at hb
          rw [hVnot b hb]
          exact hVb
      · intro h
        by_cases hb : ∃ r ∈ C, r.2 = b
        · obtain ⟨r, hrC, hrb⟩ := hb
          exfalso
          have hVb : stf.pairV.getD b none = some r.1 := by
            rw [← hrb]
            exact hVmem r hrC
          rw [hVb] at h
          exact ha r hrC (Option.some.inj h)
        · push_neg at hb
          rw [hVnot b hb] at h
          exact (hM a b).mpr h
  refine ⟨hMf, ?_, ?_, ?_, ?_⟩
  · rw [hfU, applyU_length]
    exact hlU
  · rw [hfV, applyV_length]
    exact hlV
  · intro a b h
    by_cases ha : ∃ p ∈ C, p.1 = a
    · obtain ⟨p, hpC, hpa⟩ := ha
      have hUa : stf.pairU.getD a none = some p.2 := by
        rw [← hpa]
        exact hUmem p hpC
      rw [hUa] at h
      rw [← Option.some.inj h]
      exact hvbnd p hpC
    · push_neg at ha
      rw [hUnot a ha] at h
      exact hbU a b h
  · intro a b h
    by_cases hb : ∃ r ∈ C, r.2 = b
    · obtain ⟨r, hrC, hrb⟩ := hb
      have hVb : stf.pairV.getD b none = some r.1 := by
        rw [← hrb]
        exact hVmem r hrC
      rw [hVb] at h
      rw [← Option.some.inj h]
      exact hubnd r hrC
    · push_neg at hb
      rw [hVnot b hb] at h
      exact hbV a b h

theorem dfsGo_matched (g : Graph) (n : ℕ) (poss : Finset ℕ)
    (hposs : ∀ v ∈ poss, v < n) (fuel : ℕ) (u : ℕ) (st : NT.HKS)
    (hu : u < n) (hun : st.pairU.getD u none = none)
    (hM : Matched st) (hB : PairsBound n st) :
    Matched (NT.dfsGo g poss fuel u (g.adj u) st).2 ∧
    PairsBound n (NT.dfsGo g poss fuel u (g.adj u) st).2 := by
  obtain ⟨-, -, hfalse, htrue⟩ := dfsGo_spec g poss fuel u (g.adj u) st
  rcases hb : (NT.dfsGo g poss fuel u (g.adj u) st).1 with _ | _
  · obtain ⟨h1, h2⟩ := hfalse hb
    constructor
    · intro a b
      rw [h1, h2]
      exact hM a b
    · obtain ⟨hlU, hlV, hbU, hbV⟩ := hB
      refine ⟨by rw [h1]; exact hlU, by rw [h2]; exact hlV, ?_, ?_⟩
      · intro a b h
        rw [h1] at h
        exact hbU a b h
      · intro a b h
        rw [h2] at h
        exact hbV a b h
  · obtain ⟨C, hC⟩ := htrue hb
    exact spine_matched n poss hposs st _ u hu hun hM hB C hC

theorem bfs_pairs (g : Graph) (poss : Finset ℕ) (st : NT.HKS) :
    (NT.bfs g poss st).1.pairU = st.pairU ∧ (NT.bfs g poss st).1.pairV = st.pairV :=
  ⟨rfl, rfl⟩

theorem dfsPass_matched (g : Graph) (poss : Finset ℕ)
    (hposs : ∀ v ∈ poss, v < g.numVertices) (fuel : ℕ) :
    ∀ (us : List ℕ) (st : NT.HKS), Matched st → PairsBound g.numVertices st →
      Matched (NT.dfsPass g poss fuel us st) ∧
      PairsBound g.numVertices (NT.dfsPass g poss fuel us st)
  | [], st, hM, hB => ⟨hM, hB⟩
  | u :: us, st, hM, hB => by
    by_cases h1 : u ∈ poss
    · by_cases h2 : st.pairU.getD u none = none
      · have heq : NT.dfsPass g poss fuel (u :: us) st
            = NT.dfsPass g poss fuel us (NT.dfsGo g poss fuel u (g.adj u) st).2 := by
          show (if u ∈ poss && decide (st.pairU.getD u none = none) then _ else _) = _
          rw [if_pos (by rw [decide_eq_true h1, decide_eq_true h2]; rfl)]
        rw [heq]
        obtain ⟨hM', hB'⟩ := dfsGo_matched g g.numVertices poss hposs fuel u st
          (hposs u h1) h2 hM hB
        exact dfsPass_matched g poss hposs fuel us _ hM' hB'
      · have heq : NT.dfsPass g poss fuel (u :: us) st
            = NT.dfsPass g poss fuel us st := by
          show (if u ∈ poss && decide (st.pairU.getD u none = none) then _ else _) = _
          rw [if_neg (by rw [decide_eq_true h1, decide_eq_false h2]; decide)]
        rw [heq]
        exact dfsPass_matched g poss hposs fuel us st hM hB
    · have heq : NT.dfsPass g poss fuel (u :: us) st
          = NT.dfsPass g poss fuel us st := by
        show (if u ∈ poss && decide (st.pairU.getD u none = none) then _ else _) = _
        rw [if_neg (by rw [decide_eq_false h1, Bool.false_and]; exact Bool.false_ne_true)]
      rw [heq]
      exact dfsPass_matched g poss hposs fuel us st hM hB

theorem matchingLoop_matched (g : Graph) (poss : Finset ℕ)
    (hposs : ∀ v ∈ poss, v < g.numVertices) :
    ∀ (fuel : ℕ) (st : NT.HKS), Matched st → PairsBound g.numVertices st →
      Matched (NT.matchingLoop g poss fuel st) ∧
      PairsBound g.numVertices (NT.matchingLoop g poss fuel st)
  | 0, st, hM, hB => ⟨hM, hB⟩
  | fuel + 1, st, hM, hB => by
    have hM1 : Matched (NT.bfs g poss st).1 := by
      intro a b
      rw [(bfs_pairs g poss st).1, (bfs_pairs g poss st).2]
      exact hM a b
    have hB1 : PairsBound g.numVertices (NT.bfs g poss st).1 := by
      obtain ⟨hlU, hlV, hbU, hbV⟩ := hB
      refine ⟨by rw [(bfs_pairs g poss st).1]; exact hlU,
        by rw [(bfs_pairs g poss st).2]; exact hlV, ?_, ?_⟩
      · intro a b h
        rw [(bfs_pairs g poss st).1] at h
        exact hbU a b h
      · intro a b h
        rw [(bfs_pairs g poss st).2] at h
        exact hbV a b h
    by_cases hr : (NT.bfs g poss st).2 = true
    · have heq : NT.matchingLoop g poss (fuel + 1) st
          = NT.matchingLoop g poss fuel
            (NT.dfsPass g poss ((g.numVertices + 1) * (g.numVertices + 1))
              (List.range g.numVertices) (NT.bfs g poss st).1) := by
        show (if (NT.bfs g poss st).2 then _ else _) = _
        rw [if_pos hr]
      rw [heq]
      obtain ⟨hM2, hB2⟩ := dfsPass_matched g poss hposs _ (List.range g.numVertices)
        (NT.bfs g poss st).1 hM1 hB1
      exact matchingLoop_matched g poss hposs fuel _ hM2 hB2
    · have heq : NT.matchingLoop g poss (fuel + 1) st = (NT.bfs g poss st).1 := by
        show (if (NT.bfs g poss st).2 then _ else _) = _
        rw [if_neg hr]
      rw [heq]
      exact ⟨hM1, hB1⟩

theorem computeMaxMatching_matched (g : Graph) (poss : Finset ℕ)
    (hposs : ∀ v ∈ poss, v < g.numVertices) :
    Matched (NT.computeMaxMatching g poss) ∧
    PairsBound g.numVertices (NT.computeMaxMatching g poss) := by
  apply matchingLoop_matched g poss hposs
  · intro a b
    rw [getD_replicate_self, getD_replicate_self]
    constructor <;> intro h <;> cases h
  · refine ⟨List.length_replicate _ _, List.length_replicate _ _, ?_, ?_⟩
    · intro a b h
      rw [getD_replicate_self] at h
      cases h
    · intro a b h
      rw [getD_replicate_self] at h
      cases h

set_option maxHeartbeats 1600000 in
theorem zbfsInner_spec (poss : Finset ℕ) (pairU pairV : List (Option ℕ)) (u : ℕ) :
    ∀ (vs : List ℕ) (acc : List ℕ × Finset ℕ × Finset ℕ),
      (acc.2.1 ⊆ (NT.zbfsInner poss pairU pairV u vs acc).2.1 ∧
       acc.2.2 ⊆ (NT.zbfsInner poss pairU pairV u vs acc).2.2) ∧
      (∀ x ∈ (NT.zbfsInner poss pairU pairV u vs acc).1,
        x ∈ acc.1 ∨ x ∈ (NT.zbfsInner poss pairU pairV u vs acc).2.1) ∧
      (∀ x ∈ acc.1, x ∈ (NT.zbfsInner poss pairU pairV u vs acc).1) ∧
      (∀ w ∈ vs, w ∈ poss → pairU.getD u none = some w ∨
        w ∈ (NT.zbfsInner poss pairU pairV u vs acc).2.2) ∧
      (∀ x ∈ (NT.zbfsInner poss pairU pairV u vs acc).2.1, x ∈ acc.2.1 ∨
        ∃ v', v' ∈ (NT.zbfsInner poss pairU pairV u vs acc).2.2 ∧
          pairV.getD v' none = some x) ∧
      (∀ x ∈ (NT.zbfsInner poss pairU pairV u vs acc).2.1, x ∈ acc.2.1 ∨
        x ∈ (NT.zbfsInner poss pairU pairV u vs acc).1)
  | [], acc => by
    refine ⟨⟨fun x hx => hx, fun x hx => hx⟩, fun x hx => Or.inl hx,
      fun x hx => hx, fun w hw => absurd hw (List.not_mem_nil w),
      fun x hx => Or.inl hx, fun x hx => Or.inl hx⟩
  | v :: vs, acc => by
    by_cases hv : v ∈ poss
    · by_cases hmatch : pairU.getD u none = some v
      · have heq : NT.zbfsInner poss pairU pairV u (v :: vs) acc
            = NT.zbfsInner poss pairU pairV u vs acc := by
          show (if v ∈ poss then _ else _) = _
          rw [if_pos hv, if_pos hmatch]
        rw [heq]
        obtain ⟨hmono, hq, hqold, hscan, hprov, hqnew⟩ :=
          zbfsInner_spec poss pairU pairV u vs acc
        refine ⟨hmono, hq, hqold, ?_, hprov, hqnew⟩
        intro w hw hwp
        rcases List.mem_cons.mp hw with hwe | hwm
        · rw [← hwe] at hmatch
          exact Or.inl hmatch
        · exact hscan w hwm hwp
      · by_cases hzr : v ∈ acc.2.2
        · have heq : NT.zbfsInner poss pairU pairV u (v :: vs) acc
              = NT.zbfsInner poss pairU pairV u vs acc := by
            show (if v ∈ poss then _ else _) = _
            rw [if_pos hv, if_neg hmatch, if_pos hzr]
          rw [heq]
          obtain ⟨hmono, hq, hqold, hscan, hprov, hqnew⟩ :=
            zbfsInner_spec poss pairU pairV u vs acc
          refine ⟨hmono, hq, hqold, ?_, hprov, hqnew⟩
          intro w hw hwp
          rcases List.mem_cons.mp hw with hwe | hwm
          · exact Or.inr (hmono.2 (hwe ▸ hzr))
          · exact hscan w hwm hwp
        · rcases hpv : pairV.getD v none with _ | w
          · have heq : NT.zbfsInner poss pairU pairV u (v :: vs) acc
                = NT.zbfsInner poss pairU pairV u vs
                  (acc.1, acc.2.1, insert v acc.2.2) := by
              show (if v ∈ poss then _ else _) = _
              rw [if_pos hv, if_neg hmatch, if_neg hzr, hpv]
            rw [heq]
            obtain ⟨hmono, hq, hqold, hscan, hprov, hqnew⟩ :=
              zbfsInner_spec poss pairU pairV u vs (acc.1, acc.2.1, insert v acc.2.2)
            refine ⟨⟨hmono.1, fun x hx => hmono.2 (Finset.mem_insert_of_mem hx)⟩,
              hq, hqold, ?_, hprov, hqnew⟩
            intro w' hw hwp
            rcases List.mem_cons.mp hw with hwe | hwm
            · exact Or.inr (hmono.2 (hwe ▸ Finset.mem_insert_self v acc.2.2))
            · exact hscan w' hwm hwp
          · by_cases hzl : w ∈ acc.2.1
            · have heq : NT.zbfsInner poss pairU pairV u (v :: vs) acc
                  = NT.zbfsInner poss pairU pairV u vs
                    (acc.1, acc.2.1, insert v acc.2.2) := by
                show (if v ∈ poss then _ else _) = _
                rw [if_pos hv, if_neg hmatch, if_neg hzr, hpv]
                show (if w ∈ acc.2.1 then _ else _) = _
                rw [if_pos hzl]
              rw [heq]
              obtain ⟨hmono, hq, hqold, hscan, hprov, hqnew⟩ :=
                zbfsInner_spec poss pairU pairV u vs
                  (acc.1, acc.2.1, insert v acc.2.2)
              refine ⟨⟨hmono.1, fun x hx => hmono.2 (Finset.mem_insert_of_mem hx)⟩,
                hq, hqold, ?_, hprov, hqnew⟩
              intro w' hw hwp
              rcases List.mem_cons.mp hw with hwe | hwm
              · exact Or.inr (hmono.2 (hwe ▸ Finset.mem_insert_self v acc.2.2))
              · exact hscan w' hwm hwp
            · have heq : NT.zbfsInner poss pairU pairV u (v :: vs) acc
                  = NT.zbfsInner poss pairU pairV u vs
                    (acc.1 ++ [w], insert w acc.2.1, insert v acc.2.2) := by
                show (if v ∈ poss then _ else _) = _
                rw [if_pos hv, if_neg hmatch, if_neg hzr, hpv]
                show (if w ∈ acc.2.1 then _ else _) = _
                rw [if_neg hzl]
              rw [heq]
              obtain ⟨hmono, hq, hqold, hscan, hprov, hqnew⟩ :=
                zbfsInner_spec poss pairU pairV u vs
                  (acc.1 ++ [w], insert w acc.2.1, insert v acc.2.2)
              refine ⟨⟨fun x hx => hmono.1 (Finset.mem_insert_of_mem hx),
                fun x hx => hmono.2 (Finset.mem_insert_of_mem hx)⟩, ?_, ?_, ?_, ?_, ?_⟩
              · intro x hx
                rcases hq x hx with hx1 | hx2
                · rcases List.mem_append.mp hx1 with hx3 | hx4
                  · exact Or.inl hx3
                  · refine Or.inr (hmono.1 ?_)
                    rw [List.mem_singleton.mp hx4]
                    exact Finset.mem_insert_self w acc.2.1
                · exact Or.inr hx2
              · intro x hx
                exact hqold x (List.mem_append.mpr (Or.inl hx))
              · intro w' hw hwp
                rcases List.mem_cons.mp hw with hwe | hwm
                · exact Or.inr (hmono.2 (hwe ▸ Finset.mem_insert_self v acc.2.2))
                · exact hscan w' hwm hwp
              · intro x hx
                rcases hprov x hx with hx1 | hx2
                · rcases Finset.mem_insert.mp hx1 with hxe | hxm
                  · refine Or.inr ⟨v, hmono.2 (Finset.mem_insert_self v acc.2.2), ?_⟩
                    rw [hxe]
                    exact hpv
                  · exact Or.inl hxm
                · exact Or.inr hx2
              · intro x hx
                rcases hqnew x hx with hx1 | hx2
                · rcases Finset.mem_insert.mp hx1 with hxe | hxm
                  · refine Or.inr (hqold x ?_)
                    rw [hxe]
                    exact List.mem_append.mpr (Or.inr (List.mem_singleton_self w))
                  · exact Or.inl hxm
                · exact Or.inr hx2
    · have heq : NT.zbfsInner poss pairU pairV u (v :: vs) acc
          = NT.zbfsInner poss pairU pairV u vs acc := by
        show (if v ∈ poss then _ else _) = _
        rw [if_neg hv]
      rw [heq]
      obtain ⟨hmono, hq, hqold, hscan, hprov, hqnew⟩ :=
        zbfsInner_spec poss pairU pairV u vs acc
      refine ⟨hmono, hq, hqold, ?_, hprov, hqnew⟩
      intro w hw hwp
      rcases List.mem_cons.mp hw with hwe | hwm
      · exact absurd hwp (hwe ▸ hv)
      · exact hscan w hwm hwp

theorem zbfs_spec (g : Graph) (poss : Finset ℕ) (pairU pairV : List (Option ℕ)) :
    ∀ (fuel : ℕ) (q : List ℕ) (ZL ZR ZLf ZRf : Finset ℕ),
      NT.zbfs g poss pairU pairV fuel q ZL ZR = some (ZLf, ZRf) →
      (∀ x ∈ q, x ∈ ZL) →
      (∀ x ∈ ZL, x ∈ q ∨
        ∀ w ∈ g.adj x, w ∈ poss → pairU.getD x none = some w ∨ w ∈ ZR) →
      (∀ x ∈ ZL, pairU.getD x none = none ∨ ∃ v ∈ ZR, pairV.getD v none = some x) →
      (∀ x ∈ ZLf, ∀ w ∈ g.adj x, w ∈ poss →
        pairU.getD x none = some w ∨ w ∈ ZRf) ∧
      (∀ x ∈ ZLf, pairU.getD x none = none ∨ ∃ v ∈ ZRf, pairV.getD v none = some x)
  | fuel, [], ZL, ZR, ZLf, ZRf => by
    intro heq hq hcl hprov
    have h1 : ZL = ZLf ∧ ZR = ZRf := by
      cases fuel with
      | zero =>
          injection heq with h
          injection h with h1 h2
          exact ⟨h1, h2⟩
      | succ f =>
          injection heq with h
          injection h with h1 h2
          exact ⟨h1, h2⟩
    obtain ⟨h1, h2⟩ := h1
    subst h1
    subst h2
    constructor
    · intro x hx w hw hwp
      rcases hcl x hx with hxq | hxc
      · exact absurd hxq (List.not_mem_nil x)
      · exact hxc w hw hwp
    · exact hprov
  | 0, u :: q, ZL, ZR, ZLf, ZRf => by
    intro heq
    cases heq
  | fuel + 1, u :: q, ZL, ZR, ZLf, ZRf => by
    intro heq hq hcl hprov
    have heq' : NT.zbfs g poss pairU pairV fuel
        (NT.zbfsInner poss pairU pairV u (g.adj u) (q, ZL, ZR)).1
        (NT.zbfsInner poss pairU pairV u (g.adj u) (q, ZL, ZR)).2.1
        (NT.zbfsInner poss pairU pairV u (g.adj u) (q, ZL, ZR)).2.2
        = some (ZLf, ZRf) := heq
    obtain ⟨hmono, hqz, hqold, hscan, hprovz, hqnew⟩ :=
      zbfsInner_spec poss pairU pairV u (g.adj u) (q, ZL, ZR)
    have hu : u ∈ ZL := hq u (List.mem_cons_self u q)
    refine zbfs_spec g poss pairU pairV fuel _ _ _ ZLf ZRf heq' ?_ ?_ ?_
    · intro x hx
      rcases hqz x hx with hx1 | hx2
      · exact hmono.1 (hq x (List.mem_cons_of_mem u hx1))
      · exact hx2
    · intro x hx
      rcases hqnew x hx with hxold | hxq
      · rcases hcl x hxold with hxq0 | hxc
        · rcases List.mem_cons.mp hxq0 with hxe | hxm
          · refine Or.inr ?_
            rw [hxe]
            exact hscan
          · exact Or.inl (hqold x hxm)
        · exact Or.inr (fun w hw hwp => (hxc w hw hwp).imp id (fun h => hmono.2 h))
      · exact Or.inl hxq
    · intro x hx
      rcases hprovz x hx with hxold | hxnew
      · rcases hprov x hxold with hn | ⟨v, hvZR, hvp⟩
        · exact Or.inl hn
        · exact Or.inr ⟨v, hmono.2 hvZR, hvp⟩
      · obtain ⟨v, hvZR, hvp⟩ := hxnew
        exact Or.inr ⟨v, hvZR, hvp⟩

set_option maxHeartbeats 800000 in
/-- The crown classification is sound: every live neighbour of a rule-4
excluded vertex is rule-4 included.  (This is the König cover property of
`Z_L`, `Z_R` together with the two-sided consistency of the computed
matching.) -/
theorem getKernelNodes_cover (g : Graph) (hWF : g.WF) (poss : Finset ℕ)
    (hposs : ∀ v ∈ poss, v < g.numVertices) :
    ∀ u ∈ (NT.getKernelNodes g poss).2, ∀ w ∈ g.adj u, w ∈ poss →
      w ∈ (NT.getKernelNodes g poss).1 := by
  obtain ⟨hM, hB⟩ := computeMaxMatching_matched g poss hposs
  simp only [NT.getKernelNodes]
  split
  · intro u hu
    exact absurd hu (List.not_mem_nil u)
  · rename_i ZL ZR heq
    obtain ⟨hclosure, hprov⟩ := zbfs_spec g poss
      (NT.computeMaxMatching g poss).pairU (NT.computeMaxMatching g poss).pairV
      _ _ _ _ ZL ZR heq
      (fun x hx => List.mem_toFinset.mpr hx)
      (fun x hx => Or.inl (List.mem_toFinset.mp hx))
      (fun x hx => by
        have hx2 := (List.mem_filter.mp (List.mem_toFinset.mp hx)).2
        rw [Bool.and_eq_true] at hx2
        exact Or.inl (of_decide_eq_true hx2.2))
    intro u hu w hw hwp
    have hu2 := List.mem_filter.mp hu
    have hult : u < g.numVertices := List.mem_range.mp hu2.1
    have hupred := hu2.2
    rw [Bool.and_eq_true, Bool.and_eq_true] at hupred
    have hup : u ∈ poss := of_decide_eq_true hupred.1.1
    have huZL : u ∈ ZL := of_decide_eq_true hupred.1.2
    have huZR : u ∉ ZR := of_decide_eq_true hupred.2
    -- (i) w ∈ ZR
    have hwZR : w ∈ ZR := by
      rcases hclosure u huZL w hw hwp with hmat | hin
      · rcases hprov u huZL with hnone | ⟨v, hvZR, hvp⟩
        · rw [hnone] at hmat
          cases hmat
        · have := (hM u v).mpr hvp
          rw [hmat] at this
          rw [Option.some.inj this]
          exact hvZR
      · exact hin
    -- (ii) w ∉ ZL
    have hwZL : w ∉ ZL := by
      intro hwZL
      have huadj : u ∈ g.adj w := hWF.adj_symm u w hult hw
      rcases hclosure w hwZL u huadj hup with hmat | hin
      · rcases hprov w hwZL with hnone | ⟨v, hvZR, hvp⟩
        · rw [hnone] at hmat
          cases hmat
        · have := (hM w v).mpr hvp
          rw [hmat] at this
          rw [← Option.some.inj this] at hvZR
          exact huZR hvZR
      · exact huZR hin
    refine List.mem_filter.mpr ⟨List.mem_range.mpr (hposs w hwp), ?_⟩
    rw [Bool.and_eq_true, Bool.and_eq_true]
    exact ⟨⟨decide_eq_true hwp, decide_eq_true hwZL⟩, decide_eq_true hwZR⟩

theorem rule1_ExcludedClosed (g : Graph) (s : State) (v : ℕ)
    (hInv : InvBasic g s) (hEC : ExcludedClosed g s)
    (hv : v ∈ s.possibleVertices) (hdeg : liveDegree g s.possibleVertices v = 0) :
    ExcludedClosed g (s.exclude v) := by
  have hvlt : v < s.isSelected.length := by
    rw [hInv.len]
    exact List.mem_range.mp (hInv.poss_sub hv)
  have hsets := exclude_sets s v hvlt
  intro x hx hxs hxp u hu
  rw [hsets.1] at hxs
  rw [hsets.2] at hxp
  rw [hsets.2]
  by_cases hxv : x = v
  · have hnil : (g.adj v).filter (fun u => decide (u ∈ s.possibleVertices)) = [] :=
      List.length_eq_zero.mp hdeg
    have hunp : u ∉ s.possibleVertices := by
      intro hup
      have : u ∈ (g.adj v).filter (fun u => decide (u ∈ s.possibleVertices)) :=
        List.mem_filter.mpr ⟨hxv ▸ hu, decide_eq_true hup⟩
      rw [hnil] at this
      exact absurd this (List.not_mem_nil u)
    exact fun hc => hunp (Finset.mem_of_mem_erase hc)
  · have hxp' : x ∉ s.possibleVertices := fun hc =>
      hxp (Finset.mem_erase.mpr ⟨hxv, hc⟩)
    exact fun hc =>
      hEC x hx hxs hxp' u hu (Finset.mem_of_mem_erase hc)

theorem rule4_ExcludedClosed (g : Graph) (hWF : g.WF) (s : State)
    (hInv : InvBasic g s) (hEC : ExcludedClosed g s) :
    ExcludedClosed g
      (excludeAll (includeAll s (NT.getKernelNodes g s.possibleVertices).1)
        (NT.getKernelNodes g s.possibleVertices).2) := by
  have hposs : ∀ v ∈ s.possibleVertices, v < g.numVertices :=
    fun v hv => List.mem_range.mp (hInv.poss_sub hv)
  have hmem := getKernelNodes_mem_poss g s.possibleVertices
  have hbnd0 : ∀ v ∈ (NT.getKernelNodes g s.possibleVertices).1,
      v < s.isSelected.length := by
    intro v hv
    rw [hInv.len]
    exact hposs v (hmem.1 v hv)
  have h1 := includeAll_sets (NT.getKernelNodes g s.possibleVertices).1 s hbnd0
  have hbnd1 : ∀ v ∈ (NT.getKernelNodes g s.possibleVertices).2,
      v < (includeAll s (NT.getKernelNodes g s.possibleVertices).1).isSelected.length := by
    intro v hv
    rw [includeAll_length, hInv.len]
    exact hposs v (hmem.2 v hv)
  have h2 := excludeAll_sets (NT.getKernelNodes g s.possibleVertices).2 _ hbnd1
  have hcover := getKernelNodes_cover g hWF s.possibleVertices hposs
  intro x hx hxs hxp u hu
  rw [h2.1, h1.1] at hxs
  rw [h2.2, h1.2] at hxp
  rw [h2.2, h1.2]
  by_cases hxposs : x ∈ s.possibleVertices
  · -- x was live and is now neither selected nor live: x was rule-4 excluded
    have hxP0 : x ∉ ((NT.getKernelNodes g s.possibleVertices).1).toFinset :=
      fun hc => hxs (Finset.mem_union_right _ hc)
    have hxP1 : x ∈ (NT.getKernelNodes g s.possibleVertices).2 := by
      by_contra hc
      exact hxp (Finset.mem_sdiff.mpr
        ⟨Finset.mem_sdiff.mpr ⟨hxposs, hxP0⟩, fun hm => hc (List.mem_toFinset.mp hm)⟩)
    intro hc
    have hup : u ∈ s.possibleVertices :=
      (Finset.mem_sdiff.mp (Finset.mem_sdiff.mp hc).1).1
    have huP0 := hcover x hxP1 u hu hup
    exact (Finset.mem_sdiff.mp (Finset.mem_sdiff.mp hc).1).2
      (List.mem_toFinset.mpr huP0)
  · by_cases hxsel : x ∈ s.selectedVertices
    · exact absurd (Finset.mem_union_left _ hxsel) hxs
    · intro hc
      exact hEC x hx hxsel hxposs u hu
        (Finset.mem_sdiff.mp (Finset.mem_sdiff.mp hc).1).1

theorem kernelization_ExcludedClosed (g : Graph) (hWF : g.WF) (a : ℕ) (s : State)
    (hInv : InvBasic g s) (hEC : ExcludedClosed g s) :
    ExcludedClosed g (kernelization g a s).2 := by
  unfold kernelization
  split
  · rename_i v heq
    have hpred := List.find?_some heq
    rw [Bool.and_eq_true] at hpred
    exact rule1_ExcludedClosed g s v hInv hEC (of_decide_eq_true hpred.1)
      (of_decide_eq_true hpred.2)
  · split
    · exact include'_ExcludedClosed g s _ hEC
    · split
      · exact include'_ExcludedClosed g s _ hEC
      · split
        · split
          · exact rule4_ExcludedClosed g hWF s hInv hEC
          · exact hEC
        · exact hEC

theorem kreach_ExcludedClosed (g : Graph) (hWF : g.WF) (s : State)
    (h : KReach g s) : InvBasic g s ∧ ExcludedClosed g s := by
  induction h with
  | root =>
      refine ⟨⟨List.length_replicate _ _, by simp [State.new], by simp [State.new],
        fun x hx => hx⟩, ?_⟩
      intro v hv hvs hvp u hu
      exact absurd (Finset.mem_range.mpr hv) hvp
  | kernel s ans hs ih =>
      exact ⟨kernelization_InvBasic g ans s ih.1,
        kernelization_ExcludedClosed g hWF ans s ih.1 ih.2⟩

end C3Invariants

section UCTSampling

/-- `totalVisits` in `UCT::sampling`: the sum of the children's visit
counts. -/
noncomputable def totalVisits (children : List Node) : ℝ :=
  (children.map (fun c => ((c.visits : ℝ)))).sum

/-- The per-child weights exactly as `UCT::sampling` computes them:
`max(0, value + 2·β·√(2·log(max(1, child.visits)) / max(1, totalVisits)))`. -/
noncomputable def samplingWeights (children : List Node) (β : ℝ) : List ℝ :=
  children.map (fun c => max 0 (c.value
    + 2 * β * Real.sqrt (2 * Real.log (max 1 ((c.visits : ℝ)))
        / max 1 (totalVisits children))))

/-- The weights the spec's formula prescribes —
`score(c) = c.value + 2·β·√(2·ln(n.visits) / (1e-6 + c.visits))` with `n` the
parent — written from the spec's words for refinement comparison with
`samplingWeights` (which follows the source). -/
noncomputable def specScoreWeights (parentVisits : ℕ) (children : List Node)
    (β : ℝ) : List ℝ :=
  children.map (fun c => max 0 (c.value
    + 2 * β * Real.sqrt (2 * Real.log ((parentVisits : ℝ))
        / (1 / 1000000 + ((c.visits : ℝ))))))

/-- The roulette scan of `UCT::sampling`: the first index whose cumulative
weight reaches `r` (the C++ partial-sum loop followed by the
`r <= weights[i]` scan). -/
noncomputable def rouletteIndex (ws : List ℝ) (r : ℝ) : Option ℕ :=
  (List.range ws.length).find? (fun i => decide (r ≤ (ws.take (i + 1)).sum))

/-- `UCT::sampling`: scale a uniform draw `u ∈ [0,1]` by the weight sum and
return the first child whose cumulative weight reaches it; `none` models the
final `assert(false)` fallthrough. -/
noncomputable def UCT.sampling (children : List Node) (β : ℝ) (u : ℝ) : Option Node :=
  match rouletteIndex (samplingWeights children β)
      (u * (samplingWeights children β).sum) with
  | some i => children[i]?
  | none => none

/-- A leaf with one visit and value 0, for the C4 counterexample. -/
def c4leaf : Node := .mk (State.new 1) 1 0 0 []

end UCTSampling

/-- The hexagon `C_6` of the spec's S4 acceptance row. -/
def hexC6 : Graph := Graph.ofEdges 6 [(0, 1), (1, 2), (2, 3), (3, 4), (4, 5), (5, 0)]

/-- C9, counterexample: on the hexagon `C_6` the coarse graph's adjacency
list of super-node 0 contains duplicate entries (the C++ inserts every coarse
edge once from each endpoint's neighbour set, so each neighbour appears
twice), refuting the claim that multi-edges are deduped in the adjacency
lists.  The vertex-count and total-weight parts of the claim do hold:
at most 6 super-nodes and total weight 6. -/
theorem claim_C9_counterexample :
    ¬ ((coarsenGraph hexC6).1.adj 0).Nodup ∧
    (coarsenGraph hexC6).1.numVertices ≤ 6 ∧
    (coarsenGraph hexC6).1.weights.sum = 6 := by
  refine ⟨by decide, by decide, by decide⟩

/-- C9 (amended): for every well-formed graph, `coarsenGraph` preserves the
total vertex weight, does not increase the vertex count, and produces
self-loop-free adjacency lists in which every neighbour appears exactly
twice (once inserted from each endpoint's neighbour set) — so the lists are
loop-free and double each coarse edge rather than being duplicate-free. -/
theorem claim_C9_coarsen_weight_and_adjacency (g : Graph) (hWF : g.WF) :
    (coarsenGraph g).1.weights.sum = g.weights.sum ∧
    (coarsenGraph g).1.numVertices ≤ g.numVertices ∧
    (∀ i, i ∉ (coarsenGraph g).1.adj i) ∧
    (∀ i j, List.count j ((coarsenGraph g).1.adj i)
      = 2 * (if j ∈ (coarseNbrSets g (coarsenGroups g)).getD i ∅ then 1 else 0)) := by
  rw [coarsenGraph_eq]
  refine ⟨coarsenGraph_weight_sum g hWF, ?_, coarseG2_no_selfloop g,
    coarseG2_adj_count g⟩
  rw [coarseG2_num]
  exact coarsenGroups_length_le g hWF

/-- Witness for C9 at the hexagon. -/
theorem claim_C9_witness :
    (coarsenGraph hexC6).1.weights.sum = hexC6.weights.sum ∧
    (coarsenGraph hexC6).1.numVertices ≤ hexC6.numVertices ∧
    (∀ i, i ∉ (coarsenGraph hexC6).1.adj i) ∧
    (∀ i j, List.count j ((coarsenGraph hexC6).1.adj i)
      = 2 * (if j ∈ (coarseNbrSets hexC6 (coarsenGroups hexC6)).getD i ∅ then 1 else 0)) :=
  claim_C9_coarsen_weight_and_adjacency hexC6 (Graph.wf_of_check _ (by decide))

/-- C4, counterexample: on two one-visit value-0 children with parent visit
count 2 and `β = 1`, the source's weights are `[0, 0]` (it takes
`log(max(1, child.visits)) = log 1 = 0`), while the spec's formula
`c.value + 2·β·√(2·ln(n.visits)/(1e-6 + c.visits))` gives strictly positive
weights (`ln 2 > 0`); the code does not implement the spec's score. -/
theorem claim_C4_counterexample :
    samplingWeights [c4leaf, c4leaf] 1 = [0, 0] ∧
    specScoreWeights 2 [c4leaf, c4leaf] 1 ≠ samplingWeights [c4leaf, c4leaf] 1 := by
  have hsrc : samplingWeights [c4leaf, c4leaf] 1 = [0, 0] := by
    unfold samplingWeights totalVisits c4leaf
    simp [Node.value, Node.visits, Real.log_one, Real.sqrt_zero]
  refine ⟨hsrc, ?_⟩
  intro h
  rw [hsrc] at h
  have hpos : 0 < 2 * Real.sqrt (2 * Real.log ((2 : ℕ) : ℝ)
      / (1 / 1000000 + (((1 : ℕ) : ℕ) : ℝ))) := by
    have hl : 0 < Real.log 2 := Real.log_pos (by norm_num)
    have harg : 0 < 2 * Real.log 2 / (1 / 1000000 + 1) := by
      apply div_pos (by linarith) (by norm_num)
    have := Real.sqrt_pos.mpr (by simpa using harg)
    linarith
  have hhead : specScoreWeights 2 [c4leaf, c4leaf] 1
      = (max 0 (Node.value c4leaf + 2 * 1 * Real.sqrt (2 * Real.log ((2 : ℕ) : ℝ)
          / (1 / 1000000 + ((Node.visits c4leaf : ℕ) : ℝ))))) ::
        specScoreWeights 2 [c4leaf] 1 := rfl
  rw [hhead] at h
  have h0 := (List.cons.injEq _ _ _ _).mp h |>.1
  rw [show Node.value c4leaf = 0 from rfl, show Node.visits c4leaf = 1 from rfl] at h0
  rw [max_eq_right (by positivity)] at h0
  simp only [zero_add, mul_one] at h0
  rw [h0] at hpos
  simp at hpos

/-- C4 (amended): `UCT::sampling` is roulette sampling over the weights
`max(0, c.value + 2·β·√(2·log(max(1, c.visits)) / max(1, Σ visits)))` — the
logarithm is of the child's own clamped visit count and the denominator is
the clamped total of the children's visits, not the spec's
`ln(n.visits)/(1e-6 + c.visits)`.  For every nonempty children vector and
every uniform draw `u ∈ [0,1]` the scan returns one of the children (the
trailing `assert(false)` is unreachable). -/
theorem claim_C4_sampling_roulette (children : List Node) (β u : ℝ)
    (hne : children ≠ []) (_hu0 : 0 ≤ u) (hu1 : u ≤ 1) :
    ∃ c, UCT.sampling children β u = some c ∧ c ∈ children := by
  have hlen : 0 < children.length := List.length_pos.mpr hne
  have hwlen : (samplingWeights children β).length = children.length :=
    List.length_map _ _
  have hnonneg : ∀ w ∈ samplingWeights children β, 0 ≤ w := by
    intro w hw
    obtain ⟨c, _, rfl⟩ := List.mem_map.mp hw
    exact le_max_left 0 _
  have hsum0 : 0 ≤ (samplingWeights children β).sum := List.sum_nonneg hnonneg
  have hr : u * (samplingWeights children β).sum ≤ (samplingWeights children β).sum := by
    nlinarith
  have hex : rouletteIndex (samplingWeights children β)
      (u * (samplingWeights children β).sum) ≠ none := by
    unfold rouletteIndex
    intro hc
    rw [List.find?_eq_none] at hc
    refine hc ((samplingWeights children β).length - 1)
      (List.mem_range.mpr (by omega)) ?_
    rw [show (samplingWeights children β).length - 1 + 1
        = (samplingWeights children β).length from by omega, List.take_length]
    exact decide_eq_true hr
  rcases hfind : rouletteIndex (samplingWeights children β)
      (u * (samplingWeights children β).sum) with _ | i
  · exact absurd hfind hex
  · have hfind' : (List.range (samplingWeights children β).length).find?
        (fun i => decide (u * (samplingWeights children β).sum
          ≤ ((samplingWeights children β).take (i + 1)).sum)) = some i := hfind
    have hi : i < children.length := by
      rw [← hwlen]
      exact List.mem_range.mp (List.mem_of_find?_eq_some hfind')
    refine ⟨children[i], ?_, List.getElem_mem hi⟩
    unfold UCT.sampling
    rw [hfind]
    exact List.getElem?_eq_getElem hi

/-- Witness for C4 at a singleton child list with `β = 0`, `u = 0`. -/
theorem claim_C4_witness :
    ∃ c, UCT.sampling [c4leaf] 0 0 = some c ∧ c ∈ [c4leaf] :=
  claim_C4_sampling_roulette [c4leaf] 0 0 (List.cons_ne_nil _ _) le_rfl zero_le_one

/-- The 7-vertex counterexample graph for C3: a pentagon on vertices
`2..6`, vertex `0` adjacent to all of `1..6`, vertex `1` adjacent to `0`
and `2`.  The unique maximal-degree-difference live edge of the fresh root
is `(0, 1)`. -/
def g7 : Graph := Graph.ofEdges 7
  [(2, 3), (3, 4), (4, 5), (5, 6), (6, 2), (0, 1), (0, 2), (0, 3), (0, 4),
   (0, 5), (0, 6), (1, 2)]

/-- The second `expand` child of the root of `g7`: include endpoint `1`,
exclude endpoint `0` of the branching edge `(0, 1)`. -/
def s7C3 : State := ((State.new 7).include' 1).exclude 0

set_option maxRecDepth 8000 in
/-- C3, counterexample: the second `MCTS::expand` child of the root of `g7`
excludes vertex `0` while its neighbours `2..6` are still live, violating
the claim's third conjunct.  The root of `g7` is its own kernelization fixed
point (so the driver really does expand it), the branching edge chosen by
`selectActionEdge` is `(0, 1)`, and the child state is itself a kernelization
fixed point, so the violation survives the child's kernelization. -/
theorem claim_C3_counterexample :
    Reach g7 s7C3 ∧
    selectActionEdge g7 (State.new 7) = some (0, 1) ∧
    (kernelization g7 7 (State.new 7)).1 = false ∧
    (kernelization g7 7 s7C3).1 = false ∧
    ¬ ExcludedClosed g7 s7C3 := by
  refine ⟨Reach.expand2 (State.new 7) (0, 1) Reach.root (by decide), by decide,
    by decide, by decide, ?_⟩
  intro h
  exact absurd (by decide : (2 : ℕ) ∈ s7C3.possibleVertices)
    (h 0 (by decide) (by decide) (by decide) 2 (by decide))

/-- C3 (amended): for every well-formed graph, every state reachable through
driver construction, expansion, and kernelization keeps `selected` and
`possible` disjoint with `|selected| + |possible| + |excluded| = N`; the
third conjunct — every neighbour of an excluded vertex is itself selected or
excluded — holds for the states reachable by construction and kernelization
alone, but not in general after `expand` (see the counterexample: the second
child excludes a branching-edge endpoint whose other neighbours stay
live). -/
theorem claim_C3_invariants (g : Graph) (hWF : g.WF) :
    (∀ s, Reach g s →
      Disjoint s.selectedVertices s.possibleVertices ∧
      s.selectedVertices.card + s.possibleVertices.card
        + (excludedVertices g s).card = g.numVertices) ∧
    (∀ s, KReach g s →
      ∀ v, v < g.numVertices → v ∉ s.selectedVertices → v ∉ s.possibleVertices →
        ∀ u ∈ g.adj v, u ∉ s.possibleVertices) := by
  constructor
  · intro s hs
    have h := reach_InvBasic g s hs
    exact ⟨h.disj, InvBasic.card_sum g s h⟩
  · intro s hs
    exact (kreach_ExcludedClosed g hWF s hs).2

/-- Witness for C3 at the concrete graph `g7`. -/
theorem claim_C3_witness :
    (∀ s, Reach g7 s →
      Disjoint s.selectedVertices s.possibleVertices ∧
      s.selectedVertices.card + s.possibleVertices.card
        + (excludedVertices g7 s).card = g7.numVertices) ∧
    (∀ s, KReach g7 s →
      ∀ v, v < g7.numVertices → v ∉ s.selectedVertices → v ∉ s.possibleVertices →
        ∀ u ∈ g7.adj v, u ∉ s.possibleVertices) :=
  claim_C3_invariants g7 (Graph.wf_of_check _ (by decide))

end MVC
